import Mathlib

/-!
A shallow embedding of `ucterm.c`, the line-editing engine of a byte-oriented
console.

* Bytes (`uint8_t`) are natural numbers; every `uint8_t` increment or
  decrement is written with an explicit `% 256`.
* The line buffer `buf[MAX_STR_LEN]`, the escape buffer `esc_buf[MAX_ESC_LEN]`
  and the pointer array `argv[MAX_ARG_COUNT]` are lists.  A pointer into `buf`
  is the offset it points at; `NULL` is `none`.
* Every memory access is bounds checked: a read or write outside the object
  makes the operation return `none`.
* The three callbacks `printChr`, `printStr` and `exec` are external; the
  embedding records each invocation, with the bytes the callee can read at
  that moment, in the field `out` of the state.
-/

namespace UcTerm

/-! ## Constants of `ucterm.c` -/

def OUT_NEWLINE_STR : List Nat := [13, 10]
def OUT_UNKNOWN_STR : List Nat := [13, 10, 63, 13, 10, 62]
def OUT_PROMPT_STR : List Nat := [27, 91, 48, 109, 13, 10, 62]
def PROMPT_WIDTH : Nat := 1
def OUT_CHA_2 : List Nat := [27, 91, 50, 71]
def OUT_L_ARROW : List Nat := [27, 91, 68]
def OUT_R_ARROW : List Nat := [27, 91, 67]
def OUT_ERASE_END : List Nat := [27, 91, 75]
def ESC_HEADER : Nat := 27
def ESC_SEPRTR : Nat := 91
def KEY_ENTER_LF : Nat := 10
def KEY_ENTER_CR : Nat := 13
def KEY_BACKSPACE : Nat := 8
def KEY_DELETE : Nat := 127
def CTRL_A : Nat := 1
def CTRL_E : Nat := 5
def Ctrl_B : Nat := 2
def Ctrl_F : Nat := 6
def CTRL_K : Nat := 11
def CTRL_U : Nat := 21
def MAX_STR_LEN : Nat := 120
def MAX_ESC_LEN : Nat := 4
def MAX_ARG_COUNT : Nat := 4

/-! ## Memory model -/

/-- Read of `m[i]`; `none` outside the object. -/
def load (m : List Nat) (i : Nat) : Option Nat := m[i]?

/-- Write `m[i] = v`; `none` outside the object. -/
def store {α : Type} (m : List α) (i : Nat) (v : α) : Option (List α) :=
  if i < m.length then some (m.set i v) else none

/-- The C call `memmove(&m[dst], &m[src], n)`: the `n` bytes starting at `src`
are copied to `dst` as if through a temporary.  The size is an `int`
expression in the source; a negative value converts to a huge `size_t`, which
is out of bounds like any range that leaves the object. -/
def memmove (m : List Nat) (dst src : Nat) (n : Int) : Option (List Nat) :=
  if 0 ≤ n ∧ dst + n.toNat ≤ m.length ∧ src + n.toNat ≤ m.length then
    some (m.take dst ++ (m.drop src).take n.toNat ++ m.drop (dst + n.toNat))
  else none

/-- The bytes of a NUL-terminated string, read from the front of `m`; `none`
when `m` ends before a terminator is met. -/
def cstr0 : List Nat → Option (List Nat)
  | [] => none
  | b :: rest => if b = 0 then some [] else (cstr0 rest).map (List.cons b)

/-- The NUL-terminated string at `&m[i]`. -/
def cstr (m : List Nat) (i : Nat) : Option (List Nat) := cstr0 (m.drop i)

/-! ## Session state -/

/-- One invocation of a callback. -/
inductive Event where
  /-- The call `printChr(c)`. -/
  | chr (c : Nat)
  /-- The call `printStr(s)`, with the bytes of `s` before its terminator. -/
  | str (s : List Nat)
  /-- The call `exec(argc, argv)`: the count, and for each of the entries of
  `argv` the string it points at (`none` for `NULL`). -/
  | exec (argc : Nat) (argv : List (Option (List Nat)))
  deriving DecidableEq, Repr

/-- The struct `UcTermState_t`; the function pointers are replaced by the
record `out` of their invocations, oldest first. -/
structure UcTermState where
  argv : List (Option Nat)
  buf : List Nat
  esc_buf : List Nat
  esc_index : Nat
  index : Nat
  length : Nat
  argc : Nat
  out : List Event
  deriving DecidableEq, Repr

/-- The call `self->printChr(c)`. -/
def printChr (self : UcTermState) (c : Nat) : UcTermState :=
  { self with out := self.out ++ [Event.chr c] }

/-- The call `self->printStr(s)`. -/
def printStr (self : UcTermState) (s : List Nat) : UcTermState :=
  { self with out := self.out ++ [Event.str s] }

/-- The call `self->exec(self->argc, self->argv)`. -/
def exec (self : UcTermState) : UcTermState :=
  { self with
    out := self.out ++ [Event.exec self.argc (self.argv.map fun a => a.bind (cstr self.buf))] }

/-- The state after `UcTerm_Init`: `memset` to zero, nothing emitted yet. -/
def UcTerm_Init : UcTermState where
  argv := List.replicate MAX_ARG_COUNT none
  buf := List.replicate MAX_STR_LEN 0
  esc_buf := List.replicate MAX_ESC_LEN 0
  esc_index := 0
  index := 0
  length := 0
  argc := 0
  out := []

/-! ## Private functions -/

def _reset_buf (self : UcTermState) : Option UcTermState := do
  let buf ← store self.buf 0 0
  let esc_buf ← store self.esc_buf 0 0
  some { self with length := 0, index := 0, buf := buf, esc_buf := esc_buf, esc_index := 0 }

def _reset_esc_buf (self : UcTermState) : Option UcTermState := do
  let esc_buf ← store self.esc_buf 0 0
  some { self with esc_buf := esc_buf, esc_index := 0 }

def _shift_buf_left (self : UcTermState) (position : Nat) : Option UcTermState :=
  if position ≥ self.length then some self
  else do
    let buf ← memmove self.buf position (position + 1) ((self.length : Int) - position)
    let length := (self.length + 255) % 256
    let buf ← store buf length 0
    some { self with buf := buf, length := length }

def _shift_buf_right (self : UcTermState) (position : Nat) : Option (Nat × UcTermState) :=
  if MAX_STR_LEN - 2 < self.length then some (0, self)
  else do
    let buf ← memmove self.buf (position + 1) position ((self.length : Int) - position + 1)
    let length := (self.length + 1) % 256
    let buf ← store buf length 0
    some (1, { self with buf := buf, length := length })

/-- The loop `for (buffer[i] = '0'; index >= step; index -= step) buffer[i]++`
of `_get_move_command`, started with `digit = '0'`; returns the final
`buffer[i]` and `index`. -/
def digit_loop (step : Nat) : Nat → Nat → Nat → Nat × Nat
  | 0, digit, index => (digit, index)
  | fuel + 1, digit, index =>
    if index ≥ step then digit_loop step fuel ((digit + 1) % 256) (index - step)
    else (digit, index)

/-- The string `_get_move_command(index)` points at.  The static buffer holds
`ESC [` in its first two bytes, every later byte up to the terminator is
written by the call itself, so the string does not depend on earlier calls. -/
def _get_move_command (index : Nat) : List Nat :=
  if index = 0 then OUT_CHA_2
  else
    let index := if index ≥ 255 - PROMPT_WIDTH then 255 - PROMPT_WIDTH else index
    let index := (index + (1 + PROMPT_WIDTH)) % 256
    let h := if index ≥ 100 then digit_loop 100 index 48 index else (0, index)
    let hundreds := if index ≥ 100 then [h.1] else []
    let index := h.2
    let t := if index ≥ 10 then digit_loop 10 index 48 index else (0, index)
    let tens := if index ≥ 10 then [t.1] else []
    let index := t.2
    [27, 91] ++ hundreds ++ tens ++ [(48 + index) % 256, 71]

def isWhitespace (b : Nat) : Bool :=
  b = 32 || b = 9 || b = 10 || b = 13 || b = 11 || b = 12

/-- The loop of `_tokenize` over the bytes from `p` on: `p` is the offset of
the head of the list inside the buffer.  Returns `argc`, the bytes from `p`
on as the loop leaves them, and `argv`. -/
def tokenize_loop :
    List Nat → Nat → Nat → Bool → List (Option Nat) → Option (Nat × List Nat × List (Option Nat))
  | [], _, _, _, _ => none
  | b :: rest, p, argc, isSubstrFound, argv =>
    if b = 0 then some (argc, b :: rest, argv)
    else if isWhitespace b then
      if isSubstrFound then
        (tokenize_loop rest (p + 1) argc false argv).map fun r => (r.1, 0 :: r.2.1, r.2.2)
      else
        (tokenize_loop rest (p + 1) argc isSubstrFound argv).map fun r => (r.1, b :: r.2.1, r.2.2)
    else if !isSubstrFound then
      if argc < MAX_ARG_COUNT then
        (store argv argc (some p)).bind fun argv =>
          (tokenize_loop rest (p + 1) ((argc + 1) % 256) true argv).map
            fun r => (r.1, b :: r.2.1, r.2.2)
      else some (argc, b :: rest, argv)
    else
      (tokenize_loop rest (p + 1) argc isSubstrFound argv).map fun r => (r.1, b :: r.2.1, r.2.2)

/-- The call `_tokenize(buf, argv)`: returns `argc`, the buffer and `argv`. -/
def _tokenize (buf : List Nat) (argv : List (Option Nat)) :
    Option (Nat × List Nat × List (Option Nat)) :=
  tokenize_loop buf 0 0 false argv

def _overwrite_terminal_line (self : UcTermState) : Option UcTermState := do
  let self := printStr self OUT_ERASE_END
  let tail ← cstr self.buf self.index
  let self := printStr self tail
  some (printStr self (_get_move_command self.index))

def _process_home (self : UcTermState) : UcTermState :=
  let self := { self with index := 0 }
  printStr self (_get_move_command self.index)

def _process_end (self : UcTermState) : UcTermState :=
  let self := { self with index := self.length }
  printStr self (_get_move_command self.index)

def _process_left_arrow (self : UcTermState) : UcTermState :=
  if 0 < self.index then
    printStr { self with index := (self.index + 255) % 256 } OUT_L_ARROW
  else printStr self OUT_CHA_2

def _process_right_arrow (self : UcTermState) : UcTermState :=
  if self.index < self.length then
    printStr { self with index := (self.index + 1) % 256 } OUT_R_ARROW
  else self

def _process_delete (self : UcTermState) : Option UcTermState :=
  if self.index < self.length then do
    let self ← _shift_buf_left self self.index
    _overwrite_terminal_line self
  else some self

/-! ## `UcTerm_IngestChar`

The body of the function is cut into its branches, in source order. -/

/-- The interpretation of a terminated sequence: the `if (2 == esc_index)`
chain inside the escape branch, with `c` the terminating byte. -/
def esc_dispatch (ctx : UcTermState) (c : Nat) : Option UcTermState :=
  if 2 = ctx.esc_index then
    if 68 = c then some (_process_left_arrow ctx)
    else if 67 = c then some (_process_right_arrow ctx)
    else some ctx
  else if 3 = ctx.esc_index ∧ 126 = c then do
    let e1 ← load ctx.esc_buf 1
    if 49 = e1 then some (_process_home ctx)
    else if 52 = e1 then some (_process_end ctx)
    else if 51 = e1 then _process_delete ctx
    else some ctx
  else some ctx

/-- The branch `ESC_SEPRTR == ctx->esc_buf[0]`: a sequence is being collected. -/
def ingest_escape (ctx : UcTermState) (c : Nat) : Option UcTermState :=
  if MAX_ESC_LEN ≤ ctx.esc_index then
    _reset_esc_buf (printStr ctx OUT_UNKNOWN_STR)
  else do
    let esc_buf ← store ctx.esc_buf ctx.esc_index c
    let ctx := { ctx with esc_buf := esc_buf, esc_index := (ctx.esc_index + 1) % 256 }
    if 64 ≤ c ∧ 126 ≥ c then do
      let ctx ← esc_dispatch ctx c
      _reset_esc_buf ctx
    else some ctx

/-- The branch `KEY_ENTER_CR == c || KEY_ENTER_LF == c`. -/
def ingest_enter (ctx : UcTermState) : Option UcTermState :=
  if 0 = ctx.length then some (printStr ctx OUT_PROMPT_STR)
  else do
    let buf ← store ctx.buf ctx.length 0
    let r ← _tokenize buf (List.replicate MAX_ARG_COUNT none)
    let ctx := { ctx with buf := r.2.1, argv := r.2.2, argc := r.1 }
    let ctx := if ctx.argc > 0 then exec (printStr ctx OUT_NEWLINE_STR) else ctx
    let ctx ← _reset_buf ctx
    some (printStr ctx OUT_PROMPT_STR)

/-- The branch `KEY_BACKSPACE == c || KEY_DELETE == c`. -/
def ingest_backspace (ctx : UcTermState) (c : Nat) : Option UcTermState :=
  if 0 = ctx.index then some ctx
  else do
    let ctx ← _shift_buf_left ctx ((ctx.index + 255) % 256)
    let ctx := { ctx with index := (ctx.index + 255) % 256 }
    let ctx := printChr ctx c
    if ctx.index < ctx.length then _overwrite_terminal_line ctx else some ctx

/-- The branch `CTRL_U == c`. -/
def ingest_ctrl_u (ctx : UcTermState) : Option UcTermState :=
  if 0 = ctx.index then some ctx
  else do
    let buf ← memmove ctx.buf 0 ctx.index ((ctx.length : Int) - ctx.index + 1)
    let ctx := { ctx with buf := buf, length := (ctx.length + 256 - ctx.index) % 256 }
    let ctx := { ctx with index := 0 }
    let ctx := _process_home ctx
    _overwrite_terminal_line ctx

/-- The branch `CTRL_K == c`. -/
def ingest_ctrl_k (ctx : UcTermState) : Option UcTermState :=
  if ctx.index < ctx.length then do
    let buf ← store ctx.buf ctx.index 0
    let ctx := { ctx with buf := buf, length := ctx.index }
    _overwrite_terminal_line ctx
  else some ctx

/-- The statements `buf[index] = c; index++; length++; printChr(c)`. -/
def store_and_echo (ctx : UcTermState) (c : Nat) : Option UcTermState := do
  let buf ← store ctx.buf ctx.index c
  let ctx := { ctx with
    buf := buf, index := (ctx.index + 1) % 256, length := (ctx.length + 1) % 256 }
  some (printChr ctx c)

/-- The end of the function: the length check and the printable branch. -/
def ingest_printable (ctx : UcTermState) (c : Nat) : Option UcTermState :=
  if MAX_STR_LEN - 2 < ctx.index then
    _reset_buf (printStr ctx OUT_UNKNOWN_STR)
  else if 32 ≤ c ∧ 126 ≥ c then
    if ctx.index < ctx.length then do
      let r ← _shift_buf_right ctx ctx.index
      if r.1 ≠ 0 then do
        let ctx ← _overwrite_terminal_line r.2
        let ctx := { ctx with length := (ctx.length + 255) % 256 }
        store_and_echo ctx c
      else some r.2
    else store_and_echo ctx c
  else some ctx

/-- Everything after the escape handling.  The two arrow hotkeys have no
`return`: control falls through to the checks that follow them. -/
def ingest_keys (ctx : UcTermState) (c : Nat) : Option UcTermState :=
  if KEY_ENTER_CR = c ∨ KEY_ENTER_LF = c then ingest_enter ctx
  else if KEY_BACKSPACE = c ∨ KEY_DELETE = c then ingest_backspace ctx c
  else if CTRL_A = c then some (_process_home ctx)
  else if CTRL_E = c then some (_process_end ctx)
  else
    let ctx := if Ctrl_B = c then _process_left_arrow ctx else ctx
    let ctx := if Ctrl_F = c then _process_right_arrow ctx else ctx
    if CTRL_U = c then ingest_ctrl_u ctx
    else if CTRL_K = c then ingest_ctrl_k ctx
    else ingest_printable ctx c

def UcTerm_IngestChar (ctx : UcTermState) (c : Nat) : Option UcTermState :=
  if ESC_HEADER = c then do
    let esc_buf ← store ctx.esc_buf 0 ESC_HEADER
    some { ctx with esc_buf := esc_buf }
  else if ESC_SEPRTR = c ∧ load ctx.esc_buf 0 = some ESC_HEADER then do
    let esc_buf ← store ctx.esc_buf 0 ESC_SEPRTR
    some { ctx with esc_buf := esc_buf, esc_index := 1 }
  else
    (if ESC_SEPRTR = c then _reset_esc_buf ctx else some ctx).bind fun ctx =>
      (load ctx.esc_buf 0).bind fun e0 =>
        if ESC_SEPRTR = e0 then ingest_escape ctx c
        else ingest_keys ctx c

/-- The bytes of a list ingested one call after the other. -/
def ingest_all (ctx : UcTermState) : List Nat → Option UcTermState
  | [] => some ctx
  | c :: cs => (UcTerm_IngestChar ctx c).bind fun ctx => ingest_all ctx cs

/-- The live characters of the line: `buf[0 .. length)`. -/
def content (self : UcTermState) : List Nat := self.buf.take self.length

/-! ## Specification vocabulary -/

/-- The maximal runs of non-whitespace bytes of a text, left to right: the text
is split at every whitespace byte and the empty pieces are dropped. -/
def words (text : List Nat) : List (List Nat) :=
  (text.splitOnP isWhitespace).filter fun w => !w.isEmpty

/-- The strings a caller of `_tokenize` reads through `argv[0 .. argc)`, given
the triple of `argc`, buffer and `argv` the call returns; `none` marks a
`NULL` entry or a string without terminator. -/
def tokens (r : Nat × List Nat × List (Option Nat)) : List (Option (List Nat)) :=
  (r.2.2.take r.1).map fun a => a.bind (cstr r.2.1)

/-- Words joined by single spaces. -/
def join_words : List (List Nat) → List Nat
  | [] => []
  | [w] => w
  | w :: ws => w ++ 32 :: join_words ws

/-- The string at offset `q` of a buffer whose bytes from offset `p` on are
`l`; `none` when `q` lies before `p`. -/
def read_from (p : Nat) (l : List Nat) (q : Nat) : Option (List Nat) :=
  if p ≤ q then cstr0 (l.drop (q - p)) else none

/-- Well-formed session state: the arrays have the sizes the struct gives
them, the cursor is inside the line, the line leaves room for its terminator,
and the last byte of the buffer is a terminator. -/
def WF (s : UcTermState) : Prop :=
  s.buf.length = MAX_STR_LEN ∧ s.esc_buf.length = MAX_ESC_LEN ∧
    s.index ≤ s.length ∧ s.length ≤ MAX_STR_LEN - 1 ∧ s.buf[MAX_STR_LEN - 1]? = some 0

/-- The buffer after a successful `memmove` of `k` bytes from `src` to `dst`. -/
def moved (m : List Nat) (dst src k : Nat) : List Nat :=
  m.take dst ++ (m.drop src).take k ++ m.drop (dst + k)

/-- The escape state Idle: the state tag `esc_buf[0]` holds the value
`_reset_esc_buf` gives it. -/
def Idle (s : UcTermState) : Prop := load s.esc_buf 0 = some 0

instance (s : UcTermState) : Decidable (WF s) := by unfold WF; infer_instance

instance (s : UcTermState) : Decidable (Idle s) := by unfold Idle; infer_instance

/-- The buffer after `_shift_buf_left` at position `p` of a line of length `l`. -/
def del_at (m : List Nat) (p l : Nat) : List Nat :=
  (moved m p (p + 1) (l - p)).set (l - 1) 0

/-- The buffer after a successful `_shift_buf_right` at position `p` of a line
of length `l`. -/
def ins_at (m : List Nat) (p l : Nat) : List Nat :=
  (moved m (p + 1) p (l - p + 1)).set (l + 1) 0

/-- The three calls of `_overwrite_terminal_line` for a buffer and a cursor. -/
def redraw (buf : List Nat) (index : Nat) : List Event :=
  [Event.str OUT_ERASE_END, Event.str ((buf.drop index).takeWhile fun b => b != 0),
    Event.str (_get_move_command index)]

/-- A session whose line holds `text`, with the cursor at `index`; everything
else as `UcTerm_Init` leaves it. -/
def line_state (text : List Nat) (index : Nat) : UcTermState :=
  { UcTerm_Init with
    buf := text ++ List.replicate (MAX_STR_LEN - text.length) 0
    length := text.length
    index := index }

/-- The state after the two bytes `ESC [`: a sequence is being collected and
the write index of the escape buffer is 1. -/
def csi_open (s : UcTermState) : UcTermState :=
  { s with esc_buf := s.esc_buf.set 0 ESC_SEPRTR, esc_index := 1 }

/-- The escape state in which a sequence is being collected: the state tag
`esc_buf[0]` holds the separator. -/
def Collecting (s : UcTermState) : Prop := load s.esc_buf 0 = some ESC_SEPRTR

/-- The bytes of `k` left-arrow sequences `ESC [ D`. -/
def left_arrows : Nat → List Nat
  | 0 => []
  | k + 1 => 27 :: 91 :: 68 :: left_arrows k

/-- The escape state in which `ESC` has just been received: the state tag
`esc_buf[0]` holds the header byte. -/
def SawEscape (s : UcTermState) : Prop := load s.esc_buf 0 = some ESC_HEADER

instance (s : UcTermState) : Decidable (SawEscape s) := by unfold SawEscape; infer_instance

/-- The decimal digits of a number, as ASCII bytes. -/
def decimal (n : Nat) : List Nat := (Nat.toDigits 10 n).map Char.toNat

/-- The state after the byte `ESC`: the state tag `esc_buf[0]` holds the header. -/
def esc_seen (s : UcTermState) : UcTermState :=
  { s with esc_buf := s.esc_buf.set 0 ESC_HEADER }

/-- Position `i` of `text` holds the first byte of a token: a byte that is not
whitespace, at the start of the text or right after a whitespace byte. -/
def token_start (text : List Nat) (i : Nat) : Bool :=
  (text[i]?).any (fun b => !isWhitespace b) && (i == 0 || (text[i - 1]?).any isWhitespace)

/-- Position `i` of `text` holds the whitespace byte that immediately follows
a token. -/
def token_stop (text : List Nat) (i : Nat) : Bool :=
  (text[i]?).any isWhitespace && (i != 0 && (text[i - 1]?).any fun b => !isWhitespace b)

/-- The offsets of the first bytes of the tokens of `text`, left to right. -/
def token_starts (text : List Nat) : List Nat :=
  (List.range text.length).filter (token_start text)

/-- The number of tokens of `text` that start before position `i`. -/
def tokens_before (text : List Nat) (i : Nat) : Nat :=
  ((List.range i).filter (token_start text)).length

/-- The predicate `token_start` for a text that follows the byte `q`. -/
def start_after (q : Nat) (text : List Nat) (j : Nat) : Bool := token_start (q :: text) (j + 1)

/-- The predicate `token_stop` for a text that follows the byte `q`. -/
def stop_after (q : Nat) (text : List Nat) (i : Nat) : Bool := token_stop (q :: text) (i + 1)

/-- The list `token_starts` for a text that follows the byte `q`. -/
def starts_after (q : Nat) (text : List Nat) : List Nat :=
  (List.range text.length).filter (start_after q text)

/-- The count `tokens_before` for a text that follows the byte `q`. -/
def count_after (q : Nat) (text : List Nat) (i : Nat) : Nat :=
  ((List.range i).filter (start_after q text)).length

/-- The effect of one call on the line and on the escape write index: every
byte of the line after the call is a byte of the line before it or is the
byte `c` of the call, which is then printable, and the escape write index has
not grown. -/
def Keeps (c : Nat) (s s' : UcTermState) : Prop :=
  s'.esc_index ≤ s.esc_index ∧
    ∀ b ∈ content s', b ∈ content s ∨ (b = c ∧ 32 ≤ c ∧ 126 ≥ c)

/-! # Lemmas and theorems -/

/-! ## Facts about `words` -/

theorem words_nil : words [] = [] := by
  simp [words, List.splitOnP_nil]

theorem words_cons_ws (b : Nat) (t : List Nat) (hb : isWhitespace b = true) :
    words (b :: t) = words t := by
  simp [words, List.splitOnP_cons, hb]

theorem splitOnP_takeWhile (t : List Nat) :
    t.splitOnP isWhitespace =
      t.takeWhile (fun b => !isWhitespace b) ::
        (match t.dropWhile (fun b => !isWhitespace b) with
          | [] => []
          | _ :: t2 => t2.splitOnP isWhitespace) := by
  induction t with
  | nil => simp [List.splitOnP_nil]
  | cons b t ih =>
    by_cases hb : isWhitespace b = true
    · simp [List.splitOnP_cons, hb]
    · simp only [Bool.not_eq_true] at hb
      rw [List.splitOnP_cons, ih]
      simp [hb, List.modifyHead]

theorem words_cons_word (b : Nat) (t : List Nat) (hb : isWhitespace b = false) :
    words (b :: t) =
      (b :: t.takeWhile (fun b => !isWhitespace b)) ::
        words (t.dropWhile (fun b => !isWhitespace b)) := by
  have h1 := splitOnP_takeWhile (b :: t)
  simp only [List.takeWhile_cons, List.dropWhile_cons, hb, Bool.not_false, if_true] at h1
  unfold words
  rw [h1]
  cases hd : t.dropWhile (fun b => !isWhitespace b) with
  | nil => simp [List.splitOnP_nil]
  | cons w t2 =>
    have hw : isWhitespace w = true := by
      have := List.head_dropWhile_not (fun b => !isWhitespace b) t
      simp [hd] at this
      exact this
    simp [List.splitOnP_cons, hw]

/-! ## The tokenizer loop -/

theorem map_read_from_cons (p b : Nat) (l offs : List Nat) (ws : List (List Nat))
    (h : offs.map (read_from (p + 1) l) = ws.map some) :
    offs.map (read_from p (b :: l)) = ws.map some := by
  rw [← h]
  apply List.map_congr_left
  intro q hq
  have hmem : read_from (p + 1) l q ∈ ws.map some := by
    rw [← h]; exact List.mem_map_of_mem _ hq
  obtain ⟨w, _, hw⟩ := List.mem_map.1 hmem
  have hpq : p + 1 ≤ q := by
    by_contra hlt
    simp [read_from, hlt] at hw
  have e : q - p = (q - (p + 1)) + 1 := by omega
  simp only [read_from, hpq, if_true, show p ≤ q by omega, e, List.drop_succ_cons]

theorem take_set_succ {α : Type} (l : List α) (n : Nat) (x : α) (h : n < l.length) :
    (l.set n x).take (n + 1) = l.take n ++ [x] := by
  induction l generalizing n with
  | nil => simp at h
  | cons a l ih =>
    cases n with
    | zero => simp
    | succ n =>
      simp only [List.length_cons, Nat.add_lt_add_iff_right] at h
      simp [ih n h]

theorem drop_set_succ {α : Type} (l : List α) (n k : Nat) (x : α) :
    (l.set n x).drop (n + 1 + k) = l.drop (n + 1 + k) := by
  induction l generalizing n with
  | nil => simp
  | cons a l ih =>
    cases n with
    | zero =>
      have e : 0 + 1 + k = k + 1 := by omega
      simp only [List.set_cons_zero, e, List.drop_succ_cons]
    | succ n =>
      have e : n + 1 + 1 + k = (n + 1 + k) + 1 := by omega
      simp only [List.set_cons_succ, e, List.drop_succ_cons]
      exact ih n

theorem tokenize_loop_spec (text : List Nat) (h0 : ∀ b ∈ text, b ≠ 0) (rest : List Nat) :
    ∀ (p n : Nat) (found : Bool) (argv : List (Option Nat)),
      n ≤ MAX_ARG_COUNT → argv.length = MAX_ARG_COUNT →
      ∃ (l' : List Nat) (offs : List Nat),
        tokenize_loop (text ++ 0 :: rest) p n found argv =
          some (n + offs.length, l',
            argv.take n ++ offs.map some ++ argv.drop (n + offs.length)) ∧
        offs.map (read_from p l') =
          ((if found then words (text.dropWhile fun b => !isWhitespace b)
            else words text).take (MAX_ARG_COUNT - n)).map some ∧
        (found = true → cstr0 l' = some (text.takeWhile fun b => !isWhitespace b)) := by
  induction text with
  | nil =>
    intro p n found argv _ _
    refine ⟨0 :: rest, [], ?_, ?_, ?_⟩
    · simp [tokenize_loop]
    · simp [words_nil]
    · intro _; simp [cstr0]
  | cons b t ih =>
    have hb0 : b ≠ 0 := h0 b (List.mem_cons_self _ _)
    have ht0 : ∀ x ∈ t, x ≠ 0 := fun x hx => h0 x (List.mem_cons_of_mem _ hx)
    intro p n found argv hn hargv
    by_cases hws : isWhitespace b = true
    · -- a whitespace byte closes the token that is open, if any
      obtain ⟨l2, offs, hrun, hmap, _⟩ := ih ht0 (p + 1) n false argv hn hargv
      cases found with
      | true =>
        refine ⟨0 :: l2, offs, ?_, ?_, ?_⟩
        · simp [tokenize_loop, hb0, hws, hrun]
        · simp only [if_true, List.dropWhile_cons, hws, Bool.not_true, Bool.false_eq_true,
            if_false, words_cons_ws b t hws]
          simpa using map_read_from_cons p 0 l2 offs _ hmap
        · intro _; simp [cstr0, hws]
      | false =>
        refine ⟨b :: l2, offs, ?_, ?_, ?_⟩
        · simp [tokenize_loop, hb0, hws, hrun]
        · simp only [Bool.false_eq_true, if_false, words_cons_ws b t hws]
          simpa using map_read_from_cons p b l2 offs _ hmap
        · intro h; cases h
    · simp only [Bool.not_eq_true] at hws
      cases found with
      | true =>
        -- inside a token: the byte belongs to it
        obtain ⟨l2, offs, hrun, hmap, hstr⟩ := ih ht0 (p + 1) n true argv hn hargv
        refine ⟨b :: l2, offs, ?_, ?_, ?_⟩
        · simp [tokenize_loop, hb0, hws, hrun]
        · simp only [if_true, List.dropWhile_cons, hws, Bool.not_false]
          simpa using map_read_from_cons p b l2 offs _ hmap
        · intro _
          simp [cstr0, hb0, hstr rfl, hws]
      | false =>
        by_cases hlt : n < MAX_ARG_COUNT
        · -- a new token starts at `p`
          have hlen : n < argv.length := by rw [hargv]; exact hlt
          have hn1 : n + 1 ≤ MAX_ARG_COUNT := hlt
          have hmod : (n + 1) % 256 = n + 1 := by
            apply Nat.mod_eq_of_lt; simp only [MAX_ARG_COUNT] at hlt; omega
          obtain ⟨l2, offs, hrun, hmap, hstr⟩ :=
            ih ht0 (p + 1) (n + 1) true (argv.set n (some p)) hn1 (by simpa using hargv)
          refine ⟨b :: l2, p :: offs, ?_, ?_, ?_⟩
          · have e1 : n + (p :: offs).length = n + 1 + offs.length := by
              simp only [List.length_cons]; omega
            rw [e1]
            simp [tokenize_loop, hb0, hws, hlt, store, hlen, hmod, hrun,
              take_set_succ argv n (some p) hlen, drop_set_succ]
          · have e2 : MAX_ARG_COUNT - n = (MAX_ARG_COUNT - (n + 1)) + 1 := by omega
            simp only [Bool.false_eq_true, if_false, words_cons_word b t hws, e2, List.take_succ_cons,
              List.map_cons]
            simp only [if_true] at hmap
            rw [map_read_from_cons p b l2 offs _ hmap]
            simp [read_from, cstr0, hb0, hstr rfl]
          · intro h; cases h
        · -- the array is full: the loop is left
          have hn4 : MAX_ARG_COUNT - n = 0 := by omega
          refine ⟨b :: (t ++ 0 :: rest), [], ?_, ?_, ?_⟩
          · simp [tokenize_loop, hb0, hws, hlt]
          · simp [hn4]
          · intro h; cases h

theorem tokenize_spec (text rest : List Nat) (argv : List (Option Nat))
    (h0 : ∀ b ∈ text, b ≠ 0) (hargv : argv.length = MAX_ARG_COUNT) :
    ∃ (l' : List Nat) (offs : List Nat),
      _tokenize (text ++ 0 :: rest) argv =
        some (offs.length, l', offs.map some ++ argv.drop offs.length) ∧
      offs.map (cstr l') = ((words text).take MAX_ARG_COUNT).map some := by
  obtain ⟨l2, offs, hrun, hmap, _⟩ :=
    tokenize_loop_spec text h0 rest 0 0 false argv (Nat.zero_le _) hargv
  refine ⟨l2, offs, ?_, ?_⟩
  · simpa [_tokenize] using hrun
  · have e : offs.map (cstr l2) = offs.map (read_from 0 l2) := by
      apply List.map_congr_left
      intro q _
      simp [read_from, cstr]
    rw [e, hmap]
    simp

theorem tokens_of_offsets (l' offs : List Nat) (tail : List (Option Nat)) :
    tokens (offs.length, l', offs.map some ++ tail) = offs.map (cstr l') := by
  have e : (offs.map some ++ tail).take offs.length = offs.map some :=
    List.take_left' (by simp)
  simp only [tokens, e, List.map_map]
  apply List.map_congr_left
  intro q _
  simp

/-! ## More facts about `words` -/

theorem splitOnP_append_ws (a b : List Nat) (w : Nat) (hw : isWhitespace w = true) :
    (a ++ w :: b).splitOnP isWhitespace =
      a.splitOnP isWhitespace ++ b.splitOnP isWhitespace := by
  induction a with
  | nil => simp [List.splitOnP_cons, hw, List.splitOnP_nil]
  | cons x a ih =>
    by_cases hx : isWhitespace x = true
    · simp [List.splitOnP_cons, hx, ih]
    · have hne := List.splitOnP_ne_nil isWhitespace a
      cases hs : a.splitOnP isWhitespace with
      | nil => exact absurd hs hne
      | cons h tl =>
        simp only [List.cons_append, List.splitOnP_cons, hx, if_false, ih, hs,
          List.modifyHead, Bool.false_eq_true]

theorem words_append_ws (a b : List Nat) (w : Nat) (hw : isWhitespace w = true) :
    words (a ++ w :: b) = words a ++ words b := by
  simp [words, splitOnP_append_ws a b w hw]

theorem words_ws_only (a : List Nat) (ha : ∀ x ∈ a, isWhitespace x = true) : words a = [] := by
  induction a with
  | nil => exact words_nil
  | cons x a ih =>
    rw [words_cons_ws x a (ha x (List.mem_cons_self _ _))]
    exact ih fun y hy => ha y (List.mem_cons_of_mem _ hy)

theorem words_single (w : List Nat) (hne : w ≠ [])
    (hw : ∀ x ∈ w, isWhitespace x = false) : words w = [w] := by
  have h : w.splitOnP isWhitespace = [w] :=
    List.splitOnP_eq_single isWhitespace w fun x hx => by simp [hw x hx]
  cases w with
  | nil => exact absurd rfl hne
  | cons x t => simp [words, h]

theorem words_append_ws_only_left (pre t : List Nat)
    (hpre : ∀ x ∈ pre, isWhitespace x = true) : words (pre ++ t) = words t := by
  induction pre with
  | nil => rfl
  | cons x pre ih =>
    rw [List.cons_append, words_cons_ws x _ (hpre x (List.mem_cons_self _ _))]
    exact ih fun y hy => hpre y (List.mem_cons_of_mem _ hy)

theorem words_append_ws_only_right (t post : List Nat)
    (hpost : ∀ x ∈ post, isWhitespace x = true) : words (t ++ post) = words t := by
  cases post with
  | nil => simp
  | cons x post =>
    rw [words_append_ws t post x (hpost x (List.mem_cons_self _ _)),
      words_ws_only post fun y hy => hpost y (List.mem_cons_of_mem _ hy)]
    simp

theorem words_join_words (ws : List (List Nat))
    (hw : ∀ w ∈ ws, w ≠ [] ∧ ∀ x ∈ w, isWhitespace x = false) :
    words (join_words ws) = ws := by
  induction ws with
  | nil => exact words_nil
  | cons w ws ih =>
    have hw1 := hw w (List.mem_cons_self _ _)
    have hws : ∀ v ∈ ws, v ≠ [] ∧ ∀ x ∈ v, isWhitespace x = false :=
      fun v hv => hw v (List.mem_cons_of_mem _ hv)
    cases ws with
    | nil => exact words_single w hw1.1 hw1.2
    | cons w2 ws =>
      simp only [join_words]
      rw [words_append_ws w _ 32 (by decide), words_single w hw1.1 hw1.2, ih hws]
      rfl

theorem mem_splitOnP_no_ws (t w : List Nat) (hw : w ∈ t.splitOnP isWhitespace) :
    ∀ x ∈ w, isWhitespace x = false := by
  induction t generalizing w with
  | nil =>
    simp [List.splitOnP_nil] at hw
    simp [hw]
  | cons b t ih =>
    rw [List.splitOnP_cons] at hw
    by_cases hb : isWhitespace b = true
    · simp only [hb, if_true, List.mem_cons] at hw
      rcases hw with h | h
      · simp [h]
      · exact ih w h
    · simp only [hb, if_false, Bool.false_eq_true] at hw
      have hne := List.splitOnP_ne_nil isWhitespace t
      cases hs : t.splitOnP isWhitespace with
      | nil => exact absurd hs hne
      | cons h tl =>
        rw [hs] at hw ih
        simp only [List.modifyHead, List.mem_cons] at hw
        rcases hw with h1 | h1
        · intro x hx
          rw [h1] at hx
          rcases List.mem_cons.1 hx with h2 | h2
          · rw [h2]; simpa using hb
          · exact ih h (List.mem_cons_self _ _) x h2
        · exact ih w (List.mem_cons_of_mem _ h1)

theorem mem_words (t w : List Nat) (hw : w ∈ words t) :
    w ≠ [] ∧ ∀ x ∈ w, isWhitespace x = false := by
  simp only [words, List.mem_filter] at hw
  refine ⟨?_, mem_splitOnP_no_ws t w hw.1⟩
  intro h
  simp [h] at hw

theorem ws_ne_zero (x : Nat) (h : isWhitespace x = true) : x ≠ 0 := by
  intro h0
  rw [h0] at h
  exact absurd h (by decide)

theorem join_words_no_nul (ws : List (List Nat)) (hw : ∀ w ∈ ws, ∀ x ∈ w, x ≠ 0) :
    ∀ x ∈ join_words ws, x ≠ 0 := by
  induction ws with
  | nil => intro x hx; simp [join_words] at hx
  | cons w ws ih =>
    have hws : ∀ v ∈ ws, ∀ x ∈ v, x ≠ 0 := fun v hv => hw v (List.mem_cons_of_mem _ hv)
    cases ws with
    | nil => simpa [join_words] using hw w (List.mem_cons_self _ _)
    | cons w2 ws =>
      intro x hx
      simp only [join_words, List.mem_append, List.mem_cons] at hx
      rcases hx with h | h | h
      · exact hw w (List.mem_cons_self _ _) x h
      · rw [h]; decide
      · exact ih hws x h

theorem tokens_tokenize (text rest : List Nat) (argv : List (Option Nat))
    (h0 : ∀ b ∈ text, b ≠ 0) (hargv : argv.length = MAX_ARG_COUNT) :
    ∃ r, _tokenize (text ++ 0 :: rest) argv = some r ∧
      r.1 = ((words text).take MAX_ARG_COUNT).length ∧
      tokens r = ((words text).take MAX_ARG_COUNT).map some := by
  obtain ⟨l2, offs, hrun, hmap⟩ := tokenize_spec text rest argv h0 hargv
  refine ⟨_, hrun, ?_, ?_⟩
  · have := congrArg List.length hmap
    simpa using this
  · rw [tokens_of_offsets, hmap]

/-! ## The tokenizer -/

/-- C3: at most `MAX_ARG_COUNT` words, each non-empty and free of NUL and of
the six whitespace bytes, joined by single spaces and NUL-terminated, are
tokenized into exactly those words, in order, and `argc` is their number. -/
theorem tokenize_round_trip (ws : List (List Nat)) (rest : List Nat)
    (argv : List (Option Nat))
    (hlen : ws.length ≤ MAX_ARG_COUNT)
    (hw : ∀ w ∈ ws, w ≠ [] ∧ ∀ x ∈ w, x ≠ 0 ∧ isWhitespace x = false)
    (hargv : argv.length = MAX_ARG_COUNT) :
    ∃ r, _tokenize (join_words ws ++ 0 :: rest) argv = some r ∧
      r.1 = ws.length ∧ tokens r = ws.map some := by
  have h0 : ∀ b ∈ join_words ws, b ≠ 0 :=
    join_words_no_nul ws fun w hw1 x hx => ((hw w hw1).2 x hx).1
  have hwords : words (join_words ws) = ws :=
    words_join_words ws fun w hw1 => ⟨(hw w hw1).1, fun x hx => ((hw w hw1).2 x hx).2⟩
  obtain ⟨r, hrun, hargc, htok⟩ := tokens_tokenize (join_words ws) rest argv h0 hargv
  rw [hwords, List.take_of_length_le hlen] at hargc htok
  exact ⟨r, hrun, hargc, htok⟩

theorem tokenize_round_trip_witness :
    ([[99, 111, 109, 109], [97, 114, 103]] : List (List Nat)).length ≤ MAX_ARG_COUNT ∧
    (∀ w ∈ ([[99, 111, 109, 109], [97, 114, 103]] : List (List Nat)),
      w ≠ [] ∧ ∀ x ∈ w, x ≠ 0 ∧ isWhitespace x = false) ∧
    (List.replicate 4 (none : Option Nat)).length = MAX_ARG_COUNT ∧
    ∃ r, _tokenize (join_words [[99, 111, 109, 109], [97, 114, 103]] ++ 0 :: [7, 7])
        (List.replicate 4 none) = some r ∧
      r.1 = ([[99, 111, 109, 109], [97, 114, 103]] : List (List Nat)).length ∧
      tokens r = ([[99, 111, 109, 109], [97, 114, 103]] : List (List Nat)).map some :=
  ⟨by decide, by decide, by decide,
    tokenize_round_trip [[99, 111, 109, 109], [97, 114, 103]] [7, 7] (List.replicate 4 none)
      (by decide) (by decide) (by decide)⟩

/-- C4: a NUL-terminated text with more than `MAX_ARG_COUNT` words is tokenized
into exactly `MAX_ARG_COUNT` tokens, the first words of the text in order; each
token read through `argv` ends at the end of its own word. -/
theorem tokenize_cap (text rest : List Nat) (argv : List (Option Nat))
    (h0 : ∀ b ∈ text, b ≠ 0) (hargv : argv.length = MAX_ARG_COUNT)
    (hmany : MAX_ARG_COUNT < (words text).length) :
    ∃ r, _tokenize (text ++ 0 :: rest) argv = some r ∧
      r.1 = MAX_ARG_COUNT ∧ tokens r = ((words text).take MAX_ARG_COUNT).map some := by
  obtain ⟨r, hrun, hargc, htok⟩ := tokens_tokenize text rest argv h0 hargv
  refine ⟨r, hrun, ?_, htok⟩
  rw [hargc, List.length_take]
  omega

theorem tokenize_cap_witness :
    (∀ b ∈ [97, 32, 98, 32, 99, 32, 100, 32, 101, 32, 102], b ≠ 0) ∧
    (List.replicate 4 (none : Option Nat)).length = MAX_ARG_COUNT ∧
    MAX_ARG_COUNT < (words [97, 32, 98, 32, 99, 32, 100, 32, 101, 32, 102]).length ∧
    ∃ r, _tokenize ([97, 32, 98, 32, 99, 32, 100, 32, 101, 32, 102] ++ 0 :: [])
        (List.replicate 4 none) = some r ∧
      r.1 = MAX_ARG_COUNT ∧
      tokens r = ((words [97, 32, 98, 32, 99, 32, 100, 32, 101, 32, 102]).take
        MAX_ARG_COUNT).map some :=
  ⟨by decide, by decide, by decide,
    tokenize_cap [97, 32, 98, 32, 99, 32, 100, 32, 101, 32, 102] [] (List.replicate 4 none)
      (by decide) (by decide) (by decide)⟩

/-- C5: the tokens of a NUL-terminated text are its first `min k MAX_ARG_COUNT`
maximal runs of non-whitespace bytes (`k` the number of runs), in order.  Every
token is non-empty and free of whitespace, and whitespace added in front of the
text, behind it, or next to a whitespace byte inside it leaves the tokens as
they are. -/
theorem tokenize_maximal_runs (text rest : List Nat) (argv : List (Option Nat))
    (h0 : ∀ b ∈ text, b ≠ 0) (hargv : argv.length = MAX_ARG_COUNT) :
    ∃ r, _tokenize (text ++ 0 :: rest) argv = some r ∧
      r.1 = min (words text).length MAX_ARG_COUNT ∧
      tokens r = ((words text).take MAX_ARG_COUNT).map some ∧
      (∀ t ∈ tokens r, ∃ w, t = some w ∧ w ≠ [] ∧ ∀ x ∈ w, isWhitespace x = false) ∧
      (∀ pre post : List Nat,
        (∀ x ∈ pre, isWhitespace x = true) → (∀ x ∈ post, isWhitespace x = true) →
        (_tokenize (pre ++ text ++ post ++ 0 :: rest) argv).map tokens = some (tokens r)) ∧
      (∀ (a b mid : List Nat) (w : Nat), text = a ++ w :: b → isWhitespace w = true →
        (∀ x ∈ mid, isWhitespace x = true) →
        (_tokenize (a ++ w :: (mid ++ b) ++ 0 :: rest) argv).map tokens = some (tokens r)) := by
  obtain ⟨r, hrun, hargc, htok⟩ := tokens_tokenize text rest argv h0 hargv
  refine ⟨r, hrun, ?_, htok, ?_, ?_, ?_⟩
  · rw [hargc, List.length_take, Nat.min_comm]
  · intro t ht
    rw [htok] at ht
    obtain ⟨w, hw, rfl⟩ := List.mem_map.1 ht
    exact ⟨w, rfl, mem_words text w (List.mem_of_mem_take hw)⟩
  · intro pre post hpre hpost
    have h0' : ∀ b ∈ pre ++ text ++ post, b ≠ 0 := by
      intro b hb
      simp only [List.mem_append] at hb
      rcases hb with (h | h) | h
      · exact ws_ne_zero b (hpre b h)
      · exact h0 b h
      · exact ws_ne_zero b (hpost b h)
    obtain ⟨r2, hrun2, _, htok2⟩ := tokens_tokenize (pre ++ text ++ post) rest argv h0' hargv
    rw [hrun2, Option.map_some', htok2, htok, words_append_ws_only_right _ post hpost,
      words_append_ws_only_left pre text hpre]
  · intro a b mid w htext hw hmid
    have h0' : ∀ x ∈ a ++ w :: (mid ++ b), x ≠ 0 := by
      intro x hx
      simp only [List.mem_append, List.mem_cons] at hx
      rcases hx with h | h | h | h
      · exact h0 x (by rw [htext]; simp [h])
      · rw [h]; exact ws_ne_zero w hw
      · exact ws_ne_zero x (hmid x h)
      · exact h0 x (by rw [htext]; simp [h])
    obtain ⟨r2, hrun2, _, htok2⟩ := tokens_tokenize (a ++ w :: (mid ++ b)) rest argv h0' hargv
    rw [hrun2, Option.map_some', htok2, htok, htext, words_append_ws a _ w hw,
      words_append_ws a b w hw, words_append_ws_only_left mid b hmid]

theorem tokenize_maximal_runs_witness :
    (∀ b ∈ [32, 32, 99, 111, 109, 109, 9, 32, 97, 114, 103, 32], b ≠ 0) ∧
    (List.replicate 4 (none : Option Nat)).length = MAX_ARG_COUNT ∧
    ∃ r, _tokenize ([32, 32, 99, 111, 109, 109, 9, 32, 97, 114, 103, 32] ++ 0 :: [])
        (List.replicate 4 none) = some r ∧
      r.1 = min (words [32, 32, 99, 111, 109, 109, 9, 32, 97, 114, 103, 32]).length
        MAX_ARG_COUNT ∧
      tokens r = ((words [32, 32, 99, 111, 109, 109, 9, 32, 97, 114, 103, 32]).take
        MAX_ARG_COUNT).map some :=
  ⟨by decide, by decide,
    (tokenize_maximal_runs [32, 32, 99, 111, 109, 109, 9, 32, 97, 114, 103, 32] []
      (List.replicate 4 none) (by decide) (by decide)).imp
      fun _ h => ⟨h.1, h.2.1, h.2.2.1⟩⟩

/-! ## Memory operations -/

theorem store_eq {α : Type} (m : List α) (i : Nat) (v : α) (h : i < m.length) :
    store m i v = some (m.set i v) := by
  simp [store, h]

theorem memmove_eq (m : List Nat) (dst src k : Nat) (n : Int) (hn : n = (k : Int))
    (hd : dst + k ≤ m.length) (hs : src + k ≤ m.length) :
    memmove m dst src n = some (moved m dst src k) := by
  subst hn
  simp [memmove, moved, hd, hs]

theorem length_moved (m : List Nat) (dst src k : Nat)
    (hd : dst + k ≤ m.length) (hs : src + k ≤ m.length) :
    (moved m dst src k).length = m.length := by
  simp only [moved, List.length_append, List.length_take, List.length_drop]
  omega

theorem getElem?_moved (m : List Nat) (dst src k i : Nat)
    (hd : dst + k ≤ m.length) (hs : src + k ≤ m.length) :
    (moved m dst src k)[i]? =
      if i < dst then m[i]? else if i < dst + k then m[src + (i - dst)]? else m[i]? := by
  have h1 : (m.take dst).length = dst := by rw [List.length_take]; omega
  have h2 : ((m.drop src).take k).length = k := by
    rw [List.length_take, List.length_drop]; omega
  simp only [moved, List.append_assoc, List.getElem?_append, h1, h2, List.getElem?_take,
    List.getElem?_drop]
  by_cases c1 : i < dst
  · simp [c1]
  · by_cases c2 : i < dst + k
    · have c3 : i - dst < k := by omega
      simp [c1, c2, c3]
    · have c3 : ¬ (i - dst < k) := by omega
      have e : dst + k + (i - dst - k) = i := by omega
      simp [c1, c2, c3, e]

theorem cstr0_of_mem (l : List Nat) (h : 0 ∈ l) :
    cstr0 l = some (l.takeWhile fun b => b != 0) := by
  induction l with
  | nil => simp at h
  | cons b l ih =>
    by_cases hb : b = 0
    · simp [cstr0, hb]
    · have hl : 0 ∈ l := by
        rcases List.mem_cons.1 h with h1 | h1
        · exact absurd h1.symm hb
        · exact h1
      simp [cstr0, hb, ih hl]

theorem mem_drop_of_getElem? (l : List Nat) (i j : Nat) (x : Nat) (hij : i ≤ j)
    (h : l[j]? = some x) : x ∈ l.drop i := by
  have e : (l.drop i)[j - i]? = some x := by
    rw [List.getElem?_drop]
    have : i + (j - i) = j := by omega
    rw [this, h]
  exact List.getElem?_mem e

theorem cstr_eq (m : List Nat) (i j : Nat) (hij : i ≤ j) (h : m[j]? = some 0) :
    cstr m i = some ((m.drop i).takeWhile fun b => b != 0) :=
  cstr0_of_mem _ (mem_drop_of_getElem? m i j 0 hij h)

/-! ## The private functions on well-formed states -/

theorem shift_buf_left_eq (s : UcTermState) (position : Nat)
    (hp : position < s.length) (hl : s.length < s.buf.length) (h8 : s.length ≤ 255) :
    _shift_buf_left s position =
      some { s with
        buf := (moved s.buf position (position + 1) (s.length - position)).set (s.length - 1) 0,
        length := s.length - 1 } := by
  have hk : ((s.length : Int) - position) = ((s.length - position : Nat) : Int) := by omega
  have hm := memmove_eq s.buf position (position + 1) (s.length - position) _ hk
    (by omega) (by omega)
  have hlen := length_moved s.buf position (position + 1) (s.length - position)
    (by omega) (by omega)
  have hmod : (s.length + 255) % 256 = s.length - 1 := by omega
  have hst := store_eq (moved s.buf position (position + 1) (s.length - position))
    (s.length - 1) 0 (by omega)
  simp [_shift_buf_left, Nat.not_le.2 hp, hm, hmod, hst]

theorem shift_buf_right_eq (s : UcTermState) (position : Nat)
    (hp : position ≤ s.length) (hl : s.length ≤ MAX_STR_LEN - 2)
    (hb : s.buf.length = MAX_STR_LEN) :
    _shift_buf_right s position =
      some (1, { s with
        buf := (moved s.buf (position + 1) position (s.length - position + 1)).set
          (s.length + 1) 0,
        length := s.length + 1 }) := by
  simp only [MAX_STR_LEN] at hl hb
  have hk : ((s.length : Int) - position + 1) = ((s.length - position + 1 : Nat) : Int) := by
    omega
  have hm := memmove_eq s.buf (position + 1) position (s.length - position + 1) _ hk
    (by omega) (by omega)
  have hlen := length_moved s.buf (position + 1) position (s.length - position + 1)
    (by omega) (by omega)
  have hmod : (s.length + 1) % 256 = s.length + 1 := by omega
  have hst := store_eq (moved s.buf (position + 1) position (s.length - position + 1))
    (s.length + 1) 0 (by omega)
  have hg : ¬ (MAX_STR_LEN - 2 < s.length) := by simp only [MAX_STR_LEN]; omega
  simp [_shift_buf_right, hg, hm, hmod, hst]

theorem overwrite_terminal_line_eq (s : UcTermState) (j : Nat) (hj : s.index ≤ j)
    (h0 : s.buf[j]? = some 0) :
    _overwrite_terminal_line s =
      some { s with
        out := s.out ++ [Event.str OUT_ERASE_END,
          Event.str ((s.buf.drop s.index).takeWhile fun b => b != 0),
          Event.str (_get_move_command s.index)] } := by
  have hc := cstr_eq s.buf s.index j hj h0
  simp [_overwrite_terminal_line, printStr, hc]

theorem reset_esc_buf_eq (s : UcTermState) (he : 0 < s.esc_buf.length) :
    _reset_esc_buf s = some { s with esc_buf := s.esc_buf.set 0 0, esc_index := 0 } := by
  simp [_reset_esc_buf, store_eq s.esc_buf 0 0 he]

theorem reset_buf_eq (s : UcTermState) (hb : 0 < s.buf.length) (he : 0 < s.esc_buf.length) :
    _reset_buf s =
      some { s with
        length := 0, index := 0, buf := s.buf.set 0 0, esc_buf := s.esc_buf.set 0 0,
        esc_index := 0 } := by
  simp [_reset_buf, store_eq s.esc_buf 0 0 he, store_eq s.buf 0 0 hb]

theorem getElem?_set_nul (l : List Nat) (i j : Nat) (h : l[j]? = some 0) :
    (l.set i 0)[j]? = some 0 := by
  rw [List.getElem?_set]
  by_cases e : i = j
  · have hj : j < l.length := by
      rcases List.getElem?_eq_some.1 h with ⟨hj, _⟩
      exact hj
    simp [e, hj]
  · simp [e, h]

theorem getElem?_set_other (l : List Nat) (i j v x : Nat) (hij : i ≠ j) (h : l[j]? = some x) :
    (l.set i v)[j]? = some x := by
  rw [List.getElem?_set_ne hij, h]

theorem wf_iff (s : UcTermState) :
    WF s ↔ s.buf.length = 120 ∧ s.esc_buf.length = 4 ∧ s.index ≤ s.length ∧
      s.length ≤ 119 ∧ s.buf[119]? = some 0 := by
  simp [WF, MAX_STR_LEN, MAX_ESC_LEN]

theorem wf_printStr (s : UcTermState) (x : List Nat) : WF (printStr s x) ↔ WF s := by
  simp [wf_iff, printStr]

theorem wf_printChr (s : UcTermState) (c : Nat) : WF (printChr s c) ↔ WF s := by
  simp [wf_iff, printChr]

theorem wf_exec (s : UcTermState) : WF (exec s) ↔ WF s := by
  simp [wf_iff, exec]

theorem wf_process_home (s : UcTermState) (h : WF s) : WF (_process_home s) := by
  simp only [wf_iff] at h
  simp [wf_iff, _process_home, printStr, h]

theorem wf_process_end (s : UcTermState) (h : WF s) : WF (_process_end s) := by
  simp only [wf_iff] at h
  simp [wf_iff, _process_end, printStr, h]

theorem wf_process_left_arrow (s : UcTermState) (h : WF s) : WF (_process_left_arrow s) := by
  simp only [wf_iff] at h
  obtain ⟨h1, h2, h3, h4, h5⟩ := h
  unfold _process_left_arrow
  split
  · have e : (s.index + 255) % 256 = s.index - 1 := by omega
    simp only [wf_iff, printStr, e]
    exact ⟨h1, h2, by omega, h4, h5⟩
  · simp only [wf_iff, printStr]
    exact ⟨h1, h2, h3, h4, h5⟩

theorem wf_process_right_arrow (s : UcTermState) (h : WF s) : WF (_process_right_arrow s) := by
  simp only [wf_iff] at h
  obtain ⟨h1, h2, h3, h4, h5⟩ := h
  unfold _process_right_arrow
  split
  · have e : (s.index + 1) % 256 = s.index + 1 := by omega
    simp only [wf_iff, printStr, e]
    exact ⟨h1, h2, by omega, h4, h5⟩
  · exact (wf_iff s).2 ⟨h1, h2, h3, h4, h5⟩

theorem wf_reset_esc_buf (s : UcTermState) (h : WF s) :
    ∃ s', _reset_esc_buf s = some s' ∧ WF s' := by
  simp only [wf_iff] at h
  refine ⟨_, reset_esc_buf_eq s (by omega), ?_⟩
  simp [wf_iff, h]

theorem wf_reset_buf (s : UcTermState) (hb : s.buf.length = 120) (he : s.esc_buf.length = 4)
    (h0 : s.buf[119]? = some 0) :
    ∃ s', _reset_buf s = some s' ∧ WF s' ∧ s'.length = 0 ∧ s'.index = 0 ∧ s'.out = s.out := by
  refine ⟨_, reset_buf_eq s (by omega) (by omega), ?_, rfl, rfl, rfl⟩
  simp only [wf_iff, List.length_set, hb, he, le_refl, Nat.zero_le, true_and]
  exact getElem?_set_nul _ _ _ h0

/-! ## The branches of `UcTerm_IngestChar` on well-formed states -/

theorem length_del_at (m : List Nat) (p l : Nat) (hp : p < l) (hl : l < m.length) :
    (del_at m p l).length = m.length := by
  simp only [del_at, List.length_set]
  exact length_moved m p (p + 1) (l - p) (by omega) (by omega)

theorem getElem?_del_at (m : List Nat) (p l i : Nat) (hp : p < l) (hl : l < m.length) :
    (del_at m p l)[i]? =
      if i = l - 1 then some 0 else if i < p then m[i]? else if i < l then m[i + 1]?
      else m[i]? := by
  have hlen := length_moved m p (p + 1) (l - p) (by omega) (by omega)
  simp only [del_at, List.getElem?_set, hlen,
    getElem?_moved m p (p + 1) (l - p) i (by omega) (by omega)]
  by_cases c0 : i = l - 1
  · have : l - 1 < m.length := by omega
    simp [c0, this]
  · have c0' : ¬ (l - 1 = i) := fun h => c0 h.symm
    have e1 : p + (l - p) = l := by omega
    by_cases c1 : i < p
    · simp [c0, c0', c1]
    · have e2 : p + 1 + (i - p) = i + 1 := by omega
      simp [c0, c0', c1, e1, e2]

theorem length_ins_at (m : List Nat) (p l : Nat) (hp : p ≤ l) (hl : l + 2 ≤ m.length) :
    (ins_at m p l).length = m.length := by
  simp only [ins_at, List.length_set]
  exact length_moved m (p + 1) p (l - p + 1) (by omega) (by omega)

theorem getElem?_ins_at (m : List Nat) (p l i : Nat) (hp : p ≤ l) (hl : l + 2 ≤ m.length) :
    (ins_at m p l)[i]? =
      if i = l + 1 then some 0 else if i ≤ p then m[i]? else if i < l + 1 then m[i - 1]?
      else m[i]? := by
  have hlen := length_moved m (p + 1) p (l - p + 1) (by omega) (by omega)
  simp only [ins_at, List.getElem?_set, hlen,
    getElem?_moved m (p + 1) p (l - p + 1) i (by omega) (by omega)]
  by_cases c0 : i = l + 1
  · have : l + 1 < m.length := by omega
    simp [c0, this]
  · have c0' : ¬ (l + 1 = i) := fun h => c0 h.symm
    have e1 : p + 1 + (l - p + 1) = l + 2 := by omega
    by_cases c1 : i ≤ p
    · have c1' : i < p + 1 := by omega
      simp [c0, c0', c1, c1']
    · have c1' : ¬ (i < p + 1) := by omega
      have e2 : p + (i - (p + 1)) = i - 1 := by omega
      by_cases c2 : i < l + 1
      · have c2' : i < l + 2 := by omega
        simp [c0, c0', c1, c1', e1, e2, c2, c2']
      · have c2' : ¬ (i < l + 2) := by omega
        simp [c0, c0', c1, c1', e1, e2, c2, c2']

theorem overwrite_terminal_line_redraw (s : UcTermState) (j : Nat) (hj : s.index ≤ j)
    (h0 : s.buf[j]? = some 0) :
    _overwrite_terminal_line s = some { s with out := s.out ++ redraw s.buf s.index } :=
  overwrite_terminal_line_eq s j hj h0

theorem shift_buf_left_del_at (s : UcTermState) (position : Nat)
    (hp : position < s.length) (hl : s.length < s.buf.length) (h8 : s.length ≤ 255) :
    _shift_buf_left s position =
      some { s with buf := del_at s.buf position s.length, length := s.length - 1 } :=
  shift_buf_left_eq s position hp hl h8

theorem shift_buf_right_ins_at (s : UcTermState) (position : Nat)
    (hp : position ≤ s.length) (hl : s.length ≤ MAX_STR_LEN - 2)
    (hb : s.buf.length = MAX_STR_LEN) :
    _shift_buf_right s position =
      some (1, { s with buf := ins_at s.buf position s.length, length := s.length + 1 }) :=
  shift_buf_right_eq s position hp hl hb

theorem ingest_backspace_eq (s : UcTermState) (c : Nat) (h : WF s) (hi : 0 < s.index) :
    ingest_backspace s c =
      some { s with
        buf := del_at s.buf (s.index - 1) s.length
        length := s.length - 1
        index := s.index - 1
        out := s.out ++ Event.chr c ::
          (if s.index - 1 < s.length - 1
            then redraw (del_at s.buf (s.index - 1) s.length) (s.index - 1) else []) } := by
  obtain ⟨h1, h2, h3, h4, h5⟩ := (wf_iff s).1 h
  have e : (s.index + 255) % 256 = s.index - 1 := by omega
  have hsl := shift_buf_left_del_at s (s.index - 1) (by omega) (by omega) (by omega)
  have hne : ¬ (0 = s.index) := by omega
  simp only [ingest_backspace, hne, if_false, e, hsl, Option.bind_eq_bind, Option.some_bind,
    printChr]
  by_cases hlt : s.index - 1 < s.length - 1
  · have h0 : (del_at s.buf (s.index - 1) s.length)[s.length - 1]? = some 0 := by
      rw [getElem?_del_at _ _ _ _ (by omega) (by omega)]; simp
    rw [if_pos hlt, if_pos hlt]
    rw [overwrite_terminal_line_redraw _ (s.length - 1) (by simp only; omega) h0]
    simp
  · rw [if_neg hlt, if_neg hlt]

theorem ingest_ctrl_u_eq (s : UcTermState) (h : WF s) (hi : 0 < s.index) :
    ingest_ctrl_u s =
      some { s with
        buf := moved s.buf 0 s.index (s.length - s.index + 1)
        length := s.length - s.index
        index := 0
        out := s.out ++ Event.str (_get_move_command 0) ::
          redraw (moved s.buf 0 s.index (s.length - s.index + 1)) 0 } := by
  obtain ⟨h1, h2, h3, h4, h5⟩ := (wf_iff s).1 h
  have hk : ((s.length : Int) - s.index + 1) = ((s.length - s.index + 1 : Nat) : Int) := by
    omega
  have hm := memmove_eq s.buf 0 s.index (s.length - s.index + 1) _ hk (by omega) (by omega)
  have e : (s.length + 256 - s.index) % 256 = s.length - s.index := by omega
  have hne : ¬ (0 = s.index) := by omega
  have h0 : (moved s.buf 0 s.index (s.length - s.index + 1))[119]? = some 0 := by
    rw [getElem?_moved _ _ _ _ _ (by omega) (by omega)]
    rw [if_neg (by omega), if_neg (by omega)]
    exact h5
  simp only [ingest_ctrl_u, hne, if_false, hm, e, Option.bind_eq_bind, Option.some_bind,
    _process_home, printStr]
  rw [overwrite_terminal_line_redraw _ 119 (Nat.zero_le _) h0]
  simp

theorem ingest_ctrl_k_eq (s : UcTermState) (h : WF s) (hi : s.index < s.length) :
    ingest_ctrl_k s =
      some { s with
        buf := s.buf.set s.index 0
        length := s.index
        out := s.out ++ redraw (s.buf.set s.index 0) s.index } := by
  obtain ⟨h1, h2, h3, h4, h5⟩ := (wf_iff s).1 h
  have hst := store_eq s.buf s.index 0 (by omega)
  have h0 : (s.buf.set s.index 0)[119]? = some 0 := getElem?_set_nul _ _ _ h5
  simp only [ingest_ctrl_k, hi, if_true, hst, Option.bind_eq_bind, Option.some_bind]
  rw [overwrite_terminal_line_redraw _ 119 (by simp only; omega) h0]

theorem store_and_echo_eq (s : UcTermState) (c : Nat) (hi : s.index < s.buf.length)
    (h8 : s.index < 255) (hl : s.length < 255) :
    store_and_echo s c =
      some { s with
        buf := s.buf.set s.index c
        index := s.index + 1
        length := s.length + 1
        out := s.out ++ [Event.chr c] } := by
  have e1 : (s.index + 1) % 256 = s.index + 1 := by omega
  have e2 : (s.length + 1) % 256 = s.length + 1 := by omega
  simp [store_and_echo, store_eq s.buf s.index c hi, e1, e2, printChr]

theorem ingest_printable_guard (s : UcTermState) (c : Nat) (h : WF s)
    (hi : MAX_STR_LEN - 2 < s.index) :
    ingest_printable s c =
      some { s with
        length := 0, index := 0, buf := s.buf.set 0 0, esc_buf := s.esc_buf.set 0 0,
        esc_index := 0, out := s.out ++ [Event.str OUT_UNKNOWN_STR] } := by
  obtain ⟨h1, h2, h3, h4, h5⟩ := (wf_iff s).1 h
  simp only [ingest_printable, hi, if_true]
  rw [reset_buf_eq _ (by simp only [printStr]; omega) (by simp only [printStr]; omega)]
  simp [printStr]

theorem ingest_printable_other (s : UcTermState) (c : Nat)
    (hi : s.index ≤ MAX_STR_LEN - 2) (hc : ¬ (32 ≤ c ∧ 126 ≥ c)) :
    ingest_printable s c = some s := by
  unfold ingest_printable
  rw [if_neg (Nat.not_lt.2 hi), if_neg hc]

theorem ingest_printable_append (s : UcTermState) (c : Nat) (h : WF s)
    (hi : s.index ≤ MAX_STR_LEN - 2) (hc : 32 ≤ c ∧ 126 ≥ c) (he : s.index = s.length) :
    ingest_printable s c =
      some { s with
        buf := s.buf.set s.index c
        index := s.index + 1
        length := s.length + 1
        out := s.out ++ [Event.chr c] } := by
  obtain ⟨h1, h2, h3, h4, h5⟩ := (wf_iff s).1 h
  simp only [MAX_STR_LEN] at hi
  have hlt : ¬ (s.index < s.length) := by omega
  unfold ingest_printable
  rw [if_neg (by simp only [MAX_STR_LEN]; omega), if_pos hc, if_neg hlt]
  exact store_and_echo_eq s c (by omega) (by omega) (by omega)

theorem ingest_printable_full (s : UcTermState) (c : Nat)
    (hi : s.index ≤ MAX_STR_LEN - 2) (hc : 32 ≤ c ∧ 126 ≥ c) (hlt : s.index < s.length)
    (hl : MAX_STR_LEN - 2 < s.length) :
    ingest_printable s c = some s := by
  simp [ingest_printable, Nat.not_lt.2 hi, hc, hlt, _shift_buf_right, hl]

theorem ingest_printable_insert (s : UcTermState) (c : Nat) (h : WF s)
    (hc : 32 ≤ c ∧ 126 ≥ c) (hlt : s.index < s.length) (hl : s.length ≤ MAX_STR_LEN - 2) :
    ingest_printable s c =
      some { s with
        buf := (ins_at s.buf s.index s.length).set s.index c
        index := s.index + 1
        length := s.length + 1
        out := s.out ++ redraw (ins_at s.buf s.index s.length) s.index ++ [Event.chr c] } := by
  obtain ⟨h1, h2, h3, h4, h5⟩ := (wf_iff s).1 h
  have hi : ¬ (MAX_STR_LEN - 2 < s.index) := by simp only [MAX_STR_LEN] at hl ⊢; omega
  have hsr := shift_buf_right_ins_at s s.index h3 hl (by simpa [MAX_STR_LEN] using h1)
  simp only [MAX_STR_LEN] at hl
  have hlen := length_ins_at s.buf s.index s.length h3 (by omega)
  have h0 : (ins_at s.buf s.index s.length)[s.length + 1]? = some 0 := by
    rw [getElem?_ins_at _ _ _ _ h3 (by omega)]; simp
  unfold ingest_printable
  rw [if_neg hi, if_pos hc, if_pos hlt, hsr]
  simp only [Option.bind_eq_bind, Option.some_bind, ne_eq, one_ne_zero, not_false_eq_true,
    if_true]
  rw [overwrite_terminal_line_redraw _ (s.length + 1) (by simp only; omega) h0]
  simp only [Option.some_bind]
  have e : (s.length + 1 + 255) % 256 = s.length := by omega
  rw [e, store_and_echo_eq _ c (by simp only; omega) (by simp only; omega)
    (by simp only; omega)]

/-! ## The Enter branch -/

theorem tokenize_loop_buf (l : List Nat) :
    ∀ (p n : Nat) (f : Bool) (argv : List (Option Nat)) (r : Nat × List Nat × List (Option Nat)),
      tokenize_loop l p n f argv = some r →
      r.2.1.length = l.length ∧
        ∀ (i x : Nat), l[i]? = some x → (r.2.1[i]? = some x ∨ r.2.1[i]? = some 0) := by
  induction l with
  | nil => intro p n f argv r h; simp [tokenize_loop] at h
  | cons b t ih =>
    have step : ∀ (o : Option (Nat × List Nat × List (Option Nat))) (y : Nat)
        (r : Nat × List Nat × List (Option Nat)),
        (∀ r', o = some r' → r'.2.1.length = t.length ∧
          ∀ (i x : Nat), t[i]? = some x → (r'.2.1[i]? = some x ∨ r'.2.1[i]? = some 0)) →
        (y = b ∨ y = 0) →
        o.map (fun r => (r.1, y :: r.2.1, r.2.2)) = some r →
        r.2.1.length = (b :: t).length ∧
          ∀ (i x : Nat), (b :: t)[i]? = some x → (r.2.1[i]? = some x ∨ r.2.1[i]? = some 0) := by
      intro o y r hih hy h
      obtain ⟨r', hr', rfl⟩ := Option.map_eq_some'.1 h
      obtain ⟨hlen, hpt⟩ := hih r' hr'
      refine ⟨by simp [hlen], ?_⟩
      intro i x hx
      cases i with
      | zero =>
        simp only [List.getElem?_cons_zero, Option.some.injEq] at hx ⊢
        rcases hy with hy | hy
        · left; rw [hy, hx]
        · right; exact hy
      | succ i =>
        simp only [List.getElem?_cons_succ] at hx ⊢
        exact hpt i x hx
    have keep : ∀ (argc : Nat) (argv : List (Option Nat)) (r : Nat × List Nat × List (Option Nat)),
        some (argc, b :: t, argv) = some r →
        r.2.1.length = (b :: t).length ∧
          ∀ (i x : Nat), (b :: t)[i]? = some x → (r.2.1[i]? = some x ∨ r.2.1[i]? = some 0) := by
      intro argc argv r h
      simp only [Option.some.injEq] at h
      subst h
      exact ⟨rfl, fun i x hx => Or.inl hx⟩
    intro p n f argv r h
    unfold tokenize_loop at h
    split at h
    · exact keep _ _ r h
    · split at h
      · split at h
        · exact step _ 0 r (fun r' hr' => ih _ _ _ _ r' hr') (Or.inr rfl) h
        · exact step _ b r (fun r' hr' => ih _ _ _ _ r' hr') (Or.inl rfl) h
      · split at h
        · split at h
          · obtain ⟨argv2, _, h2⟩ := Option.bind_eq_some.1 h
            exact step _ b r (fun r' hr' => ih _ _ _ _ r' hr') (Or.inl rfl) h2
          · exact keep _ _ r h
        · exact step _ b r (fun r' hr' => ih _ _ _ _ r' hr') (Or.inl rfl) h

theorem nul_split (l : List Nat) (h : 0 ∈ l) :
    ∃ text rest, l = text ++ 0 :: rest ∧ ∀ b ∈ text, b ≠ 0 := by
  induction l with
  | nil => simp at h
  | cons b t ih =>
    by_cases hb : b = 0
    · exact ⟨[], t, by simp [hb], by simp⟩
    · have ht : 0 ∈ t := by
        rcases List.mem_cons.1 h with h1 | h1
        · exact absurd h1.symm hb
        · exact h1
      obtain ⟨text, rest, he, h0⟩ := ih ht
      refine ⟨b :: text, rest, by simp [he], ?_⟩
      intro x hx
      rcases List.mem_cons.1 hx with h1 | h1
      · rw [h1]; exact hb
      · exact h0 x h1

theorem map_bind_cstr (l' offs : List Nat) (k : Nat) :
    (offs.map some ++ List.replicate k none).map (fun (a : Option Nat) => a.bind (cstr l')) =
      offs.map (cstr l') ++ List.replicate k none := by
  simp only [List.map_append, List.map_map, List.map_replicate, Option.none_bind]
  congr 1

theorem ingest_enter_empty (s : UcTermState) (hl : s.length = 0) :
    ingest_enter s = some (printStr s OUT_PROMPT_STR) := by
  simp [ingest_enter, hl]

theorem ingest_enter_nonempty (s : UcTermState) (h : WF s) (hl : 0 < s.length)
    (text rest : List Nat) (hsplit : s.buf.set s.length 0 = text ++ 0 :: rest)
    (h0 : ∀ b ∈ text, b ≠ 0) :
    ∃ (l' : List Nat) (offs : List Nat),
      offs.map (cstr l') = ((words text).take MAX_ARG_COUNT).map some ∧
      l'.length = 120 ∧ l'[119]? = some 0 ∧
      ingest_enter s =
        some { s with
          buf := l'.set 0 0
          argv := offs.map some ++ List.replicate (MAX_ARG_COUNT - offs.length) none
          argc := offs.length
          length := 0
          index := 0
          esc_buf := s.esc_buf.set 0 0
          esc_index := 0
          out := s.out ++
            (if offs.length > 0 then
              [Event.str OUT_NEWLINE_STR,
                Event.exec offs.length
                  (((words text).take MAX_ARG_COUNT).map some ++
                    List.replicate (MAX_ARG_COUNT - offs.length) none)]
            else []) ++ [Event.str OUT_PROMPT_STR] } := by
  obtain ⟨h1, h2, h3, h4, h5⟩ := (wf_iff s).1 h
  obtain ⟨l2, offs, hrun, hmap⟩ :=
    tokenize_spec text rest (List.replicate MAX_ARG_COUNT none) h0 (by simp)
  have hbuf := tokenize_loop_buf (text ++ 0 :: rest) 0 0 false _ _ (by simpa [_tokenize] using hrun)
  rw [← hsplit] at hbuf hrun
  have hlen : l2.length = 120 := by rw [hbuf.1, List.length_set, h1]
  have h119 : l2[119]? = some 0 := by
    have := hbuf.2 119 0 (getElem?_set_nul _ _ _ h5)
    simpa using this
  refine ⟨l2, offs, hmap, hlen, h119, ?_⟩
  have hst := store_eq s.buf s.length 0 (by omega)
  have hne : ¬ (0 = s.length) := by omega
  have hdrop : List.drop offs.length (List.replicate MAX_ARG_COUNT (none : Option Nat)) =
      List.replicate (MAX_ARG_COUNT - offs.length) none := by simp
  unfold ingest_enter
  rw [if_neg hne, hst]
  simp only [Option.bind_eq_bind, Option.some_bind, hrun, hdrop]
  by_cases hpos : offs.length > 0
  · rw [if_pos hpos, if_pos hpos]
    rw [reset_buf_eq _ (by simp only [exec, printStr]; omega)
      (by simp only [exec, printStr]; omega)]
    simp only [exec, printStr, map_bind_cstr, hmap, Option.some_bind, List.append_assoc,
      List.singleton_append, List.cons_append, List.nil_append]
  · rw [if_neg hpos, if_neg hpos]
    rw [reset_buf_eq _ (by simp only; omega) (by simp only; omega)]
    simp only [printStr, Option.some_bind, List.append_nil]

/-! ## Preservation of well-formedness -/

theorem getElem?_del_at_last (m : List Nat) (p l : Nat) (hp : p < l) (hl : l ≤ 119)
    (hm : m.length = 120) (h0 : m[119]? = some 0) : (del_at m p l)[119]? = some 0 := by
  rw [getElem?_del_at m p l 119 hp (by omega)]
  by_cases c : 119 = l - 1
  · rw [if_pos c]
  · rw [if_neg c, if_neg (by omega), if_neg (by omega)]
    exact h0

theorem getElem?_ins_at_last (m : List Nat) (p l : Nat) (hp : p ≤ l) (hl : l ≤ 118)
    (hm : m.length = 120) (h0 : m[119]? = some 0) : (ins_at m p l)[119]? = some 0 := by
  rw [getElem?_ins_at m p l 119 hp (by omega)]
  by_cases c : 119 = l + 1
  · rw [if_pos c]
  · rw [if_neg c, if_neg (by omega), if_neg (by omega)]
    exact h0

theorem wf_ingest_enter (s : UcTermState) (h : WF s) :
    ∃ s', ingest_enter s = some s' ∧ WF s' ∧ s'.length = 0 ∧ s'.index = 0 ∧
      ∃ evs, s'.out = s.out ++ evs ++ [Event.str OUT_PROMPT_STR] := by
  obtain ⟨h1, h2, h3, h4, h5⟩ := (wf_iff s).1 h
  by_cases hl : s.length = 0
  · refine ⟨_, ingest_enter_empty s hl, (wf_printStr s _).2 h, hl, ?_, [], ?_⟩
    · simp only [printStr]; omega
    · simp [printStr]
  · have hmem : 0 ∈ s.buf.set s.length 0 := by
      apply List.getElem?_mem (n := s.length)
      rw [List.getElem?_set]
      simp only [if_true]
      rw [if_pos (by omega)]
    obtain ⟨text, rest, hsplit, h0⟩ := nul_split _ hmem
    obtain ⟨l2, offs, _, hlen, h119, hrun⟩ :=
      ingest_enter_nonempty s h (by omega) text rest hsplit h0
    refine ⟨_, hrun, ?_, rfl, rfl, _, rfl⟩
    simp only [wf_iff, List.length_set, hlen, h2, le_refl, Nat.zero_le, true_and]
    exact getElem?_set_nul _ _ _ h119

theorem wf_ingest_backspace (s : UcTermState) (c : Nat) (h : WF s) :
    ∃ s', ingest_backspace s c = some s' ∧ WF s' := by
  obtain ⟨h1, h2, h3, h4, h5⟩ := (wf_iff s).1 h
  by_cases hi : 0 < s.index
  · refine ⟨_, ingest_backspace_eq s c h hi, ?_⟩
    simp only [wf_iff]
    refine ⟨?_, h2, by omega, by omega, ?_⟩
    · rw [length_del_at _ _ _ (by omega) (by omega)]; exact h1
    · exact getElem?_del_at_last _ _ _ (by omega) h4 h1 h5
  · refine ⟨s, ?_, h⟩
    have : 0 = s.index := by omega
    simp [ingest_backspace, this]

theorem wf_ingest_ctrl_u (s : UcTermState) (h : WF s) :
    ∃ s', ingest_ctrl_u s = some s' ∧ WF s' := by
  obtain ⟨h1, h2, h3, h4, h5⟩ := (wf_iff s).1 h
  by_cases hi : 0 < s.index
  · refine ⟨_, ingest_ctrl_u_eq s h hi, ?_⟩
    simp only [wf_iff]
    refine ⟨?_, h2, Nat.zero_le _, by omega, ?_⟩
    · rw [length_moved _ _ _ _ (by omega) (by omega)]; exact h1
    · rw [getElem?_moved _ _ _ _ _ (by omega) (by omega)]
      rw [if_neg (by omega), if_neg (by omega)]
      exact h5
  · refine ⟨s, ?_, h⟩
    have : 0 = s.index := by omega
    simp [ingest_ctrl_u, this]

theorem wf_ingest_ctrl_k (s : UcTermState) (h : WF s) :
    ∃ s', ingest_ctrl_k s = some s' ∧ WF s' := by
  obtain ⟨h1, h2, h3, h4, h5⟩ := (wf_iff s).1 h
  by_cases hi : s.index < s.length
  · refine ⟨_, ingest_ctrl_k_eq s h hi, ?_⟩
    simp only [wf_iff, List.length_set]
    exact ⟨h1, h2, le_refl _, by omega, getElem?_set_nul _ _ _ h5⟩
  · refine ⟨s, ?_, h⟩
    simp [ingest_ctrl_k, hi]

theorem wf_ingest_printable (s : UcTermState) (c : Nat) (h : WF s) :
    ∃ s', ingest_printable s c = some s' ∧ WF s' := by
  obtain ⟨h1, h2, h3, h4, h5⟩ := (wf_iff s).1 h
  by_cases hg : MAX_STR_LEN - 2 < s.index
  · refine ⟨_, ingest_printable_guard s c h hg, ?_⟩
    simp only [wf_iff, List.length_set]
    exact ⟨h1, h2, le_refl _, Nat.zero_le _, getElem?_set_nul _ _ _ h5⟩
  · have hi : s.index ≤ MAX_STR_LEN - 2 := Nat.not_lt.1 hg
    by_cases hc : 32 ≤ c ∧ 126 ≥ c
    · by_cases hlt : s.index < s.length
      · by_cases hl : s.length ≤ MAX_STR_LEN - 2
        · refine ⟨_, ingest_printable_insert s c h hc hlt hl, ?_⟩
          simp only [MAX_STR_LEN] at hl
          simp only [wf_iff, List.length_set]
          refine ⟨?_, h2, by omega, by omega, ?_⟩
          · rw [length_ins_at _ _ _ h3 (by omega)]; exact h1
          · exact getElem?_set_other _ _ _ _ _ (by omega)
              (getElem?_ins_at_last _ _ _ h3 hl h1 h5)
        · exact ⟨s, ingest_printable_full s c hi hc hlt (Nat.not_le.1 hl), h⟩
      · refine ⟨_, ingest_printable_append s c h hi hc (by omega), ?_⟩
        simp only [MAX_STR_LEN] at hi
        simp only [wf_iff, List.length_set]
        exact ⟨h1, h2, by omega, by omega, getElem?_set_other _ _ _ _ _ (by omega) h5⟩
    · exact ⟨s, ingest_printable_other s c hi hc, h⟩

theorem wf_ingest_keys (s : UcTermState) (c : Nat) (h : WF s) :
    ∃ s', ingest_keys s c = some s' ∧ WF s' := by
  unfold ingest_keys
  split
  · obtain ⟨s', h1, h2, _⟩ := wf_ingest_enter s h
    exact ⟨s', h1, h2⟩
  · split
    · exact wf_ingest_backspace s c h
    · split
      · exact ⟨_, rfl, wf_process_home s h⟩
      · split
        · exact ⟨_, rfl, wf_process_end s h⟩
        · have hB : WF (if Ctrl_B = c then _process_left_arrow s else s) := by
            split
            · exact wf_process_left_arrow s h
            · exact h
          have hF : WF (if Ctrl_F = c then
              _process_right_arrow (if Ctrl_B = c then _process_left_arrow s else s)
              else (if Ctrl_B = c then _process_left_arrow s else s)) := by
            split
            · exact wf_process_right_arrow _ hB
            · exact hB
          dsimp only
          split
          · exact wf_ingest_ctrl_u _ hF
          · split
            · exact wf_ingest_ctrl_k _ hF
            · exact wf_ingest_printable _ c hF

theorem process_delete_eq (s : UcTermState) (h : WF s) (hi : s.index < s.length) :
    _process_delete s =
      some { s with
        buf := del_at s.buf s.index s.length
        length := s.length - 1
        out := s.out ++ redraw (del_at s.buf s.index s.length) s.index } := by
  obtain ⟨h1, h2, h3, h4, h5⟩ := (wf_iff s).1 h
  have hsl := shift_buf_left_del_at s s.index hi (by omega) (by omega)
  have h0 : (del_at s.buf s.index s.length)[s.length - 1]? = some 0 := by
    rw [getElem?_del_at _ _ _ _ hi (by omega)]; simp
  unfold _process_delete
  rw [if_pos hi, hsl]
  simp only [Option.bind_eq_bind, Option.some_bind]
  rw [overwrite_terminal_line_redraw _ (s.length - 1) (by simp only; omega) h0]

theorem wf_process_delete (s : UcTermState) (h : WF s) :
    ∃ s', _process_delete s = some s' ∧ WF s' := by
  obtain ⟨h1, h2, h3, h4, h5⟩ := (wf_iff s).1 h
  by_cases hi : s.index < s.length
  · refine ⟨_, process_delete_eq s h hi, ?_⟩
    simp only [wf_iff]
    refine ⟨?_, h2, by omega, by omega, ?_⟩
    · rw [length_del_at _ _ _ hi (by omega)]; exact h1
    · exact getElem?_del_at_last _ _ _ hi h4 h1 h5
  · exact ⟨s, by simp [_process_delete, hi], h⟩

theorem wf_esc_dispatch (s : UcTermState) (c : Nat) (h : WF s) :
    ∃ s', esc_dispatch s c = some s' ∧ WF s' := by
  obtain ⟨h1, h2, h3, h4, h5⟩ := (wf_iff s).1 h
  unfold esc_dispatch
  split
  · split
    · exact ⟨_, rfl, wf_process_left_arrow s h⟩
    · split
      · exact ⟨_, rfl, wf_process_right_arrow s h⟩
      · exact ⟨s, rfl, h⟩
  · split
    · have hlt : 1 < s.esc_buf.length := by omega
      have he : load s.esc_buf 1 = some (s.esc_buf[1]) := by
        simp [load, List.getElem?_eq_getElem hlt]
      rw [he]
      simp only [Option.bind_eq_bind, Option.some_bind]
      split
      · exact ⟨_, rfl, wf_process_home s h⟩
      · split
        · exact ⟨_, rfl, wf_process_end s h⟩
        · split
          · exact wf_process_delete s h
          · exact ⟨s, rfl, h⟩
    · exact ⟨s, rfl, h⟩

theorem wf_ingest_escape (s : UcTermState) (c : Nat) (h : WF s) :
    ∃ s', ingest_escape s c = some s' ∧ WF s' := by
  obtain ⟨h1, h2, h3, h4, h5⟩ := (wf_iff s).1 h
  unfold ingest_escape
  split
  · exact wf_reset_esc_buf _ ((wf_printStr s _).2 h)
  · rename_i hlen
    simp only [MAX_ESC_LEN, Nat.not_le] at hlen
    rw [store_eq s.esc_buf s.esc_index c (by omega)]
    simp only [Option.bind_eq_bind, Option.some_bind]
    have hwf : WF { s with
        esc_buf := s.esc_buf.set s.esc_index c, esc_index := (s.esc_index + 1) % 256 } := by
      simp only [wf_iff, List.length_set]
      exact ⟨h1, h2, h3, h4, h5⟩
    split
    · obtain ⟨s1, hd, hwf1⟩ := wf_esc_dispatch _ c hwf
      rw [hd]
      exact wf_reset_esc_buf s1 hwf1
    · exact ⟨_, rfl, hwf⟩

theorem wf_ingest (s : UcTermState) (c : Nat) (h : WF s) :
    ∃ s', UcTerm_IngestChar s c = some s' ∧ WF s' := by
  obtain ⟨h1, h2, h3, h4, h5⟩ := (wf_iff s).1 h
  have hset : ∀ v, WF { s with esc_buf := s.esc_buf.set 0 v } := by
    intro v
    simp only [wf_iff, List.length_set]
    exact ⟨h1, h2, h3, h4, h5⟩
  unfold UcTerm_IngestChar
  split
  · rw [store_eq s.esc_buf 0 ESC_HEADER (by omega)]
    exact ⟨_, rfl, hset _⟩
  · split
    · rw [store_eq s.esc_buf 0 ESC_SEPRTR (by omega)]
      refine ⟨_, rfl, ?_⟩
      simp only [wf_iff, List.length_set]
      exact ⟨h1, h2, h3, h4, h5⟩
    · have hpre : ∃ s1, (if ESC_SEPRTR = c then _reset_esc_buf s else some s) = some s1 ∧
          WF s1 := by
        split
        · exact wf_reset_esc_buf s h
        · exact ⟨s, rfl, h⟩
      obtain ⟨s1, hs1, hwf1⟩ := hpre
      rw [hs1]
      have hlt : 0 < s1.esc_buf.length := by
        have := ((wf_iff s1).1 hwf1).2.1
        omega
      have he : load s1.esc_buf 0 = some (s1.esc_buf[0]) := by
        simp [load, List.getElem?_eq_getElem hlt]
      simp only [Option.some_bind, he]
      split
      · exact wf_ingest_escape s1 c hwf1
      · exact wf_ingest_keys s1 c hwf1

theorem wf_init : WF UcTerm_Init := by decide

theorem wf_ingest_all (cs : List Nat) :
    ∀ s, WF s → ∃ s', ingest_all s cs = some s' ∧ WF s' := by
  induction cs with
  | nil => intro s h; exact ⟨s, rfl, h⟩
  | cons c cs ih =>
    intro s h
    obtain ⟨s1, h1, hwf1⟩ := wf_ingest s c h
    obtain ⟨s2, h2, hwf2⟩ := ih s1 hwf1
    exact ⟨s2, by simp [ingest_all, h1, h2], hwf2⟩

/-! ## Invariants of a session -/

theorem ingest_all_take_wf (cs : List Nat) (n : Nat) :
    ∃ s, ingest_all UcTerm_Init (cs.take n) = some s ∧ WF s :=
  wf_ingest_all (cs.take n) UcTerm_Init wf_init

/-- C1, as amended: after every call of `UcTerm_IngestChar` in any sequence of
bytes ingested into a fresh session (that is, for every prefix of the
sequence), the call has returned and `0 ≤ index ≤ length ≤ MAX_STR_LEN - 1`. -/
theorem cursor_length_invariant (cs : List Nat) (n : Nat) :
    ∃ s, ingest_all UcTerm_Init (cs.take n) = some s ∧
      0 ≤ s.index ∧ s.index ≤ s.length ∧ s.length ≤ MAX_STR_LEN - 1 := by
  obtain ⟨s, hs, hwf⟩ := ingest_all_take_wf cs n
  exact ⟨s, hs, Nat.zero_le _, hwf.2.2.1, hwf.2.2.2.1⟩

/-- C1, as stated, fails: 119 printable bytes ingested into a fresh session give
a line of length 119, above `MAX_STR_LEN - 2`. -/
theorem length_exceeds_capacity_minus_two :
    ∃ s, ingest_all UcTerm_Init (List.replicate 119 97) = some s ∧
      s.index = 119 ∧ s.length = 119 ∧ ¬ (s.length ≤ MAX_STR_LEN - 2) := by
  have e : (ingest_all UcTerm_Init (List.replicate 119 97)).map
      (fun s => (s.index, s.length)) = some (119, 119) := by decide!
  cases h : ingest_all UcTerm_Init (List.replicate 119 97) with
  | none => rw [h] at e; cases e
  | some s =>
    rw [h] at e
    simp only [Option.map_some', Option.some.injEq, Prod.mk.injEq] at e
    refine ⟨s, rfl, e.1, e.2, ?_⟩
    rw [e.2]
    decide

/-- C2: after every call of `UcTerm_IngestChar` in any sequence of bytes
ingested into a fresh session, `index ≤ length` and `length ≤ MAX_STR_LEN - 1`,
so that the terminator slot `buf[length]` lies inside the buffer of
`MAX_STR_LEN` bytes. -/
theorem terminator_slot_in_buffer (cs : List Nat) (n : Nat) :
    ∃ s, ingest_all UcTerm_Init (cs.take n) = some s ∧
      s.index ≤ s.length ∧ s.length ≤ MAX_STR_LEN - 1 ∧ MAX_STR_LEN - 1 = 119 ∧
      s.buf.length = MAX_STR_LEN ∧ s.length < s.buf.length ∧
      (load s.buf s.length).isSome = true := by
  obtain ⟨s, hs, hwf⟩ := ingest_all_take_wf cs n
  obtain ⟨h1, h2, h3, h4, h5⟩ := (wf_iff s).1 hwf
  refine ⟨s, hs, h3, hwf.2.2.2.1, rfl, hwf.1, by omega, ?_⟩
  have hlt : s.length < s.buf.length := by omega
  simp [load, List.getElem?_eq_getElem hlt]

/-! ## Dispatch from the Idle state -/

theorem set_self (l : List Nat) (i v : Nat) (h : l[i]? = some v) : l.set i v = l := by
  apply List.ext_getElem?
  intro j
  rw [List.getElem?_set]
  by_cases e : i = j
  · subst e
    have hi : i < l.length := (List.getElem?_eq_some.1 h).1
    simp [hi, h]
  · simp [e]

theorem ingest_idle (s : UcTermState) (c : Nat) (hidle : Idle s)
    (h27 : c ≠ ESC_HEADER) (h91 : c ≠ ESC_SEPRTR) :
    UcTerm_IngestChar s c = ingest_keys s c := by
  unfold Idle at hidle
  unfold UcTerm_IngestChar
  rw [if_neg (fun h => h27 h.symm), if_neg (fun h => h91 h.1.symm),
    if_neg (fun h => h91 h.symm)]
  simp only [Option.some_bind, hidle]
  rw [if_neg (by decide)]

theorem ingest_idle_sep (s : UcTermState) (hidle : Idle s) :
    UcTerm_IngestChar s ESC_SEPRTR = ingest_keys { s with esc_index := 0 } ESC_SEPRTR := by
  unfold Idle load at hidle
  have h0 : 0 < s.esc_buf.length := (List.getElem?_eq_some.1 hidle).1
  unfold UcTerm_IngestChar
  rw [if_neg (by decide), if_neg (by simp [load, hidle, ESC_HEADER]), if_pos rfl,
    reset_esc_buf_eq s h0, set_self s.esc_buf 0 0 hidle]
  simp only [Option.some_bind, load, hidle]
  rw [if_neg (by decide)]

theorem ingest_keys_printable (s : UcTermState) (c : Nat) (hc : 32 ≤ c ∧ 126 ≥ c) :
    ingest_keys s c = ingest_printable s c := by
  have k1 : ¬ (13 = c ∨ 10 = c) := by omega
  have k2 : ¬ (8 = c ∨ 127 = c) := by omega
  have k3 : ¬ (1 = c) ∧ ¬ (5 = c) := by omega
  have k4 : ¬ (2 = c) ∧ ¬ (6 = c) := by omega
  have k5 : ¬ (21 = c) ∧ ¬ (11 = c) := by omega
  simp only [ingest_keys, KEY_ENTER_CR, KEY_ENTER_LF, KEY_BACKSPACE, KEY_DELETE, CTRL_A, CTRL_E,
    Ctrl_B, Ctrl_F, CTRL_U, CTRL_K, k1, k2, k3.1, k3.2, k4.1, k4.2, k5.1, k5.2, if_false]

theorem ingest_idle_printable (s : UcTermState) (c : Nat) (hidle : Idle s)
    (hc : 32 ≤ c ∧ 126 ≥ c) :
    UcTerm_IngestChar s c =
      ingest_printable { s with esc_index := if c = ESC_SEPRTR then 0 else s.esc_index } c := by
  by_cases h91 : c = ESC_SEPRTR
  · subst h91
    rw [ingest_idle_sep s hidle, ingest_keys_printable _ _ hc]
    simp
  · have h27 : c ≠ ESC_HEADER := by simp only [ESC_HEADER]; omega
    rw [ingest_idle s c hidle h27 h91, ingest_keys_printable _ _ hc]
    simp [h91]

theorem ingest_idle_enter (s : UcTermState) (c : Nat) (hidle : Idle s)
    (hc : c = KEY_ENTER_LF ∨ c = KEY_ENTER_CR) :
    UcTerm_IngestChar s c = ingest_enter s := by
  have h27 : c ≠ ESC_HEADER := by rcases hc with h | h <;> rw [h] <;> decide
  have h91 : c ≠ ESC_SEPRTR := by rcases hc with h | h <;> rw [h] <;> decide
  rw [ingest_idle s c hidle h27 h91]
  unfold ingest_keys
  rw [if_pos (by rcases hc with h | h <;> simp [h])]

theorem ingest_idle_backspace (s : UcTermState) (c : Nat) (hidle : Idle s)
    (hc : c = KEY_BACKSPACE ∨ c = KEY_DELETE) :
    UcTerm_IngestChar s c = ingest_backspace s c := by
  have h27 : c ≠ ESC_HEADER := by rcases hc with h | h <;> rw [h] <;> decide
  have h91 : c ≠ ESC_SEPRTR := by rcases hc with h | h <;> rw [h] <;> decide
  rw [ingest_idle s c hidle h27 h91]
  unfold ingest_keys
  rw [if_neg (by rcases hc with h | h <;> rw [h] <;> decide),
    if_pos (by rcases hc with h | h <;> simp [h])]

/-! ## Submission -/

theorem words_ne_nil (t : List Nat) (h : ∃ b ∈ t, isWhitespace b = false) : words t ≠ [] := by
  induction t with
  | nil => obtain ⟨b, hb, _⟩ := h; simp at hb
  | cons x t ih =>
    by_cases hx : isWhitespace x = true
    · rw [words_cons_ws x t hx]
      obtain ⟨b, hb, hbw⟩ := h
      rcases List.mem_cons.1 hb with h1 | h1
      · rw [h1, hx] at hbw; cases hbw
      · exact ih ⟨b, h1, hbw⟩
    · simp only [Bool.not_eq_true] at hx
      rw [words_cons_word x t hx]
      exact List.cons_ne_nil _ _

theorem set_length_split (s : UcTermState) (h : s.length < s.buf.length) :
    s.buf.set s.length 0 = content s ++ 0 :: s.buf.drop (s.length + 1) := by
  rw [List.set_eq_take_append_cons_drop, if_pos h]
  rfl

theorem ingest_enter_tokens (s : UcTermState) (h : WF s) (hl : 0 < s.length)
    (h0 : ∀ b ∈ content s, b ≠ 0) :
    ∃ s', ingest_enter s = some s' ∧
      s'.argc = ((words (content s)).take MAX_ARG_COUNT).length ∧
      s'.out = s.out ++
        (if ((words (content s)).take MAX_ARG_COUNT).length > 0 then
          [Event.str OUT_NEWLINE_STR,
            Event.exec ((words (content s)).take MAX_ARG_COUNT).length
              (((words (content s)).take MAX_ARG_COUNT).map some ++
                List.replicate
                  (MAX_ARG_COUNT - ((words (content s)).take MAX_ARG_COUNT).length) none)]
        else []) ++ [Event.str OUT_PROMPT_STR] := by
  obtain ⟨h1, h2, h3, h4, h5⟩ := (wf_iff s).1 h
  obtain ⟨l2, offs, hmap, _, _, hrun⟩ :=
    ingest_enter_nonempty s h hl (content s) (s.buf.drop (s.length + 1))
      (set_length_split s (by omega)) h0
  have hlen : offs.length = ((words (content s)).take MAX_ARG_COUNT).length := by
    have := congrArg List.length hmap
    simpa using this
  rw [hlen] at hrun
  exact ⟨_, hrun, rfl, rfl⟩

theorem wf_line_state (text : List Nat) (index : Nat) (hi : index ≤ text.length)
    (hl : text.length ≤ 119) : WF (line_state text index) := by
  have e : ¬ (119 < text.length) := by omega
  simp only [wf_iff, line_state, UcTerm_Init, MAX_STR_LEN, MAX_ESC_LEN, List.length_append,
    List.length_replicate, List.getElem?_append, e, if_false]
  refine ⟨by omega, trivial, hi, hl, ?_⟩
  rw [List.getElem?_replicate, if_pos (by omega)]

theorem idle_line_state (text : List Nat) (index : Nat) : Idle (line_state text index) := by
  simp [Idle, load, line_state, UcTerm_Init, MAX_ESC_LEN, List.replicate]

/-- C6 as amended: in the Idle state a submit key (LF or CR) invokes `exec`
exactly when the line `buf[0 .. length)` holds a byte that is not whitespace.
It is then invoked once, after the newline string and before the prompt, with
`argc` the number of words of the line capped at `MAX_ARG_COUNT` and `argv`
those words in order, followed by `NULL` entries.  For an empty or
all-whitespace line the line has no token, `exec` is not invoked and only the
prompt is emitted; the stored `argc` is 0 when the line is not empty, and for
the empty line the call returns before the tokenizer, so that the stored
`argc` and `argv` keep the values they had.  LF and CR give the same result. -/
theorem submit_invokes_exec (s : UcTermState) (c : Nat) (hwf : WF s) (hidle : Idle s)
    (hc : c = KEY_ENTER_LF ∨ c = KEY_ENTER_CR) (h0 : ∀ b ∈ content s, b ≠ 0) :
    ∃ s', UcTerm_IngestChar s c = some s' ∧
      ((∃ b ∈ content s, isWhitespace b = false) →
        0 < ((words (content s)).take MAX_ARG_COUNT).length ∧
        ((words (content s)).take MAX_ARG_COUNT).length =
          min (words (content s)).length MAX_ARG_COUNT ∧
        s'.argc = ((words (content s)).take MAX_ARG_COUNT).length ∧
        s'.out = s.out ++
          [Event.str OUT_NEWLINE_STR,
            Event.exec ((words (content s)).take MAX_ARG_COUNT).length
              (((words (content s)).take MAX_ARG_COUNT).map some ++
                List.replicate
                  (MAX_ARG_COUNT - ((words (content s)).take MAX_ARG_COUNT).length) none),
            Event.str OUT_PROMPT_STR]) ∧
      ((∀ b ∈ content s, isWhitespace b = true) →
        words (content s) = [] ∧ (0 < s.length → s'.argc = 0) ∧
        (s.length = 0 → s'.argc = s.argc ∧ s'.argv = s.argv) ∧
        s'.out = s.out ++ [Event.str OUT_PROMPT_STR]) ∧
      ((∃ b ∈ content s, isWhitespace b = false) ↔
        ∃ n a, Event.exec n a ∈ s'.out.drop s.out.length) ∧
      UcTerm_IngestChar s KEY_ENTER_LF = UcTerm_IngestChar s KEY_ENTER_CR := by
  have hsame : UcTerm_IngestChar s KEY_ENTER_LF = UcTerm_IngestChar s KEY_ENTER_CR := by
    rw [ingest_idle_enter s _ hidle (Or.inl rfl), ingest_idle_enter s _ hidle (Or.inr rfl)]
  have hmain : ∃ s', UcTerm_IngestChar s c = some s' ∧
      ((∃ b ∈ content s, isWhitespace b = false) →
        0 < ((words (content s)).take MAX_ARG_COUNT).length ∧
        ((words (content s)).take MAX_ARG_COUNT).length =
          min (words (content s)).length MAX_ARG_COUNT ∧
        s'.argc = ((words (content s)).take MAX_ARG_COUNT).length ∧
        s'.out = s.out ++
          [Event.str OUT_NEWLINE_STR,
            Event.exec ((words (content s)).take MAX_ARG_COUNT).length
              (((words (content s)).take MAX_ARG_COUNT).map some ++
                List.replicate
                  (MAX_ARG_COUNT - ((words (content s)).take MAX_ARG_COUNT).length) none),
            Event.str OUT_PROMPT_STR]) ∧
      ((∀ b ∈ content s, isWhitespace b = true) →
        words (content s) = [] ∧ (0 < s.length → s'.argc = 0) ∧
        (s.length = 0 → s'.argc = s.argc ∧ s'.argv = s.argv) ∧
        s'.out = s.out ++ [Event.str OUT_PROMPT_STR]) ∧
      UcTerm_IngestChar s KEY_ENTER_LF = UcTerm_IngestChar s KEY_ENTER_CR := by
    rw [ingest_idle_enter s c hidle hc]
    by_cases hl : s.length = 0
    · have hc0 : content s = [] := by simp [content, hl]
      refine ⟨_, ingest_enter_empty s hl, ?_, ?_, hsame⟩
      · intro ⟨b, hb, _⟩
        rw [hc0] at hb
        cases hb
      · intro _
        refine ⟨by rw [hc0]; exact words_nil, fun h => by omega, fun _ => ⟨rfl, rfl⟩, rfl⟩
    · obtain ⟨s', hrun, hargc, hout⟩ := ingest_enter_tokens s hwf (by omega) h0
      refine ⟨s', hrun, ?_, ?_, hsame⟩
      · intro hex
        have hne := words_ne_nil _ hex
        have hpos : 0 < ((words (content s)).take MAX_ARG_COUNT).length := by
          cases hw : words (content s) with
          | nil => exact absurd hw hne
          | cons w ws => simp [MAX_ARG_COUNT]
        refine ⟨hpos, ?_, hargc, ?_⟩
        · rw [List.length_take, Nat.min_comm]
        · rw [hout, if_pos hpos]
          simp
      · intro hall
        have hnil := words_ws_only _ hall
        rw [hnil] at hargc hout
        refine ⟨hnil, fun _ => by simpa using hargc, fun h => absurd h hl, ?_⟩
        simpa using hout
  obtain ⟨s', hrun, hA, hB, hC⟩ := hmain
  refine ⟨s', hrun, hA, hB, ?_, hC⟩
  constructor
  · intro hex
    rw [(hA hex).2.2.2, List.drop_left]
    exact ⟨_, _, List.mem_cons_of_mem _ (List.mem_cons_self _ _)⟩
  · intro ⟨n, a, hmem⟩
    by_contra hno
    have hall : ∀ b ∈ content s, isWhitespace b = true := by
      intro b hb
      by_contra hb2
      exact hno ⟨b, hb, by simpa using hb2⟩
    rw [(hB hall).2.2.2, List.drop_left] at hmem
    simp at hmem

theorem submit_invokes_exec_witness :
    WF (line_state [99, 100, 32, 120] 4) ∧ Idle (line_state [99, 100, 32, 120] 4) ∧
    ((10 : Nat) = KEY_ENTER_LF ∨ (10 : Nat) = KEY_ENTER_CR) ∧
    (∀ b ∈ content (line_state [99, 100, 32, 120] 4), b ≠ 0) ∧
    ∃ s', UcTerm_IngestChar (line_state [99, 100, 32, 120] 4) 10 = some s' ∧
      s'.out = [Event.str OUT_NEWLINE_STR,
        Event.exec 2 [some [99, 100], some [120], none, none], Event.str OUT_PROMPT_STR] := by
  have hwf : WF (line_state [99, 100, 32, 120] 4) :=
    wf_line_state _ _ (by decide) (by decide)
  have hidle : Idle (line_state [99, 100, 32, 120] 4) := idle_line_state _ _
  have h0 : ∀ b ∈ content (line_state [99, 100, 32, 120] 4), b ≠ 0 := by decide
  obtain ⟨s', hrun, hex, _, _, _⟩ := submit_invokes_exec _ 10 hwf hidle (Or.inl rfl) h0
  refine ⟨hwf, hidle, Or.inl rfl, h0, s', hrun, ?_⟩
  have h := (hex (by decide)).2.2.2
  rw [h]
  decide

/-- C6, the counterexample: after the line `x y` is submitted the stored
`argc` is 2; a submit key on the empty line that follows emits the prompt
only, invokes nothing and leaves the stored `argc` at 2, not 0. -/
theorem empty_submit_keeps_argc :
    (ingest_all UcTerm_Init [120, 32, 121, 10]).map
      (fun s => (s.argc, s.length, load s.esc_buf 0, s.out.drop 3)) =
        some (2, 0, some 0, [Event.str OUT_NEWLINE_STR,
          Event.exec 2 [some [120], some [121], none, none], Event.str OUT_PROMPT_STR]) ∧
    (ingest_all UcTerm_Init [120, 32, 121, 10, 10]).map
      (fun s => (s.argc, s.length, s.out.drop 6)) =
        some (2, 0, [Event.str OUT_PROMPT_STR]) := by
  decide!

/-- C7: in the Idle state, after a submit key (LF or CR) the line is empty,
`length = 0` and `index = 0`, for every line, and the prompt string is the
last thing emitted. -/
theorem submit_resets_line (s : UcTermState) (c : Nat) (hwf : WF s) (hidle : Idle s)
    (hc : c = KEY_ENTER_LF ∨ c = KEY_ENTER_CR) :
    ∃ s', UcTerm_IngestChar s c = some s' ∧
      s'.length = 0 ∧ s'.index = 0 ∧ content s' = [] ∧
      (∃ evs, s'.out = s.out ++ evs ++ [Event.str OUT_PROMPT_STR]) ∧
      s'.out.getLast? = some (Event.str OUT_PROMPT_STR) := by
  rw [ingest_idle_enter s c hidle hc]
  obtain ⟨s', hrun, _, hlen, hidx, evs, hout⟩ := wf_ingest_enter s hwf
  refine ⟨s', hrun, hlen, hidx, by simp [content, hlen], ⟨evs, hout⟩, ?_⟩
  rw [hout]
  simp

theorem submit_resets_line_witness :
    WF (line_state [99, 100, 32, 120] 2) ∧ Idle (line_state [99, 100, 32, 120] 2) ∧
    ((13 : Nat) = KEY_ENTER_LF ∨ (13 : Nat) = KEY_ENTER_CR) ∧
    ∃ s', UcTerm_IngestChar (line_state [99, 100, 32, 120] 2) 13 = some s' ∧
      s'.length = 0 ∧ s'.index = 0 ∧ content s' = [] ∧
      (∃ evs, s'.out = (line_state [99, 100, 32, 120] 2).out ++ evs ++
        [Event.str OUT_PROMPT_STR]) ∧
      s'.out.getLast? = some (Event.str OUT_PROMPT_STR) :=
  ⟨wf_line_state _ _ (by decide) (by decide), idle_line_state _ _, Or.inr rfl,
    submit_resets_line _ 13 (wf_line_state _ _ (by decide) (by decide)) (idle_line_state _ _)
      (Or.inr rfl)⟩

/-! ## Echo and append -/

theorem append_run (w : List Nat) :
    ∀ s, WF s → Idle s → s.index = s.length → s.length + w.length ≤ 119 →
      (∀ b ∈ w, 32 ≤ b ∧ 126 ≥ b) →
      ∃ s', ingest_all s w = some s' ∧ content s' = content s ++ w ∧
        s'.index = s.length + w.length ∧ s'.length = s.length + w.length ∧
        s'.out = s.out ++ w.map Event.chr := by
  induction w with
  | nil =>
    intro s _ _ hidx _ _
    exact ⟨s, rfl, by simp, by simpa using hidx, by simp, by simp⟩
  | cons c w ih =>
    intro s hwf hidle hidx hlen hw
    obtain ⟨h1, h2, h3, h4, h5⟩ := (wf_iff s).1 hwf
    have hc := hw c (List.mem_cons_self _ _)
    simp only [List.length_cons] at hlen
    have hwf0 : WF { s with esc_index := if c = ESC_SEPRTR then 0 else s.esc_index } :=
      (wf_iff _).2 ⟨h1, h2, h3, h4, h5⟩
    have hstep := ingest_printable_append _ c hwf0
      (by simp only [MAX_STR_LEN]; omega) hc hidx
    rw [← ingest_idle_printable s c hidle hc] at hstep
    have hwf1 := wf_ingest s c hwf
    rw [hstep] at hwf1
    obtain ⟨_, hs1, hwf1⟩ := hwf1
    simp only [Option.some.injEq] at hs1
    subst hs1
    obtain ⟨s', hrun, hcont, hi', hl', hout⟩ := ih _ hwf1 (by simpa [Idle] using hidle)
      (by simp only; omega) (by simp only; omega)
      (fun b hb => hw b (List.mem_cons_of_mem _ hb))
    refine ⟨s', by simp [ingest_all, hstep, hrun], ?_, ?_, ?_, ?_⟩
    · rw [hcont]
      simp only [content, hidx]
      rw [take_set_succ s.buf s.length c (by omega)]
      simp
    · rw [hi']; simp only [List.length_cons]; omega
    · rw [hl']; simp only [List.length_cons]; omega
    · rw [hout]; simp

/-- C8: the bytes of a list `w` of at most 119 bytes in `0x20 .. 0x7E` (the
brackets included), ingested in order into a fresh session, make up the line:
`buf[0 .. length) = w` and `index = length = |w|`.  The output is one `printChr`
call per byte of `w`, in order, and nothing else; a single byte is stored at
position 0. -/
theorem echo_append (w : List Nat) (hlen : w.length ≤ 119)
    (hw : ∀ b ∈ w, 32 ≤ b ∧ 126 ≥ b) :
    ∃ s, ingest_all UcTerm_Init w = some s ∧ content s = w ∧
      s.index = w.length ∧ s.length = w.length ∧ s.out = w.map Event.chr ∧
      (∀ e ∈ s.out, ∀ x, e ≠ Event.str x) ∧
      (∀ b, w = [b] → s.buf[0]? = some b) := by
  obtain ⟨s, hrun, hcont, hidx, hl, hout⟩ :=
    append_run w UcTerm_Init wf_init (by decide) rfl (by simpa [UcTerm_Init] using hlen) hw
  have hc0 : content UcTerm_Init = [] := by decide
  have hl0 : UcTerm_Init.length = 0 := rfl
  have ho0 : UcTerm_Init.out = [] := rfl
  rw [hc0, List.nil_append] at hcont
  rw [hl0, Nat.zero_add] at hidx hl
  rw [ho0, List.nil_append] at hout
  refine ⟨s, hrun, hcont, hidx, hl, hout, ?_, ?_⟩
  · intro e he x hx
    rw [hout] at he
    obtain ⟨b, _, hb⟩ := List.mem_map.1 he
    rw [hx] at hb
    cases hb
  · intro b hb
    have h1 : (content s)[0]? = some b := by rw [hcont, hb]; rfl
    simp only [content, List.getElem?_take] at h1
    rw [hl, hb] at h1
    simpa using h1

theorem echo_append_witness :
    ([97, 100, 91, 99, 93, 100, 101, 102] : List Nat).length ≤ 119 ∧
    (∀ b ∈ ([97, 100, 91, 99, 93, 100, 101, 102] : List Nat), 32 ≤ b ∧ 126 ≥ b) ∧
    ∃ s, ingest_all UcTerm_Init [97, 100, 91, 99, 93, 100, 101, 102] = some s ∧
      content s = [97, 100, 91, 99, 93, 100, 101, 102] ∧
      s.index = 8 ∧ s.length = 8 ∧
      s.out = ([97, 100, 91, 99, 93, 100, 101, 102] : List Nat).map Event.chr :=
  ⟨by decide, by decide,
    (echo_append [97, 100, 91, 99, 93, 100, 101, 102] (by decide) (by decide)).imp
      fun _ h => ⟨h.1, h.2.1, h.2.2.1, h.2.2.2.1, h.2.2.2.2.1⟩⟩

/-! ## Insertion and backspace inside the line -/

theorem take_set_ins_at (m : List Nat) (i l c : Nat) (hi : i ≤ l) (hl : l + 2 ≤ m.length) :
    ((ins_at m i l).set i c).take (l + 1) =
      (m.take l).take i ++ c :: (m.take l).drop i := by
  have hlen := length_ins_at m i l hi hl
  have hlen1 : ((m.take l).take i).length = i := by
    simp only [List.length_take]; omega
  apply List.ext_getElem?
  intro j
  rw [List.getElem?_take, List.getElem?_set, hlen, getElem?_ins_at m i l j hi hl,
    List.getElem?_append, hlen1]
  by_cases c1 : j < i
  · have e1 : ¬ (i = j) := by omega
    have e2 : j < l + 1 := by omega
    have e3 : ¬ (j = l + 1) := by omega
    have e4 : j ≤ i := by omega
    have e5 : j < l := by omega
    simp [c1, e1, e2, e3, e4, e5, List.getElem?_take]
  · by_cases c2 : j = i
    · subst c2
      have e2 : j < l + 1 := by omega
      have e3 : j < m.length := by omega
      simp [e2, e3]
    · have e1 : ¬ (i = j) := fun h => c2 h.symm
      have e2 : j - i = (j - i - 1) + 1 := by omega
      have e3 : i + (j - i - 1) = j - 1 := by omega
      have e4 : ¬ (j ≤ i) := by omega
      rw [if_neg c1, e2, List.getElem?_cons_succ, List.getElem?_drop, e3]
      by_cases c3 : j < l + 1
      · have e5 : ¬ (j = l + 1) := by omega
        have e6 : j - 1 < l := by omega
        simp [c3, e1, e4, e5, e6, List.getElem?_take]
      · have e6 : ¬ (j - 1 < l) := by omega
        simp [c1, c3, e6, List.getElem?_take]

theorem take_del_at (m : List Nat) (p l : Nat) (hp : p < l) (hl : l < m.length) :
    (del_at m p l).take (l - 1) = (m.take l).take p ++ (m.take l).drop (p + 1) := by
  have hlen1 : ((m.take l).take p).length = p := by
    simp only [List.length_take]; omega
  apply List.ext_getElem?
  intro j
  rw [List.getElem?_take, getElem?_del_at m p l j hp hl, List.getElem?_append, hlen1]
  by_cases c1 : j < p
  · have e1 : j < l - 1 := by omega
    have e2 : ¬ (j = l - 1) := by omega
    have e3 : j < l := by omega
    simp [c1, e1, e2, e3, List.getElem?_take]
  · have e3 : p + 1 + (j - p) = j + 1 := by omega
    rw [if_neg c1, List.getElem?_drop, e3]
    by_cases c3 : j < l - 1
    · have e2 : ¬ (j = l - 1) := by omega
      have e4 : j < l := by omega
      have e5 : j + 1 < l := by omega
      simp [c1, c3, e2, e4, e5, List.getElem?_take]
    · have e5 : ¬ (j + 1 < l) := by omega
      simp [c1, c3, e5, List.getElem?_take]

/-- C9: in the Idle state, with `index < length ≤ 118`, a byte `c` in
`0x20 .. 0x7E` is inserted at the cursor: the line becomes
`old[0 .. index) ++ [c] ++ old[index .. length)`, and `index` and `length`
each grow by one. -/
theorem insert_in_the_middle (s : UcTermState) (c : Nat) (hwf : WF s) (hidle : Idle s)
    (hlt : s.index < s.length) (hl : s.length ≤ 118) (hc : 32 ≤ c ∧ 126 ≥ c) :
    ∃ s', UcTerm_IngestChar s c = some s' ∧
      content s' = (content s).take s.index ++ [c] ++ (content s).drop s.index ∧
      s'.index = s.index + 1 ∧ s'.length = s.length + 1 := by
  obtain ⟨h1, h2, h3, h4, h5⟩ := (wf_iff s).1 hwf
  have hwf0 : WF { s with esc_index := if c = ESC_SEPRTR then 0 else s.esc_index } :=
    (wf_iff _).2 ⟨h1, h2, h3, h4, h5⟩
  have hstep := ingest_printable_insert _ c hwf0 hc hlt (by simp only [MAX_STR_LEN]; omega)
  rw [← ingest_idle_printable s c hidle hc] at hstep
  refine ⟨_, hstep, ?_, rfl, rfl⟩
  simp only [content]
  rw [take_set_ins_at s.buf s.index s.length c h3 (by omega)]
  simp

theorem insert_in_the_middle_witness :
    WF (line_state [97, 98, 102] 1) ∧ Idle (line_state [97, 98, 102] 1) ∧
    (line_state [97, 98, 102] 1).index < (line_state [97, 98, 102] 1).length ∧
    (line_state [97, 98, 102] 1).length ≤ 118 ∧ (32 ≤ 100 ∧ 126 ≥ 100) ∧
    ∃ s', UcTerm_IngestChar (line_state [97, 98, 102] 1) 100 = some s' ∧
      content s' = [97, 100, 98, 102] ∧ s'.index = 2 ∧ s'.length = 4 := by
  have hwf : WF (line_state [97, 98, 102] 1) := wf_line_state _ _ (by decide) (by decide)
  obtain ⟨s', hrun, hcont, hidx, hlen⟩ :=
    insert_in_the_middle (line_state [97, 98, 102] 1) 100 hwf (idle_line_state _ _)
      (by decide) (by decide) (by decide)
  refine ⟨hwf, idle_line_state _ _, by decide, by decide, by decide, s', hrun, ?_, hidx, hlen⟩
  rw [hcont]
  decide

/-- C10: in the Idle state, for either key `0x08` or `0x7F`: with `index = 0`
the state is unchanged and nothing is emitted; otherwise the byte before the
cursor is removed, the line becomes `old[0 .. index-1) ++ old[index .. length)`,
`index` and `length` each drop by one, the key byte is echoed through
`printChr`, and the three calls of `_overwrite_terminal_line` follow exactly
when the new cursor is before the new end of the line. -/
theorem backspace_removes_previous (s : UcTermState) (c : Nat) (hwf : WF s) (hidle : Idle s)
    (hc : c = KEY_BACKSPACE ∨ c = KEY_DELETE) :
    (s.index = 0 → UcTerm_IngestChar s c = some s) ∧
    (0 < s.index → ∃ s', UcTerm_IngestChar s c = some s' ∧
      content s' = (content s).take (s.index - 1) ++ (content s).drop s.index ∧
      s'.index = s.index - 1 ∧ s'.length = s.length - 1 ∧
      (s'.index < s'.length → s'.out = s.out ++ Event.chr c :: redraw s'.buf s'.index) ∧
      (¬ (s'.index < s'.length) → s'.out = s.out ++ [Event.chr c])) := by
  obtain ⟨h1, h2, h3, h4, h5⟩ := (wf_iff s).1 hwf
  rw [ingest_idle_backspace s c hidle hc]
  constructor
  · intro h0
    simp [ingest_backspace, h0]
  · intro hpos
    refine ⟨_, ingest_backspace_eq s c hwf hpos, ?_, rfl, rfl, ?_, ?_⟩
    · simp only [content]
      rw [take_del_at s.buf (s.index - 1) s.length (by omega) (by omega)]
      have e : s.index - 1 + 1 = s.index := by omega
      rw [e]
    · intro hlt
      simp only at hlt ⊢
      rw [if_pos hlt]
    · intro hlt
      simp only at hlt ⊢
      rw [if_neg hlt]

theorem backspace_removes_previous_witness :
    WF (line_state [97, 98, 99] 2) ∧ Idle (line_state [97, 98, 99] 2) ∧
    ((8 : Nat) = KEY_BACKSPACE ∨ (8 : Nat) = KEY_DELETE) ∧
    ∃ s', UcTerm_IngestChar (line_state [97, 98, 99] 2) 8 = some s' ∧
      content s' = [97, 99] ∧ s'.index = 1 ∧ s'.length = 2 := by
  have hwf : WF (line_state [97, 98, 99] 2) := wf_line_state _ _ (by decide) (by decide)
  obtain ⟨s', hrun, hcont, hidx, hlen, _⟩ :=
    (backspace_removes_previous (line_state [97, 98, 99] 2) 8 hwf (idle_line_state _ _)
      (Or.inl rfl)).2 (by decide)
  refine ⟨hwf, idle_line_state _ _, Or.inl rfl, s', hrun, ?_, hidx, hlen⟩
  rw [hcont]
  decide

/-! ## Escape sequences -/

theorem ingest_all_append (a b : List Nat) :
    ∀ s, ingest_all s (a ++ b) = (ingest_all s a).bind fun s1 => ingest_all s1 b := by
  induction a with
  | nil => intro s; rfl
  | cons c a ih =>
    intro s
    simp only [List.cons_append, ingest_all]
    cases h : UcTerm_IngestChar s c with
    | none => rfl
    | some s1 => simp only [Option.some_bind]; exact ih s1

theorem ingest_esc_header (s : UcTermState) (he : 0 < s.esc_buf.length) :
    UcTerm_IngestChar s ESC_HEADER = some { s with esc_buf := s.esc_buf.set 0 ESC_HEADER } := by
  unfold UcTerm_IngestChar
  rw [if_pos rfl, store_eq s.esc_buf 0 ESC_HEADER he]
  rfl

theorem ingest_esc_seprtr (s : UcTermState) (h : load s.esc_buf 0 = some ESC_HEADER) :
    UcTerm_IngestChar s ESC_SEPRTR =
      some { s with esc_buf := s.esc_buf.set 0 ESC_SEPRTR, esc_index := 1 } := by
  have he : 0 < s.esc_buf.length := (List.getElem?_eq_some.1 h).1
  unfold UcTerm_IngestChar
  rw [if_neg (by decide), if_pos ⟨rfl, h⟩, store_eq s.esc_buf 0 ESC_SEPRTR he]
  rfl

theorem ingest_csi_open (s : UcTermState) (he : 0 < s.esc_buf.length) (cs : List Nat) :
    ingest_all s (27 :: 91 :: cs) = ingest_all (csi_open s) cs := by
  have h1 := ingest_esc_header s he
  have h2 : load (s.esc_buf.set 0 ESC_HEADER) 0 = some ESC_HEADER := by
    simp [load, he]
  have h3 := ingest_esc_seprtr { s with esc_buf := s.esc_buf.set 0 ESC_HEADER } h2
  simp only [ESC_HEADER, ESC_SEPRTR] at h1 h3
  simp only [ingest_all, h1, Option.some_bind, h3, csi_open, List.set_set, ESC_SEPRTR]

theorem collecting_csi_open (s : UcTermState) (he : 0 < s.esc_buf.length) :
    Collecting (csi_open s) := by
  simp [Collecting, csi_open, load, he]

theorem ingest_collecting (s : UcTermState) (c : Nat) (h : Collecting s)
    (h27 : c ≠ ESC_HEADER) (h91 : c ≠ ESC_SEPRTR) :
    UcTerm_IngestChar s c = ingest_escape s c := by
  unfold Collecting at h
  unfold UcTerm_IngestChar
  rw [if_neg (fun e => h27 e.symm), if_neg (fun e => h91 e.1.symm),
    if_neg (fun e => h91 e.symm)]
  simp only [Option.some_bind, h, if_true]

theorem ingest_escape_param (s : UcTermState) (p : Nat) (hk : s.esc_index < 4)
    (hlen : s.esc_buf.length = 4) (hp : ¬ (64 ≤ p ∧ 126 ≥ p)) :
    ingest_escape s p =
      some { s with esc_buf := s.esc_buf.set s.esc_index p, esc_index := s.esc_index + 1 } := by
  have hmod : (s.esc_index + 1) % 256 = s.esc_index + 1 := by omega
  unfold ingest_escape
  rw [if_neg (by simp only [MAX_ESC_LEN]; omega), store_eq s.esc_buf s.esc_index p (by omega)]
  simp only [Option.bind_eq_bind, Option.some_bind, hmod]
  rw [if_neg hp]

theorem ingest_escape_final (s : UcTermState) (t : Nat) (hk : s.esc_index < 4)
    (hlen : s.esc_buf.length = 4) (ht : 64 ≤ t ∧ 126 ≥ t) :
    ingest_escape s t =
      (esc_dispatch
        { s with esc_buf := s.esc_buf.set s.esc_index t, esc_index := s.esc_index + 1 } t).bind
        _reset_esc_buf := by
  have hmod : (s.esc_index + 1) % 256 = s.esc_index + 1 := by omega
  unfold ingest_escape
  rw [if_neg (by simp only [MAX_ESC_LEN]; omega), store_eq s.esc_buf s.esc_index t (by omega)]
  simp only [Option.bind_eq_bind, Option.some_bind, hmod]
  rw [if_pos ht]

theorem ingest_escape_overflow (s : UcTermState) (c : Nat) (hk : 4 ≤ s.esc_index)
    (he : 0 < s.esc_buf.length) :
    ingest_escape s c =
      some { s with
        esc_buf := s.esc_buf.set 0 0, esc_index := 0
        out := s.out ++ [Event.str OUT_UNKNOWN_STR] } := by
  unfold ingest_escape
  rw [if_pos (by simp only [MAX_ESC_LEN]; exact hk),
    reset_esc_buf_eq _ (by simp only [printStr]; exact he)]
  rfl

theorem idle_reset (e : List Nat) (he : 0 < e.length) : load (e.set 0 0) 0 = some 0 := by
  simp [load, he]

theorem ingest_csi_final (s : UcTermState) (hlen : s.esc_buf.length = 4) (t : Nat)
    (ht : 64 ≤ t ∧ 126 ≥ t) (h91 : t ≠ ESC_SEPRTR) :
    ingest_all s [27, 91, t] =
      (esc_dispatch
        { s with esc_buf := (s.esc_buf.set 0 ESC_SEPRTR).set 1 t, esc_index := 2 } t).bind
        _reset_esc_buf := by
  have h27 : t ≠ ESC_HEADER := by simp only [ESC_HEADER]; omega
  rw [ingest_csi_open s (by omega)]
  simp only [ingest_all]
  rw [ingest_collecting _ t (collecting_csi_open s (by omega)) h27 h91,
    ingest_escape_final _ t (by simp [csi_open]) (by simp [csi_open, hlen]) ht]
  simp [csi_open]

theorem ingest_csi_param_final (s : UcTermState) (hlen : s.esc_buf.length = 4) (p t : Nat)
    (hp : ¬ (64 ≤ p ∧ 126 ≥ p)) (hp27 : p ≠ ESC_HEADER)
    (ht : 64 ≤ t ∧ 126 ≥ t) (h91 : t ≠ ESC_SEPRTR) :
    ingest_all s [27, 91, p, t] =
      (esc_dispatch
        { s with
          esc_buf := ((s.esc_buf.set 0 ESC_SEPRTR).set 1 p).set 2 t, esc_index := 3 } t).bind
        _reset_esc_buf := by
  have h27 : t ≠ ESC_HEADER := by simp only [ESC_HEADER]; omega
  have hp91 : p ≠ ESC_SEPRTR := by
    intro e; apply hp; rw [e]; decide
  rw [ingest_csi_open s (by omega)]
  simp only [ingest_all]
  rw [ingest_collecting _ p (collecting_csi_open s (by omega)) hp27 hp91,
    ingest_escape_param _ p (by simp [csi_open]) (by simp [csi_open, hlen]) hp]
  simp only [Option.some_bind, csi_open]
  have hcoll : Collecting { s with
      esc_buf := (s.esc_buf.set 0 ESC_SEPRTR).set 1 p, esc_index := 1 + 1 } := by
    simp [Collecting, load, hlen]
  rw [ingest_collecting _ t hcoll h27 h91,
    ingest_escape_final _ t (by simp) (by simp [hlen]) ht]
  simp

/-- C17: the three bytes `ESC [ D` set the cursor to `max (index - 1) 0` and the
three bytes `ESC [ C` set it to `min (index + 1) length`, from any well-formed
state and so from an Idle one.  The buffer, the line and its length are as
before (no byte of the sequence is inserted), the escape state is Idle
afterwards, and the output is the single string of the arrow functions.  Any
number `k` of left-arrow sequences leaves the cursor at `index - k`, which is 0
once `k` reaches the cursor. -/
theorem csi_arrow_keys (s : UcTermState) (hwf : WF s) :
    (∃ s', ingest_all s [27, 91, 68] = some s' ∧
      s'.index = s.index - 1 ∧ s'.index = max (s.index - 1) 0 ∧
      s'.buf = s.buf ∧ s'.length = s.length ∧ content s' = content s ∧ Idle s' ∧
      s'.out = s.out ++ [Event.str (if 0 < s.index then OUT_L_ARROW else OUT_CHA_2)]) ∧
    (∃ s', ingest_all s [27, 91, 67] = some s' ∧
      s'.index = min (s.index + 1) s.length ∧
      s'.buf = s.buf ∧ s'.length = s.length ∧ content s' = content s ∧ Idle s' ∧
      s'.out = s.out ++ (if s.index < s.length then [Event.str OUT_R_ARROW] else [])) ∧
    (∀ k, ∃ s', ingest_all s (left_arrows k) = some s' ∧
      s'.index = s.index - k ∧ content s' = content s ∧ s'.length = s.length) := by
  have hleft : ∀ s : UcTermState, WF s →
      ∃ s', ingest_all s [27, 91, 68] = some s' ∧
        s'.index = s.index - 1 ∧ s'.buf = s.buf ∧ s'.length = s.length ∧ Idle s' ∧
        s'.esc_buf.length = 4 ∧
        s'.out = s.out ++ [Event.str (if 0 < s.index then OUT_L_ARROW else OUT_CHA_2)] := by
    intro s hwf
    obtain ⟨h1, h2, h3, h4, h5⟩ := (wf_iff s).1 hwf
    rw [ingest_csi_final s h2 68 (by decide) (by decide)]
    by_cases hpos : 0 < s.index
    · have e : (s.index + 255) % 256 = s.index - 1 := by omega
      simp only [esc_dispatch, if_true, _process_left_arrow, hpos, printStr, e,
        Option.some_bind]
      rw [reset_esc_buf_eq _ (by simp [h2])]
      exact ⟨_, rfl, rfl, rfl, rfl, idle_reset _ (by simp [h2]), by simp [h2], rfl⟩
    · have e0 : s.index = 0 := by omega
      simp only [esc_dispatch, if_true, _process_left_arrow, hpos, if_false, printStr,
        Option.some_bind]
      rw [reset_esc_buf_eq _ (by simp [h2])]
      exact ⟨_, rfl, by simp [e0], rfl, rfl, idle_reset _ (by simp [h2]), by simp [h2], rfl⟩
  refine ⟨?_, ?_, ?_⟩
  · obtain ⟨s', hrun, hi, hb, hl, hid, _, hout⟩ := hleft s hwf
    exact ⟨s', hrun, hi, by rw [hi]; simp, hb, hl, by simp [content, hb, hl], hid, hout⟩
  · obtain ⟨h1, h2, h3, h4, h5⟩ := (wf_iff s).1 hwf
    rw [ingest_csi_final s h2 67 (by decide) (by decide)]
    by_cases hlt : s.index < s.length
    · have e : (s.index + 1) % 256 = s.index + 1 := by omega
      simp only [esc_dispatch, if_true, _process_right_arrow, hlt, printStr, e,
        Option.some_bind, show ¬ (68 = 67) by decide, if_false]
      rw [reset_esc_buf_eq _ (by simp [h2])]
      refine ⟨_, rfl, ?_, rfl, rfl, rfl, idle_reset _ (by simp [h2]), rfl⟩
      simp only
      omega
    · simp only [esc_dispatch, if_true, _process_right_arrow, hlt, if_false,
        Option.some_bind, show ¬ (68 = 67) by decide]
      rw [reset_esc_buf_eq _ (by simp [h2])]
      refine ⟨_, rfl, ?_, rfl, rfl, rfl, idle_reset _ (by simp [h2]), by simp⟩
      simp only
      omega
  · intro k
    induction k generalizing s with
    | zero => exact ⟨s, rfl, rfl, rfl, rfl⟩
    | succ k ih =>
      obtain ⟨s1, hrun, hi, hb, hl, _, he, _⟩ := hleft s hwf
      obtain ⟨h1, h2, h3, h4, h5⟩ := (wf_iff s).1 hwf
      have hwf1 : WF s1 := (wf_iff s1).2 ⟨by rw [hb]; exact h1, he, by omega, by omega,
        by rw [hb]; exact h5⟩
      obtain ⟨s2, hrun2, hi2, hc2, hl2⟩ := ih s1 hwf1
      refine ⟨s2, ?_, ?_, ?_, ?_⟩
      · have := ingest_all_append [27, 91, 68] (left_arrows k) s
        simp only [List.cons_append, List.nil_append] at this
        simp only [left_arrows]
        rw [this, hrun]
        exact hrun2
      · rw [hi2, hi]; omega
      · rw [hc2]; simp [content, hb, hl]
      · rw [hl2, hl]

theorem csi_arrow_keys_witness :
    WF (line_state [97, 98, 99] 1) ∧
    ∃ s', ingest_all (line_state [97, 98, 99] 1) (left_arrows 4) = some s' ∧
      s'.index = 0 ∧ content s' = [97, 98, 99] ∧ s'.length = 3 := by
  have hwf : WF (line_state [97, 98, 99] 1) := wf_line_state _ _ (by decide) (by decide)
  obtain ⟨s', hrun, hi, hc, hl⟩ := (csi_arrow_keys (line_state [97, 98, 99] 1) hwf).2.2 4
  refine ⟨hwf, s', hrun, hi, ?_, hl⟩
  rw [hc]
  decide

theorem load_csi_param (e : List Nat) (hlen : e.length = 4) (p t : Nat) :
    load (((e.set 0 ESC_SEPRTR).set 1 p).set 2 t) 1 = some p := by
  simp [load, List.getElem?_set, hlen]

theorem wf_esc_fields (s : UcTermState) (hwf : WF s) (e : List Nat) (he : e.length = 4)
    (k : Nat) : WF { s with esc_buf := e, esc_index := k } := by
  obtain ⟨h1, _, h3, h4, h5⟩ := (wf_iff s).1 hwf
  exact (wf_iff _).2 ⟨h1, he, h3, h4, h5⟩

theorem ingest_keys_ctrl_a (s : UcTermState) :
    ingest_keys s CTRL_A = some (_process_home s) := by
  simp [ingest_keys, KEY_ENTER_CR, KEY_ENTER_LF, KEY_BACKSPACE, KEY_DELETE, CTRL_A]

theorem ingest_keys_ctrl_e (s : UcTermState) :
    ingest_keys s CTRL_E = some (_process_end s) := by
  simp [ingest_keys, KEY_ENTER_CR, KEY_ENTER_LF, KEY_BACKSPACE, KEY_DELETE, CTRL_A, CTRL_E]

/-- C14: in the Idle state `Ctrl+A` and the sequence `ESC [ 1 ~` both set the
cursor to 0, and `Ctrl+E` and the sequence `ESC [ 4 ~` both set it to `length`.
In all four cases the buffer, the line and its length are as before and the
output is the single string of `_get_move_command` for the new cursor, so a
hotkey and its sequence give the same cursor, line and output. -/
theorem home_end_keys (s : UcTermState) (hwf : WF s) (hidle : Idle s) :
    (∃ s', UcTerm_IngestChar s CTRL_A = some s' ∧ s'.index = 0 ∧
      s'.buf = s.buf ∧ s'.length = s.length ∧ content s' = content s ∧
      s'.out = s.out ++ [Event.str (_get_move_command 0)]) ∧
    (∃ s', ingest_all s [27, 91, 49, 126] = some s' ∧ s'.index = 0 ∧
      s'.buf = s.buf ∧ s'.length = s.length ∧ content s' = content s ∧
      s'.out = s.out ++ [Event.str (_get_move_command 0)]) ∧
    (∃ s', UcTerm_IngestChar s CTRL_E = some s' ∧ s'.index = s.length ∧
      s'.buf = s.buf ∧ s'.length = s.length ∧ content s' = content s ∧
      s'.out = s.out ++ [Event.str (_get_move_command s.length)]) ∧
    (∃ s', ingest_all s [27, 91, 52, 126] = some s' ∧ s'.index = s.length ∧
      s'.buf = s.buf ∧ s'.length = s.length ∧ content s' = content s ∧
      s'.out = s.out ++ [Event.str (_get_move_command s.length)]) := by
  obtain ⟨h1, h2, h3, h4, h5⟩ := (wf_iff s).1 hwf
  refine ⟨?_, ?_, ?_, ?_⟩
  · rw [ingest_idle s CTRL_A hidle (by decide) (by decide), ingest_keys_ctrl_a]
    exact ⟨_, rfl, rfl, rfl, rfl, rfl, rfl⟩
  · rw [ingest_csi_param_final s h2 49 126 (by decide) (by decide) (by decide) (by decide)]
    simp only [esc_dispatch, show ¬ (2 = 3) by decide, if_false, and_self, if_true,
      load_csi_param s.esc_buf h2, Option.bind_eq_bind, Option.some_bind]
    rw [reset_esc_buf_eq _ (by simp [_process_home, printStr, h2])]
    exact ⟨_, rfl, rfl, rfl, rfl, rfl, rfl⟩
  · rw [ingest_idle s CTRL_E hidle (by decide) (by decide), ingest_keys_ctrl_e]
    exact ⟨_, rfl, rfl, rfl, rfl, rfl, rfl⟩
  · rw [ingest_csi_param_final s h2 52 126 (by decide) (by decide) (by decide) (by decide)]
    simp only [esc_dispatch, show ¬ (2 = 3) by decide, if_false, and_self, if_true,
      load_csi_param s.esc_buf h2, Option.bind_eq_bind, Option.some_bind,
      show ¬ (49 = 52) by decide]
    rw [reset_esc_buf_eq _ (by simp [_process_end, printStr, h2])]
    exact ⟨_, rfl, rfl, rfl, rfl, rfl, rfl⟩

theorem home_end_keys_witness :
    WF (line_state [97, 98, 99] 1) ∧ Idle (line_state [97, 98, 99] 1) ∧
    ∃ s', ingest_all (line_state [97, 98, 99] 1) [27, 91, 52, 126] = some s' ∧
      s'.index = 3 ∧ s'.length = 3 ∧ s'.out = [Event.str [27, 91, 53, 71]] := by
  have hwf : WF (line_state [97, 98, 99] 1) := wf_line_state _ _ (by decide) (by decide)
  obtain ⟨s', hrun, hi, _, hl, _, hout⟩ :=
    (home_end_keys (line_state [97, 98, 99] 1) hwf (idle_line_state _ _)).2.2.2
  refine ⟨hwf, idle_line_state _ _, s', hrun, hi, hl, ?_⟩
  rw [hout]
  decide

/-- C11: the four bytes `ESC [ 3 ~` leave the cursor where it is, from any
well-formed state and so from an Idle one.  With `index < length` the byte at
the cursor is removed: the line becomes
`old[0 .. index) ++ old[index+1 .. length)`, `length` drops by one and the line
is redrawn.  With `index = length` the buffer, the line, its length and the
output are as before. -/
theorem csi_delete_at_cursor (s : UcTermState) (hwf : WF s) :
    ∃ s', ingest_all s [27, 91, 51, 126] = some s' ∧ s'.index = s.index ∧ Idle s' ∧
      (s.index < s.length →
        content s' = (content s).take s.index ++ (content s).drop (s.index + 1) ∧
        s'.length = s.length - 1 ∧ s'.out = s.out ++ redraw s'.buf s'.index) ∧
      (s.index = s.length →
        content s' = content s ∧ s'.length = s.length ∧ s'.buf = s.buf ∧
        s'.out = s.out) := by
  obtain ⟨h1, h2, h3, h4, h5⟩ := (wf_iff s).1 hwf
  rw [ingest_csi_param_final s h2 51 126 (by decide) (by decide) (by decide) (by decide)]
  simp only [esc_dispatch, show ¬ (2 = 3) by decide, if_false, and_self, if_true,
    load_csi_param s.esc_buf h2, Option.bind_eq_bind, Option.some_bind,
    show ¬ (49 = 51) by decide, show ¬ (52 = 51) by decide]
  by_cases hlt : s.index < s.length
  · rw [process_delete_eq _ (wf_esc_fields s hwf _ (by simp [h2]) 3) hlt]
    simp only [Option.some_bind]
    rw [reset_esc_buf_eq _ (by simp [h2])]
    refine ⟨_, rfl, rfl, idle_reset _ (by simp [h2]), ?_, ?_⟩
    · intro _
      refine ⟨?_, rfl, rfl⟩
      simp only [content]
      exact take_del_at s.buf s.index s.length hlt (by omega)
    · intro he
      omega
  · have hnd : _process_delete { s with
        esc_buf := ((s.esc_buf.set 0 ESC_SEPRTR).set 1 51).set 2 126, esc_index := 3 } =
        some { s with
          esc_buf := ((s.esc_buf.set 0 ESC_SEPRTR).set 1 51).set 2 126, esc_index := 3 } := by
      simp [_process_delete, hlt]
    rw [hnd]
    simp only [Option.some_bind]
    rw [reset_esc_buf_eq _ (by simp [h2])]
    refine ⟨_, rfl, rfl, idle_reset _ (by simp [h2]), ?_, ?_⟩
    · intro h; exact absurd h hlt
    · intro _
      exact ⟨rfl, rfl, rfl, rfl⟩

theorem csi_delete_at_cursor_witness :
    WF (line_state [97, 98, 99, 100] 2) ∧
    ∃ s', ingest_all (line_state [97, 98, 99, 100] 2) [27, 91, 51, 126] = some s' ∧
      s'.index = 2 ∧ content s' = [97, 98, 100] ∧ s'.length = 3 := by
  have hwf : WF (line_state [97, 98, 99, 100] 2) := wf_line_state _ _ (by decide) (by decide)
  obtain ⟨s', hrun, hi, _, hdel, _⟩ := csi_delete_at_cursor (line_state [97, 98, 99, 100] 2) hwf
  obtain ⟨hc, hl, _⟩ := hdel (by decide)
  refine ⟨hwf, s', hrun, hi, ?_, hl⟩
  rw [hc]
  decide

/-! ## Kill keys -/

theorem ingest_keys_ctrl_u (s : UcTermState) : ingest_keys s CTRL_U = ingest_ctrl_u s := by
  simp [ingest_keys, KEY_ENTER_CR, KEY_ENTER_LF, KEY_BACKSPACE, KEY_DELETE, CTRL_A, CTRL_E,
    Ctrl_B, Ctrl_F, CTRL_U]

theorem ingest_keys_ctrl_k (s : UcTermState) : ingest_keys s CTRL_K = ingest_ctrl_k s := by
  simp [ingest_keys, KEY_ENTER_CR, KEY_ENTER_LF, KEY_BACKSPACE, KEY_DELETE, CTRL_A, CTRL_E,
    Ctrl_B, Ctrl_F, CTRL_U, CTRL_K]

theorem take_moved_front (m : List Nat) (i l : Nat) (hi : i ≤ l) (hl : l < m.length) :
    (moved m 0 i (l - i + 1)).take (l - i) = (m.take l).drop i := by
  apply List.ext_getElem?
  intro j
  rw [List.getElem?_take, getElem?_moved m 0 i (l - i + 1) j (by omega) (by omega),
    List.getElem?_drop, List.getElem?_take]
  by_cases c1 : j < l - i
  · have e1 : j < l - i + 1 := by omega
    have e2 : i + j < l := by omega
    simp [c1, e1, e2]
  · have e2 : ¬ (i + j < l) := by omega
    simp [c1, e2]

theorem take_set_self (l : List Nat) (n a : Nat) : (l.set n a).take n = l.take n := by
  apply List.ext_getElem?
  intro j
  rw [List.getElem?_take, List.getElem?_take, List.getElem?_set]
  by_cases c1 : j < n
  · have e : ¬ (n = j) := by omega
    simp [c1, e]
  · simp [c1]

/-- C12: in the Idle state `Ctrl+U` with `index = 0` leaves the state as it is
and emits nothing; with `index > 0` the line becomes `old[index .. length)`,
`length` becomes `length - index` and `index` becomes 0, and the output is the
home command followed by the redraw of the line. -/
theorem kill_to_start (s : UcTermState) (hwf : WF s) (hidle : Idle s) :
    (s.index = 0 → UcTerm_IngestChar s CTRL_U = some s) ∧
    (0 < s.index → ∃ s', UcTerm_IngestChar s CTRL_U = some s' ∧
      content s' = (content s).drop s.index ∧
      s'.length = s.length - s.index ∧ s'.index = 0 ∧
      s'.out = s.out ++ Event.str (_get_move_command 0) :: redraw s'.buf 0) := by
  obtain ⟨h1, h2, h3, h4, h5⟩ := (wf_iff s).1 hwf
  rw [ingest_idle s CTRL_U hidle (by decide) (by decide), ingest_keys_ctrl_u]
  constructor
  · intro h0
    simp [ingest_ctrl_u, h0]
  · intro hpos
    refine ⟨_, ingest_ctrl_u_eq s hwf hpos, ?_, rfl, rfl, rfl⟩
    simp only [content]
    exact take_moved_front s.buf s.index s.length h3 (by omega)

theorem kill_to_start_witness :
    WF (line_state [97, 98, 99, 100] 2) ∧ Idle (line_state [97, 98, 99, 100] 2) ∧
    ∃ s', UcTerm_IngestChar (line_state [97, 98, 99, 100] 2) CTRL_U = some s' ∧
      content s' = [99, 100] ∧ s'.length = 2 ∧ s'.index = 0 := by
  have hwf : WF (line_state [97, 98, 99, 100] 2) := wf_line_state _ _ (by decide) (by decide)
  obtain ⟨s', hrun, hc, hl, hi, _⟩ :=
    (kill_to_start (line_state [97, 98, 99, 100] 2) hwf (idle_line_state _ _)).2 (by decide)
  refine ⟨hwf, idle_line_state _ _, s', hrun, ?_, hl, hi⟩
  rw [hc]
  decide

/-- C13: in the Idle state `Ctrl+K` with `index = length` leaves the state as
it is and emits nothing; with `index < length` the line becomes
`old[0 .. index)`, `length` becomes `index`, the cursor stays and the line is
redrawn.  When the cursor was 0 the line is then empty, and a submit key that
follows emits the prompt only: `exec` is not invoked. -/
theorem kill_to_end (s : UcTermState) (hwf : WF s) (hidle : Idle s) :
    (s.index = s.length → UcTerm_IngestChar s CTRL_K = some s) ∧
    (s.index < s.length → ∃ s', UcTerm_IngestChar s CTRL_K = some s' ∧
      content s' = (content s).take s.index ∧
      s'.length = s.index ∧ s'.index = s.index ∧
      s'.out = s.out ++ redraw s'.buf s'.index ∧
      (s.index = 0 → content s' = [] ∧
        ∀ c, c = KEY_ENTER_LF ∨ c = KEY_ENTER_CR →
          ∃ s'', UcTerm_IngestChar s' c = some s'' ∧
            s''.out = s'.out ++ [Event.str OUT_PROMPT_STR])) := by
  obtain ⟨h1, h2, h3, h4, h5⟩ := (wf_iff s).1 hwf
  rw [ingest_idle s CTRL_K hidle (by decide) (by decide), ingest_keys_ctrl_k]
  constructor
  · intro he
    have hlt : ¬ (s.index < s.length) := by omega
    simp [ingest_ctrl_k, hlt]
  · intro hlt
    refine ⟨_, ingest_ctrl_k_eq s hwf hlt, ?_, rfl, rfl, rfl, ?_⟩
    · simp only [content]
      rw [take_set_self, List.take_take]
      congr 1
      omega
    · intro h0
      refine ⟨by simp [content, h0], ?_⟩
      intro c hc
      have hidle' : Idle { s with
          buf := s.buf.set s.index 0
          length := s.index
          out := s.out ++ redraw (s.buf.set s.index 0) s.index } := hidle
      rw [ingest_idle_enter _ c hidle' hc, ingest_enter_empty _ h0]
      exact ⟨_, rfl, rfl⟩

theorem kill_to_end_witness :
    WF (line_state [97, 98, 99] 0) ∧ Idle (line_state [97, 98, 99] 0) ∧
    ∃ s', UcTerm_IngestChar (line_state [97, 98, 99] 0) CTRL_K = some s' ∧
      content s' = [] ∧ s'.length = 0 ∧ s'.index = 0 := by
  have hwf : WF (line_state [97, 98, 99] 0) := wf_line_state _ _ (by decide) (by decide)
  obtain ⟨s', hrun, hc, hl, hi, _⟩ :=
    (kill_to_end (line_state [97, 98, 99] 0) hwf (idle_line_state _ _)).2 (by decide)
  refine ⟨hwf, idle_line_state _ _, s', hrun, ?_, hl, hi⟩
  rw [hc]
  decide

/-! ## Arrow hotkeys -/

theorem ingest_keys_ctrl_b (s : UcTermState) :
    ingest_keys s Ctrl_B = ingest_printable (_process_left_arrow s) Ctrl_B := by
  simp [ingest_keys, KEY_ENTER_CR, KEY_ENTER_LF, KEY_BACKSPACE, KEY_DELETE, CTRL_A, CTRL_E,
    Ctrl_B, Ctrl_F, CTRL_U, CTRL_K]

theorem ingest_keys_ctrl_f (s : UcTermState) :
    ingest_keys s Ctrl_F = ingest_printable (_process_right_arrow s) Ctrl_F := by
  simp [ingest_keys, KEY_ENTER_CR, KEY_ENTER_LF, KEY_BACKSPACE, KEY_DELETE, CTRL_A, CTRL_E,
    Ctrl_B, Ctrl_F, CTRL_U, CTRL_K]

/-- C15: in the Idle state the byte `0x02` sets the cursor to
`max (index - 1) 0` and leaves the buffer, the line and its length as they
are; the output is the string `ESC [ D` when the cursor moved and the string
`ESC [ 2 G` when it was 0 already. -/
theorem ctrl_b_moves_left (s : UcTermState) (hwf : WF s) (hidle : Idle s) :
    ∃ s', UcTerm_IngestChar s Ctrl_B = some s' ∧
      s'.index = max (s.index - 1) 0 ∧ s'.buf = s.buf ∧ s'.length = s.length ∧
      content s' = content s ∧
      (0 < s.index → s'.out = s.out ++ [Event.str OUT_L_ARROW]) ∧
      (s.index = 0 → s'.out = s.out ++ [Event.str OUT_CHA_2]) ∧
      OUT_L_ARROW = [27, 91, 68] ∧ OUT_CHA_2 = [27, 91, 50, 71] := by
  obtain ⟨h1, h2, h3, h4, h5⟩ := (wf_iff s).1 hwf
  rw [ingest_idle s Ctrl_B hidle (by decide) (by decide), ingest_keys_ctrl_b]
  by_cases hpos : 0 < s.index
  · have e : (s.index + 255) % 256 = s.index - 1 := by omega
    have hla : _process_left_arrow s =
        { s with index := s.index - 1, out := s.out ++ [Event.str OUT_L_ARROW] } := by
      simp [_process_left_arrow, hpos, printStr, e]
    rw [hla, ingest_printable_other _ Ctrl_B (by simp only [MAX_STR_LEN]; omega) (by decide)]
    refine ⟨_, rfl, by simp, rfl, rfl, rfl, fun _ => rfl, fun h => by omega, rfl, rfl⟩
  · have h0 : s.index = 0 := by omega
    have hla : _process_left_arrow s = { s with out := s.out ++ [Event.str OUT_CHA_2] } := by
      simp [_process_left_arrow, hpos, printStr]
    rw [hla, ingest_printable_other _ Ctrl_B (by simp only [MAX_STR_LEN]; omega) (by decide)]
    refine ⟨_, rfl, by simp [h0], rfl, rfl, rfl, fun h => by omega, fun _ => rfl, rfl, rfl⟩

theorem ctrl_b_moves_left_witness :
    WF (line_state [97, 98, 99] 2) ∧ Idle (line_state [97, 98, 99] 2) ∧
    ∃ s', UcTerm_IngestChar (line_state [97, 98, 99] 2) Ctrl_B = some s' ∧
      s'.index = 1 ∧ s'.length = 3 ∧ s'.out = [Event.str [27, 91, 68]] := by
  have hwf : WF (line_state [97, 98, 99] 2) := wf_line_state _ _ (by decide) (by decide)
  obtain ⟨s', hrun, hi, _, hl, _, hout, _⟩ :=
    ctrl_b_moves_left (line_state [97, 98, 99] 2) hwf (idle_line_state _ _)
  refine ⟨hwf, idle_line_state _ _, s', hrun, hi, hl, ?_⟩
  rw [hout (by decide)]
  rfl

theorem ctrl_f_below_guard (s : UcTermState) (hwf : WF s) (hidle : Idle s)
    (hg : min (s.index + 1) s.length ≤ 118) :
    ∃ s', UcTerm_IngestChar s Ctrl_F = some s' ∧
      s'.index = min (s.index + 1) s.length ∧ s'.buf = s.buf ∧ s'.length = s.length ∧
      s'.out = s.out ++ (if s.index < s.length then [Event.str OUT_R_ARROW] else []) := by
  obtain ⟨h1, h2, h3, h4, h5⟩ := (wf_iff s).1 hwf
  rw [ingest_idle s Ctrl_F hidle (by decide) (by decide), ingest_keys_ctrl_f]
  by_cases hlt : s.index < s.length
  · have e : (s.index + 1) % 256 = s.index + 1 := by omega
    have hra : _process_right_arrow s =
        { s with index := s.index + 1, out := s.out ++ [Event.str OUT_R_ARROW] } := by
      simp [_process_right_arrow, hlt, printStr, e]
    have hm : min (s.index + 1) s.length = s.index + 1 := by omega
    rw [hra, ingest_printable_other _ Ctrl_F (by simp only [MAX_STR_LEN]; omega) (by decide)]
    exact ⟨_, rfl, hm.symm, rfl, rfl, by simp [hlt]⟩
  · have hra : _process_right_arrow s = s := by simp [_process_right_arrow, hlt]
    have hm : min (s.index + 1) s.length = s.index := by omega
    rw [hra, ingest_printable_other _ Ctrl_F (by simp only [MAX_STR_LEN]; omega) (by decide)]
    exact ⟨_, rfl, hm.symm, rfl, rfl, by simp [hlt]⟩

theorem ctrl_f_at_guard (s : UcTermState) (hwf : WF s) (hidle : Idle s)
    (hg : 118 < min (s.index + 1) s.length) :
    ∃ s', UcTerm_IngestChar s Ctrl_F = some s' ∧ s'.index = 0 ∧ s'.length = 0 ∧
      s'.out = s.out ++ (if s.index < s.length then [Event.str OUT_R_ARROW] else []) ++
        [Event.str OUT_UNKNOWN_STR] := by
  obtain ⟨h1, h2, h3, h4, h5⟩ := (wf_iff s).1 hwf
  rw [ingest_idle s Ctrl_F hidle (by decide) (by decide), ingest_keys_ctrl_f]
  have hwf1 := wf_process_right_arrow s hwf
  by_cases hlt : s.index < s.length
  · have e : (s.index + 1) % 256 = s.index + 1 := by omega
    have hra : _process_right_arrow s =
        { s with index := s.index + 1, out := s.out ++ [Event.str OUT_R_ARROW] } := by
      simp [_process_right_arrow, hlt, printStr, e]
    rw [hra] at hwf1 ⊢
    rw [ingest_printable_guard _ Ctrl_F hwf1 (by simp only [MAX_STR_LEN]; omega)]
    exact ⟨_, rfl, rfl, rfl, by simp [hlt]⟩
  · have hra : _process_right_arrow s = s := by simp [_process_right_arrow, hlt]
    rw [hra, ingest_printable_guard _ Ctrl_F hwf (by simp only [MAX_STR_LEN]; omega)]
    exact ⟨_, rfl, rfl, rfl, by simp [hlt]⟩

/-- C16, the defect: after 119 printable bytes ingested into a fresh session
the line and the cursor are at 119; the byte `0x06` then empties the line
(`length = 0`, `index = 0`) and emits the string `OUT_UNKNOWN_STR`, where the
claim keeps the line and the cursor and emits nothing.  With the cursor moved
back by one `0x02` first, `0x06` emits `ESC [ C` and then does the same. -/
theorem ctrl_f_resets_full_line :
    (ingest_all UcTerm_Init (List.replicate 119 97)).map
        (fun s => (s.index, s.length, s.out.drop 119)) = some (119, 119, []) ∧
    (ingest_all UcTerm_Init (List.replicate 119 97 ++ [6])).map
        (fun s => (s.index, s.length, s.out.drop 119)) =
      some (0, 0, [Event.str OUT_UNKNOWN_STR]) ∧
    (ingest_all UcTerm_Init (List.replicate 119 97 ++ [2, 6])).map
        (fun s => (s.index, s.length, s.out.drop 119)) =
      some (0, 0, [Event.str OUT_L_ARROW, Event.str OUT_R_ARROW,
        Event.str OUT_UNKNOWN_STR]) := by
  decide!

/-! ## Insert then backspace -/

theorem printable_step (s : UcTermState) (c : Nat) (hwf : WF s) (hidle : Idle s)
    (hl : s.length ≤ 118) (hc : 32 ≤ c ∧ 126 ≥ c) :
    ∃ s1, UcTerm_IngestChar s c = some s1 ∧ WF s1 ∧ Idle s1 ∧
      content s1 = (content s).take s.index ++ c :: (content s).drop s.index ∧
      s1.index = s.index + 1 ∧ s1.length = s.length + 1 := by
  obtain ⟨h1, h2, h3, h4, h5⟩ := (wf_iff s).1 hwf
  have hwf0 : WF { s with esc_index := if c = ESC_SEPRTR then 0 else s.esc_index } :=
    (wf_iff _).2 ⟨h1, h2, h3, h4, h5⟩
  obtain ⟨s1, hs1, hwf1⟩ := wf_ingest s c hwf
  by_cases hlt : s.index < s.length
  · have hstep := ingest_printable_insert _ c hwf0 hc hlt (by simp only [MAX_STR_LEN]; omega)
    rw [← ingest_idle_printable s c hidle hc, hs1] at hstep
    simp only [Option.some.injEq] at hstep
    subst hstep
    refine ⟨_, hs1, hwf1, hidle, ?_, rfl, rfl⟩
    simp only [content]
    exact take_set_ins_at s.buf s.index s.length c h3 (by omega)
  · have he : s.index = s.length := by omega
    have hstep := ingest_printable_append _ c hwf0 (by simp only [MAX_STR_LEN]; omega) hc he
    rw [← ingest_idle_printable s c hidle hc, hs1] at hstep
    simp only [Option.some.injEq] at hstep
    subst hstep
    refine ⟨_, hs1, hwf1, hidle, ?_, rfl, rfl⟩
    have hlen : (s.buf.take s.length).length = s.length := by
      rw [List.length_take]; omega
    have t1 : (s.buf.take s.length).take s.length = s.buf.take s.length := by
      rw [List.take_take, Nat.min_self]
    have t2 : (s.buf.take s.length).drop s.length = [] :=
      List.drop_of_length_le (by omega)
    simp only [content, he]
    rw [take_set_succ s.buf s.length c (by omega), t1, t2]

/-- C18: in the Idle state with `length ≤ 118`, a byte `c` in `0x20 .. 0x7E`
followed by either backspace key (`0x08` or `0x7F`) gives back the line
`buf[0 .. length)`, the cursor and the length that were there before `c`. -/
theorem insert_then_backspace (s : UcTermState) (c bs : Nat) (hwf : WF s) (hidle : Idle s)
    (hl : s.length ≤ 118) (hc : 32 ≤ c ∧ 126 ≥ c)
    (hbs : bs = KEY_BACKSPACE ∨ bs = KEY_DELETE) :
    ∃ s', ingest_all s [c, bs] = some s' ∧
      content s' = content s ∧ s'.index = s.index ∧ s'.length = s.length := by
  obtain ⟨h1, h2, h3, h4, h5⟩ := (wf_iff s).1 hwf
  obtain ⟨s1, hs1, hwf1, hidle1, hc1, hi1, hl1⟩ := printable_step s c hwf hidle hl hc
  obtain ⟨g1, g2, g3, g4, g5⟩ := (wf_iff s1).1 hwf1
  have hback := ingest_backspace_eq s1 bs hwf1 (by omega)
  rw [← ingest_idle_backspace s1 bs hidle1 hbs] at hback
  have hrun : ingest_all s [c, bs] = UcTerm_IngestChar s1 bs := by
    simp [ingest_all, hs1]
  rw [hrun, hback]
  refine ⟨_, rfl, ?_, ?_, ?_⟩
  · have hlenc : (content s).length = s.length := by
      simp only [content, List.length_take]; omega
    have hA : ((content s).take s.index).length = s.index := by
      rw [List.length_take]; omega
    have e1 : s1.index - 1 = s.index := by omega
    have e2 : s1.length - 1 = s.length := by omega
    have hcont : content { s1 with
        buf := del_at s1.buf (s1.index - 1) s1.length
        length := s1.length - 1
        index := s1.index - 1
        out := s1.out ++ Event.chr bs ::
          (if s1.index - 1 < s1.length - 1
            then redraw (del_at s1.buf (s1.index - 1) s1.length) (s1.index - 1) else []) } =
        (content s1).take (s1.index - 1) ++ (content s1).drop (s1.index - 1 + 1) := by
      simp only [content]
      exact take_del_at s1.buf (s1.index - 1) s1.length (by omega) (by omega)
    rw [hcont, hc1, e1, List.take_left' hA]
    have hd : List.drop (s.index + 1) (List.take s.index (content s) ++
        c :: List.drop s.index (content s)) = List.drop s.index (content s) := by
      rw [List.drop_append_eq_append_drop, List.drop_of_length_le (by omega), hA]
      simp
    rw [hd, List.take_append_drop]
  · simp only; omega
  · simp only; omega

theorem insert_then_backspace_witness :
    WF (line_state [97, 98, 99] 3) ∧ Idle (line_state [97, 98, 99] 3) ∧
    (line_state [97, 98, 99] 3).length ≤ 118 ∧ (32 ≤ 100 ∧ 126 ≥ 100) ∧
    ((8 : Nat) = KEY_BACKSPACE ∨ (8 : Nat) = KEY_DELETE) ∧
    ∃ s', ingest_all (line_state [97, 98, 99] 3) [100, 8] = some s' ∧
      content s' = [97, 98, 99] ∧ s'.index = 3 ∧ s'.length = 3 := by
  have hwf : WF (line_state [97, 98, 99] 3) := wf_line_state _ _ (by decide) (by decide)
  obtain ⟨s', hrun, hcont, hi, hl⟩ :=
    insert_then_backspace (line_state [97, 98, 99] 3) 100 8 hwf (idle_line_state _ _)
      (by decide) (by decide) (Or.inl rfl)
  refine ⟨hwf, idle_line_state _ _, by decide, by decide, Or.inl rfl, s', hrun, ?_, hi, hl⟩
  rw [hcont]
  decide

/-! ## Overlong sequences and the full buffer -/

theorem collecting_param (s : UcTermState) (p : Nat) (h : Collecting s)
    (hk : 1 ≤ s.esc_index) :
    Collecting { s with esc_buf := s.esc_buf.set s.esc_index p, esc_index := s.esc_index + 1 } := by
  unfold Collecting load at h ⊢
  simp only
  rw [List.getElem?_set_ne (by omega)]
  exact h

theorem ingest_param (s : UcTermState) (p : Nat) (h : Collecting s)
    (hk : 1 ≤ s.esc_index ∧ s.esc_index < 4) (hlen : s.esc_buf.length = 4)
    (hp27 : p ≠ ESC_HEADER) (hp : ¬ (64 ≤ p ∧ 126 ≥ p)) :
    UcTerm_IngestChar s p =
      some { s with esc_buf := s.esc_buf.set s.esc_index p, esc_index := s.esc_index + 1 } := by
  have hp91 : p ≠ ESC_SEPRTR := by
    intro e; apply hp; rw [e]; decide
  rw [ingest_collecting s p h hp27 hp91, ingest_escape_param s p hk.2 hlen hp]

/-- C19: from any well-formed state, and so from an Idle one, the bytes
`ESC [ b1 b2 b3 b4`, with `b1`, `b2`, `b3` other than `ESC` and outside
`0x40 .. 0x7E` and `b4` other than `ESC` and `[`, leave the buffer, the line,
the cursor and the length as they were and end in the Idle state.  Nothing is
emitted up to `b3`; on `b4` the string `OUT_UNKNOWN_STR` is emitted, once. -/
theorem escape_overflow (s : UcTermState) (b1 b2 b3 b4 : Nat) (hwf : WF s)
    (hb1 : b1 ≠ ESC_HEADER ∧ ¬ (64 ≤ b1 ∧ 126 ≥ b1))
    (hb2 : b2 ≠ ESC_HEADER ∧ ¬ (64 ≤ b2 ∧ 126 ≥ b2))
    (hb3 : b3 ≠ ESC_HEADER ∧ ¬ (64 ≤ b3 ∧ 126 ≥ b3))
    (hb4 : b4 ≠ ESC_HEADER ∧ b4 ≠ ESC_SEPRTR) :
    (∃ s3, ingest_all s [27, 91, b1, b2, b3] = some s3 ∧ s3.out = s.out) ∧
    ∃ s', ingest_all s [27, 91, b1, b2, b3, b4] = some s' ∧
      s'.buf = s.buf ∧ content s' = content s ∧ s'.index = s.index ∧
      s'.length = s.length ∧ Idle s' ∧
      s'.out = s.out ++ [Event.str OUT_UNKNOWN_STR] := by
  obtain ⟨h1, h2, h3, h4, h5⟩ := (wf_iff s).1 hwf
  have c0 : Collecting (csi_open s) := collecting_csi_open s (by omega)
  have l0 : (csi_open s).esc_buf.length = 4 := by simp [csi_open, h2]
  have k0 : (csi_open s).esc_index = 1 := rfl
  have st1 := ingest_param (csi_open s) b1 c0 (by omega) l0 hb1.1 hb1.2
  have c1 := collecting_param (csi_open s) b1 c0 (by omega)
  rw [k0] at st1 c1
  have st2 := ingest_param _ b2 c1 (by simp) (by simp [l0]) hb2.1 hb2.2
  have c2 := collecting_param _ b2 c1 (by simp)
  simp only at st2 c2
  have st3 := ingest_param _ b3 c2 (by simp) (by simp [l0]) hb3.1 hb3.2
  have c3 := collecting_param _ b3 c2 (by simp)
  simp only at st3 c3
  have st4 := ingest_collecting _ b4 c3 hb4.1 hb4.2
  rw [ingest_escape_overflow _ b4 (by simp) (by simp [l0])] at st4
  constructor
  · rw [ingest_csi_open s (by omega)]
    simp only [ingest_all, st1, Option.some_bind, st2, st3]
    exact ⟨_, rfl, rfl⟩
  · rw [ingest_csi_open s (by omega)]
    simp only [ingest_all, st1, Option.some_bind, st2, st3, st4]
    exact ⟨_, rfl, rfl, rfl, rfl, rfl, idle_reset _ (by simp [l0]), rfl⟩

theorem escape_overflow_witness :
    WF (line_state [97, 98, 99] 1) ∧
    ((48 : Nat) ≠ ESC_HEADER ∧ ¬ (64 ≤ 48 ∧ 126 ≥ 48)) ∧
    ((49 : Nat) ≠ ESC_HEADER ∧ ¬ (64 ≤ 49 ∧ 126 ≥ 49)) ∧
    ((50 : Nat) ≠ ESC_HEADER ∧ ¬ (64 ≤ 50 ∧ 126 ≥ 50)) ∧
    ((68 : Nat) ≠ ESC_HEADER ∧ (68 : Nat) ≠ ESC_SEPRTR) ∧
    ∃ s', ingest_all (line_state [97, 98, 99] 1) [27, 91, 48, 49, 50, 68] = some s' ∧
      content s' = [97, 98, 99] ∧ s'.index = 1 ∧ s'.length = 3 ∧
      s'.out = [Event.str OUT_UNKNOWN_STR] := by
  have hwf : WF (line_state [97, 98, 99] 1) := wf_line_state _ _ (by decide) (by decide)
  obtain ⟨s', hrun, _, hc, hi, hl, _, hout⟩ :=
    (escape_overflow (line_state [97, 98, 99] 1) 48 49 50 68 hwf (by decide) (by decide)
      (by decide) (by decide)).2
  refine ⟨hwf, by decide, by decide, by decide, by decide, s', hrun, ?_, hi, hl, ?_⟩
  · rw [hc]; decide
  · rw [hout]; rfl

/-- C20: in the Idle state with the cursor above `MAX_STR_LEN - 2`, that is at
119, a byte in `0x20 .. 0x7E` is dropped: the call returns, the string
`OUT_UNKNOWN_STR` is the only output (no echo), and the line is reset to
`length = 0` and `index = 0`; the buffer is written at position 0 only, with
the terminator. -/
theorem buffer_full_guard (s : UcTermState) (c : Nat) (hwf : WF s) (hidle : Idle s)
    (hi : MAX_STR_LEN - 2 < s.index) (hc : 32 ≤ c ∧ 126 ≥ c) :
    s.index = 119 ∧
    ∃ s', UcTerm_IngestChar s c = some s' ∧
      s'.length = 0 ∧ s'.index = 0 ∧ content s' = [] ∧
      s'.buf = s.buf.set 0 0 ∧ Idle s' ∧
      s'.out = s.out ++ [Event.str OUT_UNKNOWN_STR] := by
  obtain ⟨h1, h2, h3, h4, h5⟩ := (wf_iff s).1 hwf
  have hwf0 : WF { s with esc_index := if c = ESC_SEPRTR then 0 else s.esc_index } :=
    (wf_iff _).2 ⟨h1, h2, h3, h4, h5⟩
  have hi' : 118 < s.index := by simpa [MAX_STR_LEN] using hi
  refine ⟨by omega, ?_⟩
  rw [ingest_idle_printable s c hidle hc, ingest_printable_guard _ c hwf0 hi]
  exact ⟨_, rfl, rfl, rfl, rfl, rfl, idle_reset s.esc_buf (by omega), rfl⟩

theorem buffer_full_guard_witness :
    WF (line_state (List.replicate 119 97) 119) ∧
    Idle (line_state (List.replicate 119 97) 119) ∧
    MAX_STR_LEN - 2 < (line_state (List.replicate 119 97) 119).index ∧
    (32 ≤ 98 ∧ 126 ≥ 98) ∧
    ∃ s', UcTerm_IngestChar (line_state (List.replicate 119 97) 119) 98 = some s' ∧
      s'.length = 0 ∧ s'.index = 0 ∧ content s' = [] := by
  have hwf : WF (line_state (List.replicate 119 97) 119) :=
    wf_line_state _ _ (by simp) (by simp)
  obtain ⟨_, s', hrun, hl, hi, hc, _⟩ :=
    buffer_full_guard (line_state (List.replicate 119 97) 119) 98 hwf (idle_line_state _ _)
      (by decide) (by decide)
  exact ⟨hwf, idle_line_state _ _, by decide, by decide, s', hrun, hl, hi, hc⟩

/-! ## Bytes without a handler -/

theorem ingest_keys_unhandled (s : UcTermState) (c : Nat)
    (hk : c ≠ 10 ∧ c ≠ 13 ∧ c ≠ 8 ∧ c ≠ 127 ∧ c ≠ 1 ∧ c ≠ 2 ∧ c ≠ 5 ∧ c ≠ 6 ∧ c ≠ 11 ∧
      c ≠ 21) :
    ingest_keys s c = ingest_printable s c := by
  have k1 : ¬ (13 = c ∨ 10 = c) := by omega
  have k2 : ¬ (8 = c ∨ 127 = c) := by omega
  have k3 : ¬ (1 = c) ∧ ¬ (5 = c) := by omega
  have k4 : ¬ (2 = c) ∧ ¬ (6 = c) := by omega
  have k5 : ¬ (21 = c) ∧ ¬ (11 = c) := by omega
  simp only [ingest_keys, KEY_ENTER_CR, KEY_ENTER_LF, KEY_BACKSPACE, KEY_DELETE, CTRL_A, CTRL_E,
    Ctrl_B, Ctrl_F, CTRL_U, CTRL_K, k1, k2, k3.1, k3.2, k4.1, k4.2, k5.1, k5.2, if_false]

theorem unhandled_byte_ignored (s : UcTermState) (c : Nat) (hidle : Idle s)
    (hc : 128 ≤ c ∨ c < 32) (h27 : c ≠ 27)
    (hk : c ≠ 10 ∧ c ≠ 13 ∧ c ≠ 8 ∧ c ≠ 127 ∧ c ≠ 1 ∧ c ≠ 2 ∧ c ≠ 5 ∧ c ≠ 6 ∧ c ≠ 11 ∧
      c ≠ 21)
    (hi : s.index ≤ 118) :
    UcTerm_IngestChar s c = some s := by
  have h91 : c ≠ ESC_SEPRTR := by simp only [ESC_SEPRTR]; omega
  rw [ingest_idle s c hidle h27 h91, ingest_keys_unhandled s c hk]
  exact ingest_printable_other s c (by simp only [MAX_STR_LEN]; omega) (by omega)

theorem unhandled_byte_at_guard (s : UcTermState) (c : Nat) (hwf : WF s) (hidle : Idle s)
    (hc : 128 ≤ c ∨ c < 32) (h27 : c ≠ 27)
    (hk : c ≠ 10 ∧ c ≠ 13 ∧ c ≠ 8 ∧ c ≠ 127 ∧ c ≠ 1 ∧ c ≠ 2 ∧ c ≠ 5 ∧ c ≠ 6 ∧ c ≠ 11 ∧
      c ≠ 21)
    (hi : 118 < s.index) :
    ∃ s', UcTerm_IngestChar s c = some s' ∧ s'.length = 0 ∧ s'.index = 0 ∧
      s'.out = s.out ++ [Event.str OUT_UNKNOWN_STR] := by
  have h91 : c ≠ ESC_SEPRTR := by simp only [ESC_SEPRTR]; omega
  rw [ingest_idle s c hidle h27 h91, ingest_keys_unhandled s c hk,
    ingest_printable_guard s c hwf (by simp only [MAX_STR_LEN]; omega)]
  exact ⟨_, rfl, rfl, rfl, rfl⟩

/-- C21, the defect: after 119 printable bytes ingested into a fresh session
the line and the cursor are at 119; the byte `0x80`, and likewise the control
byte `0x03`, then empties the line (`length = 0`, `index = 0`) and emits the
string `OUT_UNKNOWN_STR`, where the claim leaves the line as it is and emits
nothing. -/
theorem unhandled_byte_resets_full_line :
    (ingest_all UcTerm_Init (List.replicate 119 97)).map
        (fun s => (s.index, s.length, s.out.drop 119)) = some (119, 119, []) ∧
    (ingest_all UcTerm_Init (List.replicate 119 97 ++ [128])).map
        (fun s => (s.index, s.length, s.out.drop 119)) =
      some (0, 0, [Event.str OUT_UNKNOWN_STR]) ∧
    (ingest_all UcTerm_Init (List.replicate 119 97 ++ [3])).map
        (fun s => (s.index, s.length, s.out.drop 119)) =
      some (0, 0, [Event.str OUT_UNKNOWN_STR]) := by
  decide!

/-! ## Insertion into a full line -/

/-- C29: in the Idle state with `length = 119` and `index < length`, a byte in
`0x20 .. 0x7E` is dropped: the buffer, the line, the cursor and the length are
as before and nothing is emitted. -/
theorem insert_into_full_line (s : UcTermState) (c : Nat) (hidle : Idle s)
    (hl : s.length = 119) (hlt : s.index < s.length) (hc : 32 ≤ c ∧ 126 ≥ c) :
    ∃ s', UcTerm_IngestChar s c = some s' ∧
      s'.buf = s.buf ∧ content s' = content s ∧ s'.index = s.index ∧
      s'.length = s.length ∧ s'.out = s.out ∧ Idle s' := by
  have hfull := ingest_printable_full
    { s with esc_index := if c = ESC_SEPRTR then 0 else s.esc_index } c
    (by simp only [MAX_STR_LEN]; omega) hc hlt (by simp only [MAX_STR_LEN]; omega)
  rw [ingest_idle_printable s c hidle hc, hfull]
  exact ⟨_, rfl, rfl, rfl, rfl, rfl, rfl, hidle⟩

theorem insert_into_full_line_witness :
    Idle (line_state (List.replicate 119 97) 5) ∧
    (line_state (List.replicate 119 97) 5).length = 119 ∧
    (line_state (List.replicate 119 97) 5).index <
      (line_state (List.replicate 119 97) 5).length ∧
    (32 ≤ 98 ∧ 126 ≥ 98) ∧
    ∃ s', UcTerm_IngestChar (line_state (List.replicate 119 97) 5) 98 = some s' ∧
      s'.buf = (line_state (List.replicate 119 97) 5).buf ∧
      s'.index = 5 ∧ s'.length = 119 ∧ s'.out = [] := by
  have hl : (line_state (List.replicate 119 97) 5).length = 119 := by
    simp [line_state]
  obtain ⟨s', hrun, hb, _, hi, hlen, hout, _⟩ :=
    insert_into_full_line (line_state (List.replicate 119 97) 5) 98 (idle_line_state _ _)
      hl (by rw [hl]; decide) (by decide)
  exact ⟨idle_line_state _ _, hl, by rw [hl]; decide, by decide, s', hrun, hb, hi,
    by rw [hlen, hl], hout⟩

/-! ## Sequences without a meaning -/

theorem esc_dispatch_none (s : UcTermState) (t : Nat)
    (h2 : s.esc_index = 2 → t ≠ 68 ∧ t ≠ 67)
    (h3 : s.esc_index = 3 → t = 126 →
      load s.esc_buf 1 ≠ some 49 ∧ load s.esc_buf 1 ≠ some 52 ∧ load s.esc_buf 1 ≠ some 51 ∧
        (load s.esc_buf 1).isSome = true) :
    esc_dispatch s t = some s := by
  unfold esc_dispatch
  by_cases c2 : 2 = s.esc_index
  · obtain ⟨a, b⟩ := h2 c2.symm
    rw [if_pos c2, if_neg (fun e => a e.symm), if_neg (fun e => b e.symm)]
  · rw [if_neg c2]
    by_cases c3 : 3 = s.esc_index ∧ 126 = t
    · obtain ⟨a, b, c, d⟩ := h3 c3.1.symm c3.2.symm
      rw [if_pos c3]
      cases hl : load s.esc_buf 1 with
      | none => rw [hl] at d; cases d
      | some e1 =>
        rw [hl] at a b c
        simp only [Option.bind_eq_bind, Option.some_bind]
        rw [if_neg (fun e => a (by rw [← e])), if_neg (fun e => b (by rw [← e])),
          if_neg (fun e => c (by rw [← e]))]
    · rw [if_neg c3]

/-- C27: a terminated sequence `ESC [ p1 .. pk t` with `k ≤ 2`, the `p` outside
`0x40 .. 0x7E` and other than `ESC`, `t` in `0x40 .. 0x7E` other than `[`, that
is none of `[D`, `[C`, `[1~`, `[4~`, `[3~`, leaves the buffer, the line, the
cursor and the length as they were, emits nothing and ends in the Idle state;
this holds from any well-formed state and so from an Idle one. -/
theorem unknown_sequence_dropped (s : UcTermState) (hwf : WF s) :
    (∀ t, 64 ≤ t ∧ 126 ≥ t → t ≠ ESC_SEPRTR → t ≠ 68 → t ≠ 67 →
      ∃ s', ingest_all s [27, 91, t] = some s' ∧ s'.buf = s.buf ∧ content s' = content s ∧
        s'.index = s.index ∧ s'.length = s.length ∧ s'.out = s.out ∧ Idle s') ∧
    (∀ p t, ¬ (64 ≤ p ∧ 126 ≥ p) → p ≠ ESC_HEADER → 64 ≤ t ∧ 126 ≥ t → t ≠ ESC_SEPRTR →
      ¬ (t = 126 ∧ (p = 49 ∨ p = 52 ∨ p = 51)) →
      ∃ s', ingest_all s [27, 91, p, t] = some s' ∧ s'.buf = s.buf ∧
        content s' = content s ∧ s'.index = s.index ∧ s'.length = s.length ∧
        s'.out = s.out ∧ Idle s') ∧
    (∀ p1 p2 t, ¬ (64 ≤ p1 ∧ 126 ≥ p1) → p1 ≠ ESC_HEADER →
      ¬ (64 ≤ p2 ∧ 126 ≥ p2) → p2 ≠ ESC_HEADER → 64 ≤ t ∧ 126 ≥ t → t ≠ ESC_SEPRTR →
      ∃ s', ingest_all s [27, 91, p1, p2, t] = some s' ∧ s'.buf = s.buf ∧
        content s' = content s ∧ s'.index = s.index ∧ s'.length = s.length ∧
        s'.out = s.out ∧ Idle s') := by
  obtain ⟨h1, h2, h3, h4, h5⟩ := (wf_iff s).1 hwf
  refine ⟨?_, ?_, ?_⟩
  · intro t ht h91 hD hC
    rw [ingest_csi_final s h2 t ht h91,
      esc_dispatch_none _ t (fun _ => ⟨hD, hC⟩) (fun h => by simp at h)]
    simp only [Option.some_bind]
    rw [reset_esc_buf_eq _ (by simp [h2])]
    exact ⟨_, rfl, rfl, rfl, rfl, rfl, rfl, idle_reset _ (by simp [h2])⟩
  · intro p t hp hp27 ht h91 hnot
    rw [ingest_csi_param_final s h2 p t hp hp27 ht h91,
      esc_dispatch_none _ t (fun h => by simp at h) (fun _ ht126 => by
        rw [load_csi_param s.esc_buf h2 p t]
        have hp3 : ¬ (p = 49 ∨ p = 52 ∨ p = 51) := fun h => hnot ⟨ht126, h⟩
        refine ⟨?_, ?_, ?_, rfl⟩ <;> (intro e; simp only [Option.some.injEq] at e; omega))]
    simp only [Option.some_bind]
    rw [reset_esc_buf_eq _ (by simp [h2])]
    exact ⟨_, rfl, rfl, rfl, rfl, rfl, rfl, idle_reset _ (by simp [h2])⟩
  · intro p1 p2 t hp1 hp1e hp2 hp2e ht h91
    have h27 : t ≠ ESC_HEADER := by simp only [ESC_HEADER]; omega
    have c0 : Collecting (csi_open s) := collecting_csi_open s (by omega)
    have l0 : (csi_open s).esc_buf.length = 4 := by simp [csi_open, h2]
    have k0 : (csi_open s).esc_index = 1 := rfl
    have st1 := ingest_param (csi_open s) p1 c0 (by omega) l0 hp1e hp1
    have c1 := collecting_param (csi_open s) p1 c0 (by omega)
    rw [k0] at st1 c1
    have st2 := ingest_param _ p2 c1 (by simp) (by simp [l0]) hp2e hp2
    have c2 := collecting_param _ p2 c1 (by simp)
    simp only at st2 c2
    have st3 := ingest_collecting _ t c2 h27 h91
    rw [ingest_escape_final _ t (by simp) (by simp [l0]) ht,
      esc_dispatch_none _ t (fun h => by simp at h) (fun h => by simp at h)] at st3
    simp only [Option.some_bind] at st3
    rw [reset_esc_buf_eq _ (by simp [l0])] at st3
    rw [ingest_csi_open s (by omega)]
    simp only [ingest_all, st1, Option.some_bind, st2, st3]
    exact ⟨_, rfl, rfl, rfl, rfl, rfl, rfl, idle_reset _ (by simp [l0])⟩

theorem unknown_sequence_dropped_witness :
    WF (line_state [97, 98, 99] 1) ∧
    ∃ s', ingest_all (line_state [97, 98, 99] 1) [27, 91, 53, 126] = some s' ∧
      s'.buf = (line_state [97, 98, 99] 1).buf ∧ s'.index = 1 ∧ s'.length = 3 ∧
      s'.out = [] ∧ Idle s' := by
  have hwf : WF (line_state [97, 98, 99] 1) := wf_line_state _ _ (by decide) (by decide)
  obtain ⟨s', hrun, hb, _, hi, hl, hout, hid⟩ :=
    (unknown_sequence_dropped (line_state [97, 98, 99] 1) hwf).2.1 53 126 (by decide)
      (by decide) (by decide) (by decide) (by decide)
  exact ⟨hwf, s', hrun, hb, hi, hl, hout, hid⟩

/-! ## The reposition command -/

theorem move_command_table :
    ∀ i, i < 256 →
      (_get_move_command i = [27, 91] ++ decimal (min (i + 2) 255) ++ [71] ↔
        ¬ (98 ≤ i ∧ i ≤ 107) ∧ ¬ (198 ≤ i ∧ i ≤ 207) ∧ i < 254) := by
  decide!

/-- C22, the defect: for the cursor index 98 the command is `ESC [ 1 0 G`,
column 10, and not `ESC [ 1 0 0 G`: the tens digit is left out when it is 0
after a hundreds digit.  A session reaches it with 98 letters followed by
Ctrl+E.  Among the indices `0 .. 119` the command is `ESC [`, the decimal
digits of `index + 2`, `G` exactly outside `98 .. 107`. -/
theorem move_command_omits_zero_tens :
    _get_move_command 98 = [27, 91, 49, 48, 71] ∧
    [27, 91] ++ decimal (98 + 2) ++ [71] = [27, 91, 49, 48, 48, 71] ∧
    (ingest_all UcTerm_Init (List.replicate 98 97 ++ [5])).map
      (fun s => (s.index, s.length, s.out.drop 98)) =
        some (98, 98, [Event.str [27, 91, 49, 48, 71]]) ∧
    (∀ i, i < 120 →
      (_get_move_command i = [27, 91] ++ decimal (i + 2) ++ [71] ↔ ¬ (98 ≤ i ∧ i ≤ 107))) := by
  decide!

/-- C30, the defect: for the index values 254 and 255 the command is
`ESC [ 0 G`, column 0: the index is clamped to 254 and the offset 2 added
afterwards wraps the byte to 0.  The largest column written is 255, for the
index 253. -/
theorem move_command_wraps_to_zero :
    _get_move_command 253 = [27, 91, 50, 53, 53, 71] ∧
    _get_move_command 254 = [27, 91, 48, 71] ∧
    _get_move_command 255 = [27, 91, 48, 71] ∧
    decimal 255 = [50, 53, 53] ∧ decimal 0 = [48] := by
  decide!

/-! ## The terminator after a submitted line -/

/-- C24, the defect: after `abc`, Enter and `x` the line has length 1 and
`buf[1]` is `b`, not the terminator: the buffer read as a string is `xbc`.
`_reset_buf` clears `buf[0]` only and the append path writes no terminator. -/
theorem append_leaves_stale_bytes :
    (ingest_all UcTerm_Init [97, 98, 99, 10, 120]).map
      (fun s => (s.length, s.index, content s, load s.buf s.length, cstr s.buf 0)) =
        some (1, 1, [120], some 98, some [120, 98, 99]) := by
  decide!

/-- C23, the defect: after `abc`, Enter, `xy` and Ctrl+U the line is empty and
the cursor is at 0, yet the resynchronisation prints `cyc` between the erase
command and the reposition command: bytes of the submitted line that no
terminator cuts off. -/
theorem ctrl_u_prints_stale_bytes :
    (ingest_all UcTerm_Init [97, 98, 99, 10, 120, 121, 21]).map
      (fun s => (s.length, s.index, content s, s.out.drop 8)) =
        some (0, 0, [], [Event.str [27, 91, 50, 71], Event.str OUT_ERASE_END,
          Event.str [99, 121, 99], Event.str (_get_move_command 0)]) := by
  decide!

/-! ## Bytes after `ESC` and the separator inside a sequence -/

theorem ingest_not_collecting (s : UcTermState) (c e0 : Nat) (h : load s.esc_buf 0 = some e0)
    (he : e0 ≠ ESC_SEPRTR) (h27 : c ≠ ESC_HEADER) (h91 : c ≠ ESC_SEPRTR) :
    UcTerm_IngestChar s c = ingest_keys s c := by
  unfold UcTerm_IngestChar
  rw [if_neg (fun e => h27 e.symm), if_neg (fun e => h91 e.1.symm),
    if_neg (fun e => h91 e.symm)]
  simp only [Option.some_bind, h]
  rw [if_neg (fun e => he e.symm)]

theorem ingest_collecting_sep (s : UcTermState) (h : Collecting s) :
    UcTerm_IngestChar s ESC_SEPRTR =
      ingest_keys { s with esc_buf := s.esc_buf.set 0 0, esc_index := 0 } ESC_SEPRTR := by
  unfold Collecting at h
  have h0 : 0 < s.esc_buf.length := (List.getElem?_eq_some.1 h).1
  unfold UcTerm_IngestChar
  rw [if_neg (by decide), if_neg (by simp [h, ESC_HEADER, ESC_SEPRTR]), if_pos rfl,
    reset_esc_buf_eq s h0]
  simp only [Option.some_bind, load, List.getElem?_set_self h0]
  rw [if_neg (by decide)]

/-- C25, the defect: after `ESC` the letter `c` is inserted into the line and
echoed, and the state tag still holds the header.  The tag that is left
behind takes a later `[` for the start of a sequence: of the text `x[1]`
typed after a stray `ESC` only `x` reaches the line and the echo, where
without the `ESC` the line is `x[1]`. -/
theorem stale_escape_tag_swallows_text :
    (ingest_all UcTerm_Init [27, 99]).map
      (fun s => (content s, s.index, s.length, s.out, s.esc_buf)) =
        some ([99], 1, 1, [Event.chr 99], [27, 0, 0, 0]) ∧
    (ingest_all UcTerm_Init [27, 120, 91, 49, 93]).map
      (fun s => (content s, s.index, s.length, s.out)) =
        some ([120], 1, 1, [Event.chr 120]) ∧
    (ingest_all UcTerm_Init [120, 91, 49, 93]).map
      (fun s => (content s, s.index, s.length, s.out)) =
        some ([120, 91, 49, 93], 4, 4,
          [Event.chr 120, Event.chr 91, Event.chr 49, Event.chr 93]) :=
  ⟨by decide!, by decide!, by decide!⟩

/-- The dispatch on the state tag for a byte other than `ESC` and `[`: the
escape branch alone while a sequence is being collected (state tag `[`), the
key steps after a bare `ESC` (state tag `ESC`), where a printable byte at the
end of a line of at most 118 bytes is appended and echoed and the state tag
keeps the header. -/
theorem escape_routing (s : UcTermState) (c : Nat) (h27 : c ≠ ESC_HEADER)
    (h91 : c ≠ ESC_SEPRTR) :
    (Collecting s → UcTerm_IngestChar s c = ingest_escape s c) ∧
    (SawEscape s → UcTerm_IngestChar s c = ingest_keys s c) ∧
    (SawEscape s → WF s → s.index = s.length → s.length ≤ 118 → 32 ≤ c ∧ 126 ≥ c →
      ∃ s', UcTerm_IngestChar s c = some s' ∧ content s' = content s ++ [c] ∧
        s'.index = s.index + 1 ∧ s'.length = s.length + 1 ∧
        s'.out = s.out ++ [Event.chr c] ∧ SawEscape s') := by
  refine ⟨fun h => ingest_collecting s c h h27 h91,
    fun h => ingest_not_collecting s c ESC_HEADER h (by decide) h27 h91, ?_⟩
  intro h hwf he hl hc
  obtain ⟨h1, h2, h3, h4, h5⟩ := (wf_iff s).1 hwf
  rw [ingest_not_collecting s c ESC_HEADER h (by decide) h27 h91, ingest_keys_printable s c hc,
    ingest_printable_append s c hwf (by simp only [MAX_STR_LEN]; omega) hc he]
  refine ⟨_, rfl, ?_, rfl, rfl, rfl, h⟩
  simp only [content]
  rw [he, take_set_succ s.buf s.length c (by omega)]

theorem escape_routing_witness :
    (99 : Nat) ≠ ESC_HEADER ∧ (99 : Nat) ≠ ESC_SEPRTR ∧
    SawEscape (esc_seen (line_state [97] 1)) ∧
    UcTerm_IngestChar (esc_seen (line_state [97] 1)) 99 =
      ingest_keys (esc_seen (line_state [97] 1)) 99 :=
  ⟨by decide, by decide, by decide,
    (escape_routing (esc_seen (line_state [97] 1)) 99 (by decide) (by decide)).2.1 (by decide)⟩

/-- C26, the counterexample: after `ab` the bytes `ESC [ [ D` do not move the
cursor left: the line becomes `ab[D` with the cursor at 4, and `[` and `D` are
echoed. -/
theorem separator_restart_inserts_text :
    (ingest_all UcTerm_Init [97, 98, 27, 91, 91, 68]).map
      (fun s => (content s, s.index, s.length, s.out.drop 2)) =
        some ([97, 98, 91, 68], 4, 4, [Event.chr 91, Event.chr 68]) ∧
    (ingest_all UcTerm_Init [97, 98, 27, 91, 68]).map
      (fun s => (content s, s.index, s.length, s.out.drop 2)) =
        some ([97, 98], 1, 2, [Event.str OUT_L_ARROW]) := by
  decide!

/-- C26 as amended: while a sequence is being collected the separator `[`
ends the sequence: the escape state is reset to Idle and the byte is then
handled as a printable byte, so with `length ≤ 118` it is inserted at the
cursor, and `index` and `length` each grow by one. -/
theorem separator_while_collecting (s : UcTermState) (hwf : WF s) (hcol : Collecting s)
    (hl : s.length ≤ 118) :
    ∃ s', UcTerm_IngestChar s ESC_SEPRTR = some s' ∧ Idle s' ∧
      content s' = (content s).take s.index ++ ESC_SEPRTR :: (content s).drop s.index ∧
      s'.index = s.index + 1 ∧ s'.length = s.length + 1 := by
  obtain ⟨h1, h2, h3, h4, h5⟩ := (wf_iff s).1 hwf
  have h0 : 0 < s.esc_buf.length := by rw [h2]; decide
  have hwf0 : WF { s with esc_buf := s.esc_buf.set 0 0, esc_index := 0 } :=
    (wf_iff _).2 ⟨h1, by simpa using h2, h3, h4, h5⟩
  have hidle0 : Idle { s with esc_buf := s.esc_buf.set 0 0, esc_index := 0 } :=
    idle_reset s.esc_buf h0
  obtain ⟨s1, hrun, _, hidle1, hcont, hidx, hlen⟩ :=
    printable_step _ ESC_SEPRTR hwf0 hidle0 hl (by decide)
  rw [ingest_idle_sep _ hidle0] at hrun
  rw [ingest_collecting_sep s hcol]
  exact ⟨s1, hrun, hidle1, hcont, hidx, hlen⟩

theorem separator_while_collecting_witness :
    WF (csi_open (line_state [97, 98] 2)) ∧ Collecting (csi_open (line_state [97, 98] 2)) ∧
    ∃ s', UcTerm_IngestChar (csi_open (line_state [97, 98] 2)) ESC_SEPRTR = some s' ∧ Idle s' ∧
      content s' = [97, 98, 91] ∧ s'.index = 3 ∧ s'.length = 3 := by
  have hwf0 : WF (line_state [97, 98] 2) := wf_line_state _ _ (by decide) (by decide)
  obtain ⟨h1, h2, h3, h4, h5⟩ := (wf_iff _).1 hwf0
  have hwf : WF (csi_open (line_state [97, 98] 2)) :=
    (wf_iff _).2 ⟨h1, by simpa [csi_open] using h2, h3, h4, h5⟩
  have hcol : Collecting (csi_open (line_state [97, 98] 2)) :=
    collecting_csi_open _ (by rw [h2]; decide)
  obtain ⟨s', hrun, hidle, hcont, hidx, hlen⟩ :=
    separator_while_collecting (csi_open (line_state [97, 98] 2)) hwf hcol (by decide)
  refine ⟨hwf, hcol, s', hrun, hidle, ?_, hidx, hlen⟩
  rw [hcont]
  decide

/-! ## The output of an insertion inside the line -/

theorem drop_ins_at (m : List Nat) (i l : Nat) (hi : i < l) (hl : l + 2 ≤ m.length) :
    (ins_at m i l).drop i =
      (((m.take l).drop i).take 1 ++ (m.take l).drop i) ++ 0 :: (ins_at m i l).drop (l + 2) := by
  have hlenX : (((m.take l).drop i).take 1 ++ (m.take l).drop i).length = l - i + 1 := by
    simp only [List.length_append, List.length_take, List.length_drop]; omega
  have hlen1 : (((m.take l).drop i).take 1).length = 1 := by
    simp only [List.length_take, List.length_drop]; omega
  apply List.ext_getElem?
  intro j
  rw [List.getElem?_drop, getElem?_ins_at m i l (i + j) (by omega) hl, List.getElem?_append, hlenX]
  by_cases c1 : j = 0
  · subst c1
    have e1 : ¬ (i = l + 1) := by omega
    simp [e1, List.getElem?_append, List.getElem?_take, hi]
  · by_cases c2 : j < l - i + 1
    · have e1 : ¬ (i + j = l + 1) := by omega
      have e2 : ¬ (i + j ≤ i) := by omega
      have e3 : i + j < l + 1 := by omega
      have e4 : ¬ (j < 1) := by omega
      have e5 : i + (j - 1) = i + j - 1 := by omega
      have e6 : i + j - 1 < l := by omega
      rw [if_neg e1, if_neg e2, if_pos e3, if_pos c2, List.getElem?_append, hlen1, if_neg e4,
        List.getElem?_drop, e5, List.getElem?_take, if_pos e6]
    · rw [if_neg c2]
      by_cases c3 : j = l - i + 1
      · have e1 : i + j = l + 1 := by omega
        have e2 : j - (l - i + 1) = 0 := by omega
        rw [if_pos e1, e2]
        simp
      · have e1 : ¬ (i + j = l + 1) := by omega
        have e2 : ¬ (i + j ≤ i) := by omega
        have e3 : ¬ (i + j < l + 1) := by omega
        have e4 : j - (l - i + 1) = (j - (l - i + 1) - 1) + 1 := by omega
        have e5 : l + 2 + (j - (l - i + 1) - 1) = i + j := by omega
        rw [if_neg e1, if_neg e2, if_neg e3, e4, List.getElem?_cons_succ, List.getElem?_drop, e5,
          getElem?_ins_at m i l (i + j) (by omega) hl, if_neg e1, if_neg e2, if_neg e3]

theorem takeWhile_drop_ins_at (m : List Nat) (i l : Nat) (hi : i < l) (hl : l + 2 ≤ m.length)
    (hn : ∀ b ∈ m.take l, b ≠ 0) :
    ((ins_at m i l).drop i).takeWhile (fun b => b != 0) =
      ((m.take l).drop i).take 1 ++ (m.take l).drop i := by
  rw [drop_ins_at m i l hi hl, List.takeWhile_append_of_pos]
  · simp
  · intro b hb
    have hmem : b ∈ m.take l := by
      rcases List.mem_append.1 hb with h | h
      · exact List.mem_of_mem_drop (List.mem_of_mem_take h)
      · exact List.mem_of_mem_drop h
    simpa using hn b hmem

/-- C28, the counterexample: with the line `abf` and the cursor moved to 1 by
two left arrows, the letter `d` produces the erase command, the string `bbf`,
the reposition command for the cursor 1 (column 3) and only then the echo of
`d`: the resynchronisation comes before the echo, and it is made for the
cursor and the suffix as they were before the insertion. -/
theorem insert_redraws_before_echo :
    (ingest_all UcTerm_Init [97, 98, 102, 27, 91, 68, 27, 91, 68, 100]).map
      (fun s => (content s, s.index, s.length, s.out.drop 5)) =
        some ([97, 100, 98, 102], 2, 4,
          [Event.str OUT_ERASE_END, Event.str [98, 98, 102], Event.str [27, 91, 51, 71],
            Event.chr 100]) := by
  decide!

/-- C28 as amended: in the Idle state, with `index < length ≤ 118`, a line
without a NUL byte and a printable byte `c`, the output of ingesting `c` is
the erase command, then the byte that was under the cursor followed by the
old suffix `old[index .. length)`, then the reposition command for the old
cursor, and last the echo of `c` through `printChr`. -/
theorem insert_output_order (s : UcTermState) (c : Nat) (hwf : WF s) (hidle : Idle s)
    (hlt : s.index < s.length) (hl : s.length ≤ 118) (hc : 32 ≤ c ∧ 126 ≥ c)
    (hn : ∀ b ∈ content s, b ≠ 0) :
    ∃ s', UcTerm_IngestChar s c = some s' ∧
      s'.out = s.out ++ [Event.str OUT_ERASE_END,
        Event.str (((content s).drop s.index).take 1 ++ (content s).drop s.index),
        Event.str (_get_move_command s.index), Event.chr c] := by
  obtain ⟨h1, h2, h3, h4, h5⟩ := (wf_iff s).1 hwf
  have hwf0 : WF { s with esc_index := if c = ESC_SEPRTR then 0 else s.esc_index } :=
    (wf_iff _).2 ⟨h1, h2, h3, h4, h5⟩
  have hstep := ingest_printable_insert _ c hwf0 hc hlt (by simp only [MAX_STR_LEN]; omega)
  rw [← ingest_idle_printable s c hidle hc] at hstep
  refine ⟨_, hstep, ?_⟩
  simp only [redraw, content]
  rw [takeWhile_drop_ins_at s.buf s.index s.length hlt (by omega) hn]
  simp

theorem insert_output_order_witness :
    WF (line_state [97, 98, 102] 1) ∧ Idle (line_state [97, 98, 102] 1) ∧
    (∀ b ∈ content (line_state [97, 98, 102] 1), b ≠ 0) ∧
    ∃ s', UcTerm_IngestChar (line_state [97, 98, 102] 1) 100 = some s' ∧
      s'.out = [Event.str OUT_ERASE_END, Event.str [98, 98, 102],
        Event.str (_get_move_command 1), Event.chr 100] := by
  have hwf : WF (line_state [97, 98, 102] 1) := wf_line_state _ _ (by decide) (by decide)
  have hn : ∀ b ∈ content (line_state [97, 98, 102] 1), b ≠ 0 := by decide
  obtain ⟨s', hrun, hout⟩ :=
    insert_output_order (line_state [97, 98, 102] 1) 100 hwf (idle_line_state _ _)
      (by decide) (by decide) (by decide) hn
  refine ⟨hwf, idle_line_state _ _, hn, s', hrun, ?_⟩
  rw [hout]
  decide

/-! ## The bytes `_tokenize` writes -/

theorem start_after_zero (q b : Nat) (t : List Nat) :
    start_after q (b :: t) 0 = (!isWhitespace b && isWhitespace q) := by
  simp [start_after, token_start]

theorem start_after_succ (q b : Nat) (t : List Nat) (j : Nat) :
    start_after q (b :: t) (j + 1) = start_after b t j := by
  simp [start_after, token_start]

theorem stop_after_zero (q b : Nat) (t : List Nat) :
    stop_after q (b :: t) 0 = (isWhitespace b && !isWhitespace q) := by
  simp [stop_after, token_stop]

theorem stop_after_succ (q b : Nat) (t : List Nat) (i : Nat) :
    stop_after q (b :: t) (i + 1) = stop_after b t i := by
  simp [stop_after, token_stop]

theorem stop_after_nil (q i : Nat) : stop_after q [] i = false := by
  simp [stop_after, token_stop]

theorem start_after_space (text : List Nat) (j : Nat) :
    start_after 32 text j = token_start text j := by
  cases j with
  | zero => simp [start_after, token_start, isWhitespace]
  | succ k => simp [start_after, token_start]

theorem stop_after_space (text : List Nat) (i : Nat) :
    stop_after 32 text i = token_stop text i := by
  cases i with
  | zero => simp [stop_after, token_stop, isWhitespace]
  | succ k => simp [stop_after, token_stop]

theorem filter_range_succ (f : Nat → Bool) (n : Nat) :
    (List.range (n + 1)).filter f =
      (if f 0 = true then [0] else []) ++
        ((List.range n).filter fun j => f (j + 1)).map (· + 1) := by
  rw [List.range_succ_eq_map, List.filter_cons, List.filter_map]
  by_cases h : f 0 = true
  · simp [h, Function.comp_def]
  · simp [h, Function.comp_def]

theorem starts_after_cons (q b : Nat) (t : List Nat) :
    starts_after q (b :: t) =
      (if start_after q (b :: t) 0 = true then [0] else []) ++
        (starts_after b t).map (· + 1) := by
  simp only [starts_after, List.length_cons, filter_range_succ, start_after_succ]

theorem count_after_zero (q : Nat) (text : List Nat) : count_after q text 0 = 0 := by
  simp [count_after]

theorem count_after_succ (q b : Nat) (t : List Nat) (i : Nat) :
    count_after q (b :: t) (i + 1) =
      (if start_after q (b :: t) 0 = true then 1 else 0) + count_after b t i := by
  simp only [count_after, filter_range_succ, start_after_succ, List.length_append,
    List.length_map]
  split <;> rfl

theorem shift_offs (X : List Nat) (k p : Nat) :
    ((X.map (· + 1)).take k).map (p + ·) = (X.take k).map (p + 1 + ·) := by
  rw [← List.map_take, List.map_map]
  apply List.map_congr_left
  intro j _
  simp only [Function.comp_apply]
  omega

theorem tokenize_loop_frame (text : List Nat) (h0 : ∀ b ∈ text, b ≠ 0) (rest : List Nat) :
    ∀ (q p n : Nat) (found : Bool) (argv : List (Option Nat)),
      found = !isWhitespace q → n ≤ MAX_ARG_COUNT → argv.length = MAX_ARG_COUNT →
      ∃ (l' : List Nat) (offs : List Nat),
        tokenize_loop (text ++ 0 :: rest) p n found argv =
          some (n + offs.length, l',
            argv.take n ++ offs.map some ++ argv.drop (n + offs.length)) ∧
        offs = ((starts_after q text).take (MAX_ARG_COUNT - n)).map (p + ·) ∧
        ∀ i, l'[i]? =
          if stop_after q text i = true ∧ n + count_after q text i ≤ MAX_ARG_COUNT then some 0
          else (text ++ 0 :: rest)[i]? := by
  induction text with
  | nil =>
    intro q p n found argv _ _ _
    refine ⟨0 :: rest, [], ?_, ?_, ?_⟩
    · simp [tokenize_loop]
    · simp [starts_after]
    · intro i; simp [stop_after_nil]
  | cons b t ih =>
    have hb0 : b ≠ 0 := h0 b (List.mem_cons_self _ _)
    have ht0 : ∀ x ∈ t, x ≠ 0 := fun x hx => h0 x (List.mem_cons_of_mem _ hx)
    intro q p n found argv hq hn hargv
    by_cases hws : isWhitespace b = true
    · -- a whitespace byte: no token starts here
      have hst : start_after q (b :: t) 0 = false := by simp [start_after_zero, hws]
      obtain ⟨l2, offs, hrun, hoffs, hfr⟩ :=
        ih ht0 b (p + 1) n false argv (by simp [hws]) hn hargv
      have hoffs2 : offs = ((starts_after q (b :: t)).take (MAX_ARG_COUNT - n)).map (p + ·) := by
        rw [hoffs, starts_after_cons, hst]
        simp only [Bool.false_eq_true, if_false, List.nil_append]
        exact (shift_offs _ _ _).symm
      have hrest : ∀ i, l2[i]? =
          if stop_after q (b :: t) (i + 1) = true ∧
            n + count_after q (b :: t) (i + 1) ≤ MAX_ARG_COUNT then some 0
          else (b :: t ++ 0 :: rest)[i + 1]? := by
        intro i
        rw [hfr i, stop_after_succ, count_after_succ, hst]
        simp
      cases found with
      | true =>
        have hqn : isWhitespace q = false := by simpa using hq.symm
        refine ⟨0 :: l2, offs, ?_, hoffs2, ?_⟩
        · simp [tokenize_loop, hb0, hws, hrun]
        · intro i
          cases i with
          | zero => simp [stop_after_zero, hws, hqn, count_after_zero, hn]
          | succ i => simpa using hrest i
      | false =>
        have hqn : isWhitespace q = true := by simpa using hq.symm
        refine ⟨b :: l2, offs, ?_, hoffs2, ?_⟩
        · simp [tokenize_loop, hb0, hws, hrun]
        · intro i
          cases i with
          | zero => simp [stop_after_zero, hws, hqn]
          | succ i => simpa using hrest i
    · simp only [Bool.not_eq_true] at hws
      have hsp : stop_after q (b :: t) 0 = false := by simp [stop_after_zero, hws]
      cases found with
      | true =>
        -- inside a token
        have hqn : isWhitespace q = false := by simpa using hq.symm
        have hst : start_after q (b :: t) 0 = false := by simp [start_after_zero, hqn]
        obtain ⟨l2, offs, hrun, hoffs, hfr⟩ :=
          ih ht0 b (p + 1) n true argv (by simp [hws]) hn hargv
        refine ⟨b :: l2, offs, ?_, ?_, ?_⟩
        · simp [tokenize_loop, hb0, hws, hrun]
        · rw [hoffs, starts_after_cons, hst]
          simp only [Bool.false_eq_true, if_false, List.nil_append]
          exact (shift_offs _ _ _).symm
        · intro i
          cases i with
          | zero => simp [hsp]
          | succ i =>
            rw [List.getElem?_cons_succ, hfr i, stop_after_succ, count_after_succ, hst]
            simp
      | false =>
        have hqn : isWhitespace q = true := by simpa using hq.symm
        have hst : start_after q (b :: t) 0 = true := by simp [start_after_zero, hqn, hws]
        by_cases hlt : n < MAX_ARG_COUNT
        · -- a new token starts at `p`
          have hlen : n < argv.length := by rw [hargv]; exact hlt
          have hn1 : n + 1 ≤ MAX_ARG_COUNT := hlt
          have hmod : (n + 1) % 256 = n + 1 := by
            apply Nat.mod_eq_of_lt; simp only [MAX_ARG_COUNT] at hlt; omega
          obtain ⟨l2, offs, hrun, hoffs, hfr⟩ :=
            ih ht0 b (p + 1) (n + 1) true (argv.set n (some p)) (by simp [hws]) hn1
              (by simpa using hargv)
          refine ⟨b :: l2, p :: offs, ?_, ?_, ?_⟩
          · have e1 : n + (p :: offs).length = n + 1 + offs.length := by
              simp only [List.length_cons]; omega
            rw [e1]
            simp [tokenize_loop, hb0, hws, hlt, store, hlen, hmod, hrun,
              take_set_succ argv n (some p) hlen, drop_set_succ]
          · have e2 : MAX_ARG_COUNT - n = (MAX_ARG_COUNT - (n + 1)) + 1 := by omega
            rw [hoffs, starts_after_cons, hst, e2]
            simp only [if_true, List.singleton_append, List.take_succ_cons, List.map_cons,
              Nat.add_zero]
            rw [shift_offs]
          · intro i
            cases i with
            | zero => simp [hsp]
            | succ i =>
              have e3 : n + (1 + count_after b t i) = n + 1 + count_after b t i := by omega
              rw [List.getElem?_cons_succ, hfr i, stop_after_succ, count_after_succ, hst]
              simp [e3]
        · -- the array is full: the loop is left
          have hn4 : MAX_ARG_COUNT - n = 0 := by omega
          refine ⟨b :: (t ++ 0 :: rest), [], ?_, ?_, ?_⟩
          · simp [tokenize_loop, hb0, hws, hlt]
          · simp [hn4]
          · intro i
            cases i with
            | zero => simp [hsp]
            | succ i =>
              have e4 : ¬ (n + (1 + count_after b t i) ≤ MAX_ARG_COUNT) := by omega
              rw [count_after_succ, hst]
              simp [e4]

/-- C31: for a text without NUL followed by its terminator, `_tokenize` returns
and the buffer it leaves has the length of the original and differs from it
only at the whitespace bytes that immediately follow one of the first
`MAX_ARG_COUNT` tokens, where it holds 0; every other byte, the terminator and
the bytes after it included, is unchanged.  `argc` is the number of tokens
capped at `MAX_ARG_COUNT`, the entries `argv[0 .. argc)` are the offsets of the
first bytes of these tokens in that buffer, where the byte of the text still
stands, and the later entries of `argv` are untouched. -/
theorem tokenize_frame (text rest : List Nat) (argv : List (Option Nat))
    (h0 : ∀ b ∈ text, b ≠ 0) (hargv : argv.length = MAX_ARG_COUNT) :
    ∃ buf', _tokenize (text ++ 0 :: rest) argv =
        some (((token_starts text).take MAX_ARG_COUNT).length, buf',
          ((token_starts text).take MAX_ARG_COUNT).map some ++
            argv.drop ((token_starts text).take MAX_ARG_COUNT).length) ∧
      buf'.length = (text ++ 0 :: rest).length ∧
      (∀ i, buf'[i]? =
        if token_stop text i = true ∧ tokens_before text i ≤ MAX_ARG_COUNT then some 0
        else (text ++ 0 :: rest)[i]?) ∧
      (∀ k ∈ (token_starts text).take MAX_ARG_COUNT,
        token_start text k = true ∧ buf'[k]? = text[k]?) := by
  obtain ⟨l2, offs, hrun, hoffs, hfr⟩ :=
    tokenize_loop_frame text h0 rest 32 0 0 false argv (by decide) (Nat.zero_le _) hargv
  have hs : starts_after 32 text = token_starts text := by
    simp only [starts_after, token_starts]
    exact List.filter_congr fun j _ => start_after_space text j
  have hc : ∀ i, count_after 32 text i = tokens_before text i := by
    intro i
    simp only [count_after, tokens_before]
    rw [List.filter_congr fun j _ => start_after_space text j]
  have hoffs2 : offs = (token_starts text).take MAX_ARG_COUNT := by
    rw [hoffs, hs]
    simp
  have hfr2 : ∀ i, l2[i]? =
      if token_stop text i = true ∧ tokens_before text i ≤ MAX_ARG_COUNT then some 0
      else (text ++ 0 :: rest)[i]? := by
    intro i
    rw [hfr i, stop_after_space, hc]
    simp
  refine ⟨l2, ?_, (tokenize_loop_buf _ 0 0 false argv _ hrun).1, hfr2, ?_⟩
  · rw [← hoffs2]
    simpa [_tokenize] using hrun
  · intro k hk
    have hk2 : k ∈ token_starts text := List.mem_of_mem_take hk
    obtain ⟨hr, hst⟩ := List.mem_filter.1 hk2
    have hlt : k < text.length := List.mem_range.1 hr
    have hnot : token_stop text k = false := by
      simp only [token_start, List.getElem?_eq_getElem hlt, Option.any_some,
        Bool.and_eq_true, Bool.not_eq_true'] at hst
      simp [token_stop, List.getElem?_eq_getElem hlt, hst.1]
    refine ⟨hst, ?_⟩
    rw [hfr2 k, hnot]
    simp [List.getElem?_append_left hlt]

theorem tokenize_frame_witness :
    (∀ b ∈ [97, 32, 32, 98, 99, 9, 100, 32, 101, 32, 102, 32], b ≠ 0) ∧
    (List.replicate 4 (none : Option Nat)).length = MAX_ARG_COUNT ∧
    ∃ buf', _tokenize ([97, 32, 32, 98, 99, 9, 100, 32, 101, 32, 102, 32] ++ 0 :: [7])
        (List.replicate 4 none) = some (4, buf', [some 0, some 3, some 6, some 8]) ∧
      buf'.length = 14 ∧ buf'[1]? = some 0 ∧ buf'[2]? = some 32 ∧ buf'[5]? = some 0 ∧
      buf'[9]? = some 0 ∧ buf'[11]? = some 32 ∧ buf'[13]? = some 7 := by
  obtain ⟨buf', hrun, hlen, hfr, _⟩ :=
    tokenize_frame [97, 32, 32, 98, 99, 9, 100, 32, 101, 32, 102, 32] [7]
      (List.replicate 4 none) (by decide) (by decide)
  have e : (token_starts [97, 32, 32, 98, 99, 9, 100, 32, 101, 32, 102, 32]).take
      MAX_ARG_COUNT = [0, 3, 6, 8] := by decide
  rw [e] at hrun
  have f1 := hfr 1
  have f2 := hfr 2
  have f5 := hfr 5
  have f9 := hfr 9
  have f11 := hfr 11
  have f13 := hfr 13
  rw [if_pos (by decide)] at f1 f5 f9
  rw [if_neg (by decide)] at f2 f11 f13
  exact ⟨by decide, by decide, buf', hrun, hlen, f1, f2, f5, f9, f11, f13⟩

/-! ## What one call does to the line and to the escape write index -/

theorem keeps_refl (c : Nat) (s : UcTermState) : Keeps c s s :=
  ⟨le_refl _, fun _ hb => Or.inl hb⟩

theorem keeps_trans (c : Nat) (s s1 s2 : UcTermState) (h1 : Keeps c s s1)
    (h2 : Keeps c s1 s2) : Keeps c s s2 := by
  refine ⟨le_trans h2.1 h1.1, ?_⟩
  intro b hb
  rcases h2.2 b hb with h | h
  · exact h1.2 b h
  · exact Or.inr h

theorem keeps_of_eq (c : Nat) (s s' : UcTermState) (he : s'.esc_index = s.esc_index)
    (hb : s'.buf = s.buf) (hl : s'.length = s.length) : Keeps c s s' := by
  refine ⟨by omega, ?_⟩
  intro b hmem
  simp only [content, hb, hl] at hmem
  exact Or.inl hmem

theorem keeps_of_empty (c : Nat) (s s' : UcTermState) (he : s'.esc_index ≤ s.esc_index)
    (hl : s'.length = 0) : Keeps c s s' := by
  refine ⟨he, ?_⟩
  intro b hmem
  simp [content, hl] at hmem

theorem keeps_process_home (c : Nat) (s : UcTermState) : Keeps c s (_process_home s) :=
  keeps_of_eq c s _ rfl rfl rfl

theorem keeps_process_end (c : Nat) (s : UcTermState) : Keeps c s (_process_end s) :=
  keeps_of_eq c s _ rfl rfl rfl

theorem keeps_process_left_arrow (c : Nat) (s : UcTermState) :
    Keeps c s (_process_left_arrow s) := by
  unfold _process_left_arrow
  split <;> exact keeps_of_eq c s _ rfl rfl rfl

theorem keeps_process_right_arrow (c : Nat) (s : UcTermState) :
    Keeps c s (_process_right_arrow s) := by
  unfold _process_right_arrow
  split <;> exact keeps_of_eq c s _ rfl rfl rfl

theorem keeps_ingest_enter (c : Nat) (s s' : UcTermState) (h : WF s)
    (hrun : ingest_enter s = some s') : Keeps c s s' := by
  obtain ⟨h1, h2, h3, h4, h5⟩ := (wf_iff s).1 h
  by_cases hl : s.length = 0
  · rw [ingest_enter_empty s hl] at hrun
    obtain rfl := Option.some.inj hrun
    exact keeps_of_eq c s _ rfl rfl rfl
  · have hmem : 0 ∈ s.buf.set s.length 0 := by
      apply List.getElem?_mem (n := s.length)
      rw [List.getElem?_set]
      simp only [if_true]
      rw [if_pos (by omega)]
    obtain ⟨text, rest, hsplit, h0⟩ := nul_split _ hmem
    obtain ⟨l2, offs, _, _, _, hrun2⟩ :=
      ingest_enter_nonempty s h (by omega) text rest hsplit h0
    rw [hrun2] at hrun
    obtain rfl := Option.some.inj hrun
    exact keeps_of_empty c s _ (Nat.zero_le _) rfl

theorem keeps_ingest_backspace (c : Nat) (s s' : UcTermState) (h : WF s)
    (hrun : ingest_backspace s c = some s') : Keeps c s s' := by
  obtain ⟨h1, h2, h3, h4, h5⟩ := (wf_iff s).1 h
  by_cases hi : 0 < s.index
  · rw [ingest_backspace_eq s c h hi] at hrun
    obtain rfl := Option.some.inj hrun
    refine ⟨le_refl _, ?_⟩
    intro b hb
    simp only [content] at hb ⊢
    rw [take_del_at s.buf (s.index - 1) s.length (by omega) (by omega)] at hb
    rcases List.mem_append.1 hb with hb | hb
    · exact Or.inl (List.mem_of_mem_take hb)
    · exact Or.inl (List.mem_of_mem_drop hb)
  · have e : 0 = s.index := by omega
    simp only [ingest_backspace, e, if_true] at hrun
    obtain rfl := Option.some.inj hrun
    exact keeps_refl c s

theorem keeps_process_delete (c : Nat) (s s' : UcTermState) (h : WF s)
    (hrun : _process_delete s = some s') : Keeps c s s' := by
  obtain ⟨h1, h2, h3, h4, h5⟩ := (wf_iff s).1 h
  by_cases hi : s.index < s.length
  · rw [process_delete_eq s h hi] at hrun
    obtain rfl := Option.some.inj hrun
    refine ⟨le_refl _, ?_⟩
    intro b hb
    simp only [content] at hb ⊢
    rw [take_del_at s.buf s.index s.length hi (by omega)] at hb
    rcases List.mem_append.1 hb with hb | hb
    · exact Or.inl (List.mem_of_mem_take hb)
    · exact Or.inl (List.mem_of_mem_drop hb)
  · simp only [_process_delete, hi, if_false] at hrun
    obtain rfl := Option.some.inj hrun
    exact keeps_refl c s

theorem keeps_ingest_ctrl_u (c : Nat) (s s' : UcTermState) (h : WF s)
    (hrun : ingest_ctrl_u s = some s') : Keeps c s s' := by
  obtain ⟨h1, h2, h3, h4, h5⟩ := (wf_iff s).1 h
  by_cases hi : 0 < s.index
  · rw [ingest_ctrl_u_eq s h hi] at hrun
    obtain rfl := Option.some.inj hrun
    refine ⟨le_refl _, ?_⟩
    intro b hb
    simp only [content] at hb ⊢
    rw [take_moved_front s.buf s.index s.length h3 (by omega)] at hb
    exact Or.inl (List.mem_of_mem_drop hb)
  · have e : 0 = s.index := by omega
    simp only [ingest_ctrl_u, e, if_true] at hrun
    obtain rfl := Option.some.inj hrun
    exact keeps_refl c s

theorem keeps_ingest_ctrl_k (c : Nat) (s s' : UcTermState) (h : WF s)
    (hrun : ingest_ctrl_k s = some s') : Keeps c s s' := by
  obtain ⟨h1, h2, h3, h4, h5⟩ := (wf_iff s).1 h
  by_cases hi : s.index < s.length
  · rw [ingest_ctrl_k_eq s h hi] at hrun
    obtain rfl := Option.some.inj hrun
    refine ⟨le_refl _, ?_⟩
    intro b hb
    simp only [content] at hb ⊢
    rw [take_set_self] at hb
    have e : s.buf.take s.index = (s.buf.take s.length).take s.index := by
      rw [List.take_take, Nat.min_eq_left h3]
    rw [e] at hb
    exact Or.inl (List.mem_of_mem_take hb)
  · simp only [ingest_ctrl_k, hi, if_false] at hrun
    obtain rfl := Option.some.inj hrun
    exact keeps_refl c s

theorem keeps_ingest_printable (c : Nat) (s s' : UcTermState) (h : WF s)
    (hrun : ingest_printable s c = some s') : Keeps c s s' := by
  obtain ⟨h1, h2, h3, h4, h5⟩ := (wf_iff s).1 h
  by_cases hg : MAX_STR_LEN - 2 < s.index
  · rw [ingest_printable_guard s c h hg] at hrun
    obtain rfl := Option.some.inj hrun
    exact keeps_of_empty c s _ (Nat.zero_le _) rfl
  · have hi : s.index ≤ MAX_STR_LEN - 2 := Nat.not_lt.1 hg
    by_cases hc : 32 ≤ c ∧ 126 ≥ c
    · by_cases hlt : s.index < s.length
      · by_cases hl : s.length ≤ MAX_STR_LEN - 2
        · rw [ingest_printable_insert s c h hc hlt hl] at hrun
          obtain rfl := Option.some.inj hrun
          simp only [MAX_STR_LEN] at hl
          refine ⟨le_refl _, ?_⟩
          intro b hb
          simp only [content] at hb ⊢
          rw [take_set_ins_at s.buf s.index s.length c h3 (by omega)] at hb
          rcases List.mem_append.1 hb with hb | hb
          · exact Or.inl (List.mem_of_mem_take hb)
          · rcases List.mem_cons.1 hb with hb | hb
            · exact Or.inr ⟨hb, hc⟩
            · exact Or.inl (List.mem_of_mem_drop hb)
        · rw [ingest_printable_full s c hi hc hlt (Nat.not_le.1 hl)] at hrun
          obtain rfl := Option.some.inj hrun
          exact keeps_refl c s
      · have he : s.index = s.length := by omega
        rw [ingest_printable_append s c h hi hc he] at hrun
        obtain rfl := Option.some.inj hrun
        simp only [MAX_STR_LEN] at hi
        refine ⟨le_refl _, ?_⟩
        intro b hb
        simp only [content] at hb ⊢
        rw [he, take_set_succ s.buf s.length c (by omega)] at hb
        rcases List.mem_append.1 hb with hb | hb
        · exact Or.inl hb
        · exact Or.inr ⟨List.mem_singleton.1 hb, hc⟩
    · rw [ingest_printable_other s c hi hc] at hrun
      obtain rfl := Option.some.inj hrun
      exact keeps_refl c s

theorem keeps_ingest_keys (c : Nat) (s s' : UcTermState) (h : WF s)
    (hrun : ingest_keys s c = some s') : Keeps c s s' := by
  unfold ingest_keys at hrun
  split at hrun
  · exact keeps_ingest_enter c s s' h hrun
  · split at hrun
    · exact keeps_ingest_backspace c s s' h hrun
    · split at hrun
      · obtain rfl := Option.some.inj hrun
        exact keeps_process_home c s
      · split at hrun
        · obtain rfl := Option.some.inj hrun
          exact keeps_process_end c s
        · have hB : WF (if Ctrl_B = c then _process_left_arrow s else s) ∧
              Keeps c s (if Ctrl_B = c then _process_left_arrow s else s) := by
            split
            · exact ⟨wf_process_left_arrow s h, keeps_process_left_arrow c s⟩
            · exact ⟨h, keeps_refl c s⟩
          have hF : WF (if Ctrl_F = c then
              _process_right_arrow (if Ctrl_B = c then _process_left_arrow s else s)
              else (if Ctrl_B = c then _process_left_arrow s else s)) ∧
              Keeps c s (if Ctrl_F = c then
              _process_right_arrow (if Ctrl_B = c then _process_left_arrow s else s)
              else (if Ctrl_B = c then _process_left_arrow s else s)) := by
            split
            · exact ⟨wf_process_right_arrow _ hB.1,
                keeps_trans c _ _ _ hB.2 (keeps_process_right_arrow c _)⟩
            · exact hB
          dsimp only at hrun
          split at hrun
          · exact keeps_trans c _ _ _ hF.2 (keeps_ingest_ctrl_u c _ s' hF.1 hrun)
          · split at hrun
            · exact keeps_trans c _ _ _ hF.2 (keeps_ingest_ctrl_k c _ s' hF.1 hrun)
            · exact keeps_trans c _ _ _ hF.2 (keeps_ingest_printable c _ s' hF.1 hrun)

theorem keeps_esc_dispatch (c : Nat) (s s' : UcTermState) (h : WF s)
    (hrun : esc_dispatch s c = some s') : Keeps c s s' := by
  obtain ⟨h1, h2, h3, h4, h5⟩ := (wf_iff s).1 h
  unfold esc_dispatch at hrun
  split at hrun
  · split at hrun
    · obtain rfl := Option.some.inj hrun
      exact keeps_process_left_arrow c s
    · split at hrun
      · obtain rfl := Option.some.inj hrun
        exact keeps_process_right_arrow c s
      · obtain rfl := Option.some.inj hrun
        exact keeps_refl c s
  · split at hrun
    · have hlt : 1 < s.esc_buf.length := by omega
      have he : load s.esc_buf 1 = some (s.esc_buf[1]) := by
        simp [load, List.getElem?_eq_getElem hlt]
      rw [he] at hrun
      simp only [Option.bind_eq_bind, Option.some_bind] at hrun
      split at hrun
      · obtain rfl := Option.some.inj hrun
        exact keeps_process_home c s
      · split at hrun
        · obtain rfl := Option.some.inj hrun
          exact keeps_process_end c s
        · split at hrun
          · exact keeps_process_delete c s s' h hrun
          · obtain rfl := Option.some.inj hrun
            exact keeps_refl c s
    · obtain rfl := Option.some.inj hrun
      exact keeps_refl c s

theorem step_ingest_escape (c : Nat) (s s' : UcTermState) (h : WF s)
    (hrun : ingest_escape s c = some s') :
    s'.esc_index ≤ MAX_ESC_LEN ∧
      ∀ b ∈ content s', b ∈ content s ∨ (b = c ∧ 32 ≤ c ∧ 126 ≥ c) := by
  obtain ⟨h1, h2, h3, h4, h5⟩ := (wf_iff s).1 h
  by_cases hk : 4 ≤ s.esc_index
  · rw [ingest_escape_overflow s c hk (by omega)] at hrun
    obtain rfl := Option.some.inj hrun
    exact ⟨Nat.zero_le _, fun b hb => Or.inl hb⟩
  · have hk4 : s.esc_index < 4 := by omega
    by_cases ht : 64 ≤ c ∧ 126 ≥ c
    · rw [ingest_escape_final s c hk4 h2 ht] at hrun
      have hwf : WF { s with
          esc_buf := s.esc_buf.set s.esc_index c, esc_index := s.esc_index + 1 } := by
        simp only [wf_iff, List.length_set]
        exact ⟨h1, h2, h3, h4, h5⟩
      obtain ⟨s1, hd, hwf1⟩ := wf_esc_dispatch _ c hwf
      have hkeep := keeps_esc_dispatch c _ s1 hwf hd
      have he1 : 0 < s1.esc_buf.length := by
        have := ((wf_iff s1).1 hwf1).2.1
        omega
      rw [hd, Option.some_bind, reset_esc_buf_eq s1 he1] at hrun
      obtain rfl := Option.some.inj hrun
      exact ⟨Nat.zero_le _, fun b hb => hkeep.2 b hb⟩
    · rw [ingest_escape_param s c hk4 h2 ht] at hrun
      obtain rfl := Option.some.inj hrun
      exact ⟨by simp only [MAX_ESC_LEN]; omega, fun b hb => Or.inl hb⟩

theorem step_ingest (c : Nat) (s s' : UcTermState) (h : WF s)
    (he : s.esc_index ≤ MAX_ESC_LEN) (hrun : UcTerm_IngestChar s c = some s') :
    s'.esc_index ≤ MAX_ESC_LEN ∧
      ∀ b ∈ content s', b ∈ content s ∨ (b = c ∧ 32 ≤ c ∧ 126 ≥ c) := by
  obtain ⟨h1, h2, h3, h4, h5⟩ := (wf_iff s).1 h
  unfold UcTerm_IngestChar at hrun
  split at hrun
  · rw [store_eq s.esc_buf 0 ESC_HEADER (by omega)] at hrun
    simp only [Option.bind_eq_bind, Option.some_bind] at hrun
    obtain rfl := Option.some.inj hrun
    exact ⟨he, fun b hb => Or.inl hb⟩
  · split at hrun
    · rw [store_eq s.esc_buf 0 ESC_SEPRTR (by omega)] at hrun
      simp only [Option.bind_eq_bind, Option.some_bind] at hrun
      obtain rfl := Option.some.inj hrun
      exact ⟨by simp [MAX_ESC_LEN], fun b hb => Or.inl hb⟩
    · have hpre : ∃ s1, (if ESC_SEPRTR = c then _reset_esc_buf s else some s) = some s1 ∧
          WF s1 ∧ Keeps c s s1 := by
        split
        · refine ⟨_, reset_esc_buf_eq s (by omega), ?_, Nat.zero_le _, fun b hb => Or.inl hb⟩
          simp only [wf_iff, List.length_set]
          exact ⟨h1, h2, h3, h4, h5⟩
        · exact ⟨s, rfl, h, keeps_refl c s⟩
      obtain ⟨s1, hs1, hwf1, hk1⟩ := hpre
      rw [hs1] at hrun
      have hlt : 0 < s1.esc_buf.length := by
        have := ((wf_iff s1).1 hwf1).2.1
        omega
      have hl : load s1.esc_buf 0 = some (s1.esc_buf[0]) := by
        simp [load, List.getElem?_eq_getElem hlt]
      simp only [Option.some_bind, hl] at hrun
      split at hrun
      · obtain ⟨e1, e2⟩ := step_ingest_escape c s1 s' hwf1 hrun
        refine ⟨e1, ?_⟩
        intro b hb
        rcases e2 b hb with hb1 | hb1
        · exact hk1.2 b hb1
        · exact Or.inr hb1
      · have hk2 := keeps_trans c s s1 s' hk1 (keeps_ingest_keys c s1 s' hwf1 hrun)
        exact ⟨le_trans hk2.1 he, hk2.2⟩

theorem inv_ingest_all (cs : List Nat) :
    ∀ s, WF s → s.esc_index ≤ MAX_ESC_LEN → (∀ b ∈ content s, 32 ≤ b ∧ 126 ≥ b) →
      ∃ s', ingest_all s cs = some s' ∧ WF s' ∧ s'.esc_index ≤ MAX_ESC_LEN ∧
        ∀ b ∈ content s', 32 ≤ b ∧ 126 ≥ b := by
  induction cs with
  | nil => intro s h he hp; exact ⟨s, rfl, h, he, hp⟩
  | cons c cs ih =>
    intro s h he hp
    obtain ⟨s1, h1, hwf1⟩ := wf_ingest s c h
    obtain ⟨he1, hc1⟩ := step_ingest c s s1 h he h1
    have hp1 : ∀ b ∈ content s1, 32 ≤ b ∧ 126 ≥ b := by
      intro b hb
      rcases hc1 b hb with hb1 | hb1
      · exact hp b hb1
      · rw [hb1.1]; exact hb1.2
    obtain ⟨s2, h2, hwf2, he2, hp2⟩ := ih s1 hwf1 he1 hp1
    exact ⟨s2, by simp [ingest_all, h1, h2], hwf2, he2, hp2⟩

theorem inv_init : UcTerm_Init.esc_index ≤ MAX_ESC_LEN ∧
    ∀ b ∈ content UcTerm_Init, 32 ≤ b ∧ 126 ≥ b := by
  refine ⟨by decide, ?_⟩
  intro b hb
  simp [content, UcTerm_Init] at hb

/-- C32: after any sequence of bytes ingested into a fresh session, every byte
of the line `buf[0 .. length)` lies in `0x20 .. 0x7E`; the line holds no NUL
byte and has `length` bytes, so that the string the tokenizer scans at a
submit, read from `buf[0]` once `buf[length] = 0` is written, is the whole
line. -/
theorem line_content_printable (cs : List Nat) :
    ∃ s, ingest_all UcTerm_Init cs = some s ∧
      (∀ b ∈ content s, 32 ≤ b ∧ 126 ≥ b) ∧ (∀ b ∈ content s, b ≠ 0) ∧
      (content s).length = s.length ∧
      cstr (s.buf.set s.length 0) 0 = some (content s) := by
  obtain ⟨s, hrun, hwf, _, hp⟩ := inv_ingest_all cs UcTerm_Init wf_init inv_init.1 inv_init.2
  obtain ⟨h1, h2, h3, h4, h5⟩ := (wf_iff s).1 hwf
  have h0 : ∀ b ∈ content s, b ≠ 0 := by
    intro b hb
    have := hp b hb
    omega
  refine ⟨s, hrun, hp, h0, ?_, ?_⟩
  · simp only [content, List.length_take]
    omega
  · rw [set_length_split s (by omega)]
    simp only [cstr, List.drop_zero]
    rw [cstr0_of_mem _ (by simp), List.takeWhile_append_of_pos]
    · simp
    · intro b hb
      simpa using h0 b hb

/-- C33: for every sequence of bytes ingested into a fresh session every call
of `UcTerm_IngestChar` returns, that is no load, store, string read or
`memmove` range of the embedding leaves its array; the line buffer keeps its
`MAX_STR_LEN` bytes and the escape buffer its `MAX_ESC_LEN` bytes,
`index ≤ length ≤ MAX_STR_LEN - 1`, and the escape write index never exceeds
`MAX_ESC_LEN`. -/
theorem accesses_in_bounds (cs : List Nat) :
    ∃ s, ingest_all UcTerm_Init cs = some s ∧
      s.buf.length = MAX_STR_LEN ∧ s.esc_buf.length = MAX_ESC_LEN ∧
      s.esc_index ≤ MAX_ESC_LEN ∧ s.index ≤ s.length ∧ s.length ≤ MAX_STR_LEN - 1 := by
  obtain ⟨s, hrun, hwf, he, _⟩ := inv_ingest_all cs UcTerm_Init wf_init inv_init.1 inv_init.2
  exact ⟨s, hrun, hwf.1, hwf.2.1, he, hwf.2.2.1, hwf.2.2.2.1⟩

end UcTerm
